import Mathlib

/-!
# go-ipfs: the reprovide engine and the command request options

A shallow embedding of two parts of the repository.

* `reprovide`: the re-announcement engine (`exchange/reprovide`).  Only its test,
  `TestReprovide`, is available; the engine, the routing service and the scheduler are
  modelled from the specification (sections 3, 4, 6 and 7).
* `commands`: `commands/request.go`, embedded from the source: the `Context` caches, the
  option map of a `request`, `Option`, `Options`, `SetOption`, `SetOptions`,
  `ConvertOptions` and `NewRequest`.

Definitions come first, theorems after them.
-/

set_option autoImplicit false

/-! ## Part I. Definitions -/

namespace reprovide

/-- Modelled from the spec: the Key of section 3, the digest bytes of a block (opaque,
compared bytewise). -/
abbrev Key := List Nat

/-- Modelled from the spec: the PeerID of section 3. -/
abbrev PeerID := Nat

/-- Modelled from the spec: the two failure classes of a `Provide` attempt (section 4.2). -/
inductive ProvideError where
  | transient
  | nonRetryable
deriving DecidableEq, Repr

/-- Modelled from the spec: the ContentRouting stub behaviour, missing from the sources.
`behaviour key i` is the outcome of attempt number `i` (counted from 0) at announcing
`key`: `none` for success, `some e` for a failure of class `e`. -/
abbrev Behaviour := Key → Nat → Option ProvideError

/-- Modelled from the spec: the routing service shared by the clients (the mock routing
server of the test), missing from the sources.  It stores the provider assertions
`(key, peer)` of section 3. -/
structure RoutingService where
  assertions : List (Key × PeerID)
deriving DecidableEq, Repr

/-- Modelled from the spec: the service records a successful `Provide(key)` of `peer`.
Announcing again a key already announced succeeds and adds nothing (section 8,
idempotence). -/
def RoutingService.record (s : RoutingService) (key : Key) (peer : PeerID) : RoutingService :=
  if (key, peer) ∈ s.assertions then s else { assertions := s.assertions ++ [(key, peer)] }

/-- Modelled from the spec: one `Provide(key)` attempt of client `peer`, attempt number
`attempt` for this key. -/
def Provide (behaviour : Behaviour) (peer : PeerID) (s : RoutingService) (key : Key)
    (attempt : Nat) : RoutingService × Option ProvideError :=
  match behaviour key attempt with
  | none => (s.record key peer, none)
  | some e => (s, some e)

/-- Modelled from the spec: the per-key announcement of a worker (sections 4.1, 4.2 and 9):
attempt, retry a transient failure while retries are left, give up at once on a
non-retryable one.  The Boolean is `true` for Succeeded and `false` for PermanentlyFailed. -/
def announce (behaviour : Behaviour) (peer : PeerID) (key : Key) :
    (retriesLeft : Nat) → (attempt : Nat) → RoutingService → RoutingService × Bool
  | retriesLeft, attempt, s =>
    match Provide behaviour peer s key attempt with
    | (s1, none) => (s1, true)
    | (s1, some ProvideError.nonRetryable) => (s1, false)
    | (s1, some ProvideError.transient) =>
      match retriesLeft with
      | 0 => (s1, false)
      | r + 1 => announce behaviour peer key r (attempt + 1) s1

/-- Modelled from the spec: the CycleResult of section 3. -/
structure CycleResult where
  attempted : Nat
  succeeded : Nat
  permanentlyFailed : Nat
  failedKeys : List Key
deriving DecidableEq, Repr

/-- Modelled from the spec: the cycle-abort errors of section 7. -/
inductive CycleError where
  | cancelled
  | enumerationFailed
deriving DecidableEq, Repr

/-- Modelled from the spec: the BlockSource of section 6: a finite key sequence, and
whether the enumeration itself fails once these keys have been produced. -/
structure BlockSource where
  keys : List Key
  enumerationFails : Bool
deriving DecidableEq, Repr

/-- Modelled from the spec: the Reprovider of section 4.1: the client it announces through
(its peer and the behaviour the routing layer shows it), the BlockSource and the retry
budget.  The worker count and the per-key timeout bound time only and are not modelled: a
timeout shows as a transient failure of the attempt. -/
structure Reprovider where
  peer : PeerID
  behaviour : Behaviour
  source : BlockSource
  maxRetries : Nat

/-- Modelled from the spec: the aggregator step of section 4.2, which adds one terminal
outcome to the counts. -/
def CycleResult.add (c : CycleResult) (key : Key) (ok : Bool) : CycleResult :=
  if ok then { c with attempted := c.attempted + 1, succeeded := c.succeeded + 1 }
  else { c with attempted := c.attempted + 1, permanentlyFailed := c.permanentlyFailed + 1,
                failedKeys := c.failedKeys ++ [key] }

/-- Modelled from the spec: the body of a cycle over the remaining keys.  `cancelAfter` is
the context: `some n` is cancelled once `n` keys have been dequeued, `none` is never
cancelled.  A cancelled cycle stops dequeuing and returns the cancellation error; a completed
enumeration that failed returns the enumeration error. -/
def cycle (rp : Reprovider) (cancelAfter : Option Nat) :
    List Key → (dequeued : Nat) → RoutingService → CycleResult →
      RoutingService × CycleResult × Option CycleError
  | [], _, s, c =>
    (s, c, if rp.source.enumerationFails then some CycleError.enumerationFailed else none)
  | key :: rest, dequeued, s, c =>
    if cancelAfter.any (fun n => n ≤ dequeued) then (s, c, some CycleError.cancelled)
    else
      match announce rp.behaviour rp.peer key rp.maxRetries 0 s with
      | (s1, ok) => cycle rp cancelAfter rest (dequeued + 1) s1 (c.add key ok)

/-- Modelled from the spec: `Reprovide(ctx, concurrency, perKeyTimeout, maxRetries)`: one
pass over the BlockSource, returning the routing service after the announcements, the
CycleResult and the cycle-level error. -/
def Reprovider.Reprovide (rp : Reprovider) (cancelAfter : Option Nat) (s : RoutingService) :
    RoutingService × CycleResult × Option CycleError :=
  cycle rp cancelAfter rp.source.keys 0 s
    { attempted := 0, succeeded := 0, permanentlyFailed := 0, failedKeys := [] }

/-- A routing layer that fails for the keys starting with byte 0: two of the keys time out
on every attempt, and succeeds for the others, for one of them only at the second attempt. -/
def flaky : Behaviour := fun key attempt =>
  match key with
  | 0 :: _ => some ProvideError.transient
  | 1 :: _ => if attempt = 0 then some ProvideError.transient else none
  | _ => none

/-- A reprovider over five keys on the `flaky` routing layer, with one retry. -/
def reproviderFlaky : Reprovider :=
  { peer := 1, behaviour := flaky,
    source := { keys := [[0, 1], [1, 1], [2], [0, 2], [3]], enumerationFails := false },
    maxRetries := 1 }

/-- A new routing service: no assertion yet. -/
def newService : RoutingService := { assertions := [] }

/-- `Provide` fails for `key` after exhausting the retries: no attempt within the budget
succeeds after transient failures only. -/
def PermanentlyFails (behaviour : Behaviour) (maxRetries : Nat) (key : Key) : Prop :=
  ¬ ∃ i, i ≤ maxRetries ∧ behaviour key i = none ∧
      ∀ j, j < i → behaviour key j = some ProvideError.transient

instance (behaviour : Behaviour) (maxRetries : Nat) (key : Key) :
    Decidable (PermanentlyFails behaviour maxRetries key) := by
  unfold PermanentlyFails
  exact inferInstance

/-- Modelled from the spec: the states of the CycleScheduler of section 4.3. -/
inductive SchedulerState where
  | Idle
  | Running
  | Stopped
deriving DecidableEq, Repr

/-- Modelled from the spec: what can happen to the scheduler of section 4.3: the timer
fires, the running cycle ends, a stop is requested. -/
inductive SchedulerEvent where
  | tick
  | cycleDone
  | stop
deriving DecidableEq, Repr

/-- Modelled from the spec: the CycleScheduler of section 4.3, missing from the sources:
its state, the number of cycles now active, the number of cycles started so far, and
whether a stop was requested while a cycle was running. -/
structure CycleScheduler where
  state : SchedulerState
  active : Nat
  started : Nat
  stopping : Bool
deriving DecidableEq, Repr

/-- Modelled from the spec: a new scheduler is idle and has started nothing. -/
def CycleScheduler.init : CycleScheduler :=
  { state := SchedulerState.Idle, active := 0, started := 0, stopping := false }

/-- Modelled from the spec: the transitions of section 4.3.  A tick starts a cycle only in
`Idle` and is dropped in `Running`; the end of the cycle leads back to `Idle`, and from
there at once to `Stopped` when a stop was requested meanwhile; a stop request in `Idle`
stops at once. -/
def CycleScheduler.step (s : CycleScheduler) : SchedulerEvent → CycleScheduler
  | SchedulerEvent.tick =>
    match s.state with
    | SchedulerState.Idle =>
      { s with state := SchedulerState.Running, active := s.active + 1,
               started := s.started + 1 }
    | SchedulerState.Running => s
    | SchedulerState.Stopped => s
  | SchedulerEvent.cycleDone =>
    match s.state with
    | SchedulerState.Running =>
      { s with state := if s.stopping then SchedulerState.Stopped else SchedulerState.Idle,
               active := s.active - 1 }
    | SchedulerState.Idle => s
    | SchedulerState.Stopped => s
  | SchedulerEvent.stop =>
    match s.state with
    | SchedulerState.Idle => { s with state := SchedulerState.Stopped }
    | SchedulerState.Running => { s with stopping := true }
    | SchedulerState.Stopped => s

/-- The scheduler after a sequence of events. -/
def CycleScheduler.run (s : CycleScheduler) (events : List SchedulerEvent) : CycleScheduler :=
  events.foldl CycleScheduler.step s

/-- The states the scheduler can be in: those a new scheduler reaches by some events. -/
def CycleScheduler.Reachable (s : CycleScheduler) : Prop :=
  ∃ events, CycleScheduler.init.run events = s

/-- The invariant of the scheduler: a cycle is active exactly in state `Running`, and then
only one. -/
def CycleScheduler.Inv (s : CycleScheduler) : Prop :=
  (s.state = SchedulerState.Running → s.active = 1) ∧
  (s.state ≠ SchedulerState.Running → s.active = 0)

end reprovide

/-! ### The Go library functions used by `commands/request.go` -/

namespace strconv

/-- The error kinds of package `strconv`. -/
inductive NumError where
  | ErrSyntax
  | ErrRange
  | ErrBase
  | ErrBitSize
deriving DecidableEq, Repr

/-- `strconv.IntSize`, the width of an `int`, on a 64-bit platform. -/
def IntSize : Nat := 64

/-- A value converted to the Go type `int`: wrapped into the signed range of `IntSize`
bits. -/
def toInt (i : Int) : Int :=
  (i + 2 ^ (IntSize - 1)) % 2 ^ IntSize - 2 ^ (IntSize - 1)

/-- `lower(c)`, that is `c | ('x' - 'X')`, on a byte value. -/
def lower (c : Nat) : Nat := c ||| 0x20

/-- `strconv.ParseBool`. -/
def ParseBool (str : String) : Bool × Option NumError :=
  if str = "1" ∨ str = "t" ∨ str = "T" ∨ str = "true" ∨ str = "TRUE" ∨ str = "True" then
    (true, none)
  else if str = "0" ∨ str = "f" ∨ str = "F" ∨ str = "false" ∨ str = "FALSE" ∨ str = "False" then
    (false, none)
  else (false, some NumError.ErrSyntax)

/-- What `underscoreOK` saw last: the beginning of the number, a digit or base prefix, an
underscore, or anything else (`'^'`, `'0'`, `'_'` and `'!'` in the Go source). -/
inductive Saw where
  | start
  | digit
  | underscore
  | other
deriving DecidableEq, Repr

/-- The loop of `underscoreOK` over the number proper. -/
def underscoreOKLoop (hex : Bool) : List Char → Saw → Bool
  | [], saw => decide (saw ≠ Saw.underscore)
  | c :: cs, saw =>
    if (48 ≤ c.toNat ∧ c.toNat ≤ 57) ∨
        (hex = true ∧ 97 ≤ lower c.toNat ∧ lower c.toNat ≤ 102) then
      underscoreOKLoop hex cs Saw.digit
    else if c.toNat = 95 then
      if saw ≠ Saw.digit then false else underscoreOKLoop hex cs Saw.underscore
    else if saw = Saw.underscore then false
    else underscoreOKLoop hex cs Saw.other

/-- `strconv.underscoreOK`: underscores must separate digits, or a base prefix from a
digit. -/
def underscoreOK (s : List Char) : Bool :=
  let s1 := match s with
    | c :: rest => if c.toNat = 45 ∨ c.toNat = 43 then rest else s
    | [] => s
  match s1 with
  | c0 :: c1 :: rest =>
    if c0.toNat = 48 ∧ (lower c1.toNat = 98 ∨ lower c1.toNat = 111 ∨ lower c1.toNat = 120) then
      underscoreOKLoop (decide (lower c1.toNat = 120)) rest Saw.digit
    else underscoreOKLoop false s1 Saw.start
  | _ => underscoreOKLoop false s1 Saw.start

/-- The base and the digits that `ParseUint` settles on: the given base when it is between 2
and 36; for base 0 the base implied by the prefix; `none` for an invalid base. -/
def selectBase (s : List Char) (base : Nat) : Option (Nat × List Char) :=
  if 2 ≤ base ∧ base ≤ 36 then some (base, s)
  else if base = 0 then
    match s with
    | c0 :: rest =>
      if c0.toNat = 48 then
        match rest with
        | c1 :: _ :: _ =>
          if lower c1.toNat = 98 then some (2, s.drop 2)
          else if lower c1.toNat = 111 then some (8, s.drop 2)
          else if lower c1.toNat = 120 then some (16, s.drop 2)
          else some (8, rest)
        | _ => some (8, rest)
      else some (10, s)
    | [] => some (10, s)
  else none

/-- The value of a byte as a digit in `ParseUint`: `'0'` to `'9'` stand for 0 to 9, a letter
of either case for 10 to 35. -/
def digitValue (c : Nat) : Option Nat :=
  if 48 ≤ c ∧ c ≤ 57 then some (c - 48)
  else if 97 ≤ lower c ∧ lower c ≤ 122 then some (lower c - 97 + 10)
  else none


/-- The digit loop of `ParseUint` on 64-bit unsigned arithmetic: the value so far, whether
an underscore was seen, and the error that stopped the loop. -/
def parseUintLoop (base : Nat) (base0 : Bool) (cutoff maxVal : Nat) :
    List Char → Nat → Bool → Nat × Bool × Option NumError
  | [], n, underscores => (n, underscores, none)
  | c :: cs, n, underscores =>
    if c.toNat = 95 ∧ base0 = true then parseUintLoop base base0 cutoff maxVal cs n true
    else
      match digitValue c.toNat with
      | none => (0, underscores, some NumError.ErrSyntax)
      | some d =>
        if d ≥ base then (0, underscores, some NumError.ErrSyntax)
        else if n ≥ cutoff then (maxVal, underscores, some NumError.ErrRange)
        else
          let nb := n * base % 2 ^ 64
          let n1 := (nb + d) % 2 ^ 64
          if n1 < nb ∨ n1 > maxVal then (maxVal, underscores, some NumError.ErrRange)
          else parseUintLoop base base0 cutoff maxVal cs n1 underscores

/-- `strconv.ParseUint(s, base, bitSize)` of the Go library on the characters of `s`.  A
character outside ASCII stands for bytes that are all at least 0x80, which the parser
rejects just like the character. -/
def ParseUint (s : List Char) (base bitSize : Nat) : Nat × Option NumError :=
  if s = [] then (0, some NumError.ErrSyntax)
  else
    match selectBase s base with
    | none => (0, some NumError.ErrBase)
    | some (b, digits) =>
      if bitSize > 64 then (0, some NumError.ErrBitSize)
      else
        let bits := if bitSize = 0 then IntSize else bitSize
        let cutoff := (2 ^ 64 - 1) / b + 1
        let maxVal := 2 ^ bits - 1
        match parseUintLoop b (decide (base = 0)) cutoff maxVal digits 0 false with
        | (n, _, some e) => (n, some e)
        | (n, underscores, none) =>
          if underscores = true ∧ underscoreOK s = false then (0, some NumError.ErrSyntax)
          else (n, none)

/-- `strconv.ParseInt(s, base, bitSize)` on the characters of `s`. -/
def ParseInt (s : List Char) (base bitSize : Nat) : Int × Option NumError :=
  match s with
  | [] => (0, some NumError.ErrSyntax)
  | c :: rest =>
    let neg := decide (c.toNat = 45)
    let s1 := if c.toNat = 43 ∨ c.toNat = 45 then rest else s
    match ParseUint s1 base bitSize with
    | (un, err) =>
      if err ≠ none ∧ err ≠ some NumError.ErrRange then (0, err)
      else
        let bits := if bitSize = 0 then IntSize else bitSize
        let cutoff : Nat := 2 ^ (bits - 1)
        if neg = false ∧ un ≥ cutoff then (Int.ofNat cutoff - 1, some NumError.ErrRange)
        else if neg = true ∧ un > cutoff then (- Int.ofNat cutoff, some NumError.ErrRange)
        else (if neg then - Int.ofNat un else Int.ofNat un, none)

/-- The decimal representation of an integer: the decimal digits of its absolute value,
after a minus sign when it is negative. -/
def decimal (n : Int) : String :=
  match n with
  | Int.ofNat m => Nat.repr m
  | Int.negSucc m => "-" ++ Nat.repr (m + 1)

/-! ### Integer literals of the Go language -/

/-- A digit of an integer literal of the Go language in the given base (2, 8, 10 or 16):
`'0'` up to the base, and `'a'` to `'f'` in either case for base 16. -/
def isLitDigit (base : Nat) (c : Char) : Bool :=
  decide ((48 ≤ c.toNat ∧ c.toNat ≤ 57 ∧ c.toNat - 48 < base) ∨
    (base = 16 ∧ ((65 ≤ c.toNat ∧ c.toNat ≤ 70) ∨ (97 ≤ c.toNat ∧ c.toNat ≤ 102))))

/-- The grammar `{ [ "_" ] digit }` of the Go language, read from left to right: digits, each
with at most one underscore before it.  The flag tells that an underscore was just read, so
that a digit must follow. -/
def sepDigits (base : Nat) : Bool → List Char → Bool
  | afterUnderscore, [] => !afterUnderscore
  | afterUnderscore, c :: cs =>
    if c.toNat = 95 then !afterUnderscore && sepDigits base true cs
    else isLitDigit base c && sepDigits base false cs

/-- The grammar `{ [ "_" ] digit }`: what may follow a digit. -/
def moreDigits (base : Nat) (cs : List Char) : Bool := sepDigits base false cs

/-- The grammar `digit { [ "_" ] digit }`: the `decimal_digits`, `binary_digits`,
`octal_digits` and `hex_digits` of the Go language. -/
def litDigits (base : Nat) : List Char → Bool
  | [] => false
  | c :: cs => isLitDigit base c && moreDigits base cs

/-- The grammar `[ "_" ] digits` that follows a base prefix. -/
def prefixedDigits (base : Nat) : List Char → Bool
  | [] => false
  | c :: cs => if c.toNat = 95 then litDigits base cs else litDigits base (c :: cs)

/-- The grammar `int_lit` of the Go language: `decimal_lit`, `binary_lit`, `octal_lit` or
`hex_lit`. -/
def isIntLit : List Char → Bool
  | [] => false
  | c0 :: rest =>
    if c0.toNat = 48 then
      match rest with
      | [] => true
      | c1 :: rest1 =>
        if c1.toNat = 98 ∨ c1.toNat = 66 then prefixedDigits 2 rest1
        else if c1.toNat = 111 ∨ c1.toNat = 79 then prefixedDigits 8 rest1
        else if c1.toNat = 120 ∨ c1.toNat = 88 then prefixedDigits 16 rest1
        else prefixedDigits 8 rest
    else decide (49 ≤ c0.toNat ∧ c0.toNat ≤ 57) && moreDigits 10 rest

/-- An integer literal with an optional sign before it. -/
def isSignedIntLit : List Char → Bool
  | [] => false
  | c :: rest => if c.toNat = 43 ∨ c.toNat = 45 then isIntLit rest else isIntLit (c :: rest)

end strconv

namespace commands

/-! ### `commands/request.go`: values, option definitions, maps -/

/-- `reflect.Kind`, with the names the `commands` package gives to the kinds it declares
options with (`Float` is `reflect.Float64`); `Other` stands for every other kind. -/
inductive Kind where
  | Invalid
  | Bool
  | Int
  | Uint
  | Float
  | String
  | Other (code : Nat)
deriving DecidableEq, Repr

/-- A Go `interface{}` value: nil, a value of one of the basic types `bool`, `int`, `uint`,
`float64` (by its bits) and `string`, or a value of any other dynamic type, of which only
the kind matters (a defined string type has kind `String` and is not a `string`). -/
inductive Value where
  | nil
  | bool (b : Bool)
  | int (n : Int)
  | uint (n : Nat)
  | float64 (bits : Nat)
  | string (s : String)
  | other (kind : Kind) (id : Nat)
deriving DecidableEq, Repr

/-- `reflect.TypeOf(v).Kind()`: `none` is the panic on the nil interface value, whose
`TypeOf` is nil. -/
def Value.kind : Value → Option Kind
  | Value.nil => none
  | Value.bool _ => some Kind.Bool
  | Value.int _ => some Kind.Int
  | Value.uint _ => some Kind.Uint
  | Value.float64 _ => some Kind.Float
  | Value.string _ => some Kind.String
  | Value.other kind _ => some kind

/-- The type assertion `v.(string)`. -/
def Value.asString : Value → Option String
  | Value.string s => some s
  | _ => none

/-- An option definition, the interface `Option` of the package (declared outside
`request.go`): what its methods `Names()` and `Type()` return. -/
structure OptionDef where
  Names : List String
  Type_ : Kind
deriving DecidableEq, Repr

/-- The map `optionDefs` of a request.  It is only read, and a nil map reads like an empty
one, so it is a lookup function. -/
abbrev OptionDefs := String → Option OptionDef

/-- The entries of an allocated Go map from option names to values. -/
abbrev Entries := String → Option Value

/-- A value of type `OptMap`: nil, or a reference to an allocated map. -/
inductive OptMap where
  | nil
  | ref (addr : Nat)
deriving DecidableEq, Repr

/-- The allocated maps: the entries behind every address and the next free address. -/
structure Heap where
  maps : Nat → Entries
  next : Nat

/-- `v, found := m[k]`: a nil map has no entry. -/
def Heap.lookup (h : Heap) (m : OptMap) (k : String) : Option Value :=
  match m with
  | OptMap.nil => none
  | OptMap.ref a => h.maps a k

/-- The assignment `m[k] = v` on the allocated map at address `a`. -/
def Heap.assign (h : Heap) (a : Nat) (k : String) (v : Value) : Heap :=
  { h with maps := Function.update h.maps a (Function.update (h.maps a) k (some v)) }

/-- The assignment `m[k] = v`: `none` is the panic of an assignment to an entry of a nil
map. -/
def Heap.store (h : Heap) (m : OptMap) (k : String) (v : Value) : Option Heap :=
  match m with
  | OptMap.nil => none
  | OptMap.ref a => some (h.assign a k v)

/-- `delete(m, k)`; a no-op on a nil map. -/
def Heap.delete (h : Heap) (m : OptMap) (k : String) : Heap :=
  match m with
  | OptMap.nil => h
  | OptMap.ref a => { h with maps := Function.update h.maps a (Function.update (h.maps a) k none) }

/-- `make(OptMap)`: a new empty map at the next free address. -/
def Heap.make (h : Heap) : Heap × OptMap :=
  ({ maps := Function.update h.maps h.next (fun _ => none), next := h.next + 1 },
    OptMap.ref h.next)

/-- The map value refers to an allocated map (or is nil). -/
def Heap.Allocated (h : Heap) (m : OptMap) : Prop :=
  match m with
  | OptMap.nil => True
  | OptMap.ref a => a < h.next

instance (h : Heap) (m : OptMap) : Decidable (h.Allocated m) :=
  match m with
  | OptMap.nil => isTrue trivial
  | OptMap.ref a => inferInstanceAs (Decidable (a < h.next))

/-- A possible order in which `range` visits the map: every key once. -/
def VisitOrder (h : Heap) (m : OptMap) (order : List String) : Prop :=
  order.Nodup ∧ ∀ k, k ∈ order ↔ h.lookup m k ≠ none

/-- The errors that `ConvertOptions` returns.  `ErrCast` is the value of `u.ErrCast()`, the
cast error of the `util` package, taken to be a non-nil error; the others carry the
arguments of their message. -/
inductive Error where
  | ErrCast
  | CouldNotConvert (value : String) (type : Kind) (k : String)
  | WrongType (k : String) (type : Kind) (kind : Kind)
  | Duplicate (k : String) (name : String)
deriving DecidableEq, Repr

/-- How a call that returns an `error` ends: with a nil error, with an error, or in a
run-time panic. -/
inductive Outcome where
  | nil
  | err (e : Error)
  | panic
deriving DecidableEq, Repr

/-- The struct `OptionValue`. -/
structure OptionValue where
  value : Value
  found : Bool
  definition : OptionDef
deriving DecidableEq, Repr

/-- The struct `request`, with the fields that the option methods read or write.  The fields
`files`, `cmd`, `ctx`, `values` and `stdin` are not touched by them. -/
structure request where
  path : List String
  options : OptMap
  arguments : List String
  optionDefs : OptionDefs

/-- The loop over `option.Names()` shared by `Option` and `SetOption`: the first name that
has an entry in the map, with its value. -/
def firstSet (h : Heap) (m : OptMap) : List String → Option (String × Value)
  | [] => none
  | n :: rest =>
    match h.lookup m n with
    | some val => some (n, val)
    | none => firstSet h m rest

/-- `request.Option(name)`: the value of the option for the given name; `none` is the nil
pointer returned for a name without definition. -/
def request.Option_ (r : request) (h : Heap) (name : String) : Option OptionValue :=
  match r.optionDefs name with
  | none => none
  | some option =>
    match firstSet h r.options option.Names with
    | some (_, val) => some { value := val, found := true, definition := option }
    | none => some { value := Value.nil, found := false, definition := option }

/-- The loop of `request.Options()`: copy the entries, in visiting order, into the map at
`output`. -/
def copyEntries (r : request) (output : Nat) : List String → Heap → Heap
  | [], h => h
  | k :: rest, h =>
    match h.lookup r.options k with
    | some v => copyEntries r output rest (h.assign output k v)
    | none => copyEntries r output rest h

/-- `request.Options()`: a copy of the option map, in a newly made map. -/
def request.Options (r : request) (order : List String) (h : Heap) : Heap × OptMap :=
  (copyEntries r h.next order h.make.1, h.make.2)

/-- `request.SetOption(name, val)`: the heap after the call; `none` is a panic. -/
def request.SetOption (r : request) (h : Heap) (name : String) (val : Value) : Option Heap :=
  match r.optionDefs name with
  | none => some h
  | some option =>
    match firstSet h r.options option.Names with
    | some (n, _) => h.store r.options n val
    | none => h.store r.options name val

/-- The table `converters`: `none` is the nil function that the lookup of a kind without
converter gives; a converter returns `none` for a non-nil error.  `strconv.ParseFloat` is a
parameter: it returns the bits of the parsed number, or `none` for an error. -/
def converters (ParseFloat : String → Option Nat) : Kind → Option (String → Option Value)
  | Kind.Bool => some fun v =>
      if v = "" then some (Value.bool true)
      else
        match strconv.ParseBool v with
        | (b, none) => some (Value.bool b)
        | (_, some _) => none
  | Kind.Int => some fun v =>
      match strconv.ParseInt v.toList 0 32 with
      | (val, none) => some (Value.int (strconv.toInt val))
      | (_, some _) => none
  | Kind.Uint => some fun v =>
      match strconv.ParseUint v.toList 0 32 with
      | (val, none) => some (Value.int (strconv.toInt (Int.ofNat val)))
      | (_, some _) => none
  | Kind.Float => some fun v =>
      match ParseFloat v with
      | some bits => some (Value.float64 bits)
      | none => none
  | _ => none

/-- The value description in the "Could not convert" message. -/
def describeValue (str : String) : String :=
  if str.length = 0 then "empty value" else "value '" ++ str ++ "'"

/-- The first part of the body of the loop of `ConvertOptions`, for the key `k` with value
`v` and definition `opt`: check the kind of the value, convert a string, store the result
under `k`.  The outcome `nil` means that the body goes on to the duplicate check. -/
def convertValue (ParseFloat : String → Option Nat) (r : request) (h : Heap) (k : String)
    (v : Value) (opt : OptionDef) : Heap × Outcome :=
  match v.kind with
  | none => (h, Outcome.panic)
  | some kind =>
    if kind ≠ opt.Type_ then
      if kind = Kind.String then
        match v.asString with
        | none => (h, Outcome.err Error.ErrCast)
        | some str =>
          match converters ParseFloat opt.Type_ with
          | none => (h, Outcome.panic)
          | some convert =>
            match convert str with
            | none => (h, Outcome.err (Error.CouldNotConvert (describeValue str) opt.Type_ k))
            | some val =>
              match h.store r.options k val with
              | some h1 => (h1, Outcome.nil)
              | none => (h, Outcome.panic)
      else (h, Outcome.err (Error.WrongType k opt.Type_ kind))
    else
      match h.store r.options k v with
      | some h1 => (h1, Outcome.nil)
      | none => (h, Outcome.panic)

/-- The second part of the body: the loop over `opt.Names()` that looks for another name of
the option among the keys. -/
def checkDuplicates (r : request) (h : Heap) (k : String) : List String → Outcome
  | [] => Outcome.nil
  | name :: rest =>
    if name ≠ k ∧ (h.lookup r.options name).isSome then Outcome.err (Error.Duplicate k name)
    else checkDuplicates r h k rest

/-- The loop of `ConvertOptions` over the keys in visiting order.  A key whose entry is gone
when its turn comes is not produced; a key without definition is skipped. -/
def convertLoop (ParseFloat : String → Option Nat) (r : request) :
    List String → Heap → Heap × Outcome
  | [], h => (h, Outcome.nil)
  | k :: rest, h =>
    match h.lookup r.options k with
    | none => convertLoop ParseFloat r rest h
    | some v =>
      match r.optionDefs k with
      | none => convertLoop ParseFloat r rest h
      | some opt =>
        match convertValue ParseFloat r h k v opt with
        | (h1, Outcome.nil) =>
          match checkDuplicates r h1 k opt.Names with
          | Outcome.nil => convertLoop ParseFloat r rest h1
          | out => (h1, out)
        | (h1, out) => (h1, out)

/-- `request.ConvertOptions()`, visiting the keys of the option map in the given order: the
heap after the call and how the call ends. -/
def request.ConvertOptions (r : request) (ParseFloat : String → Option Nat)
    (order : List String) (h : Heap) : Heap × Outcome :=
  convertLoop ParseFloat r order h

/-- `request.SetOptions(opts)`: the request with its option map replaced, the heap, and how
`ConvertOptions` ends. -/
def request.SetOptions (r : request) (ParseFloat : String → Option Nat) (opts : OptMap)
    (order : List String) (h : Heap) : request × Heap × Outcome :=
  let r1 := { r with options := opts }
  (r1, r1.ConvertOptions ParseFloat order h)

/-- `NewRequest(path, opts, args, file, cmd, optDefs)`: a nil `opts` is replaced by a new
map; the request is returned only when `ConvertOptions` returns a nil error (`none` is the
nil Request). -/
def NewRequest (ParseFloat : String → Option Nat) (path : List String) (opts : OptMap)
    (args : List String) (optDefs : OptionDefs) (order : List String) (h : Heap) :
    Option request × Heap × Outcome :=
  let hm : Heap × OptMap := if opts = OptMap.nil then h.make else (h, opts)
  let req : request :=
    { path := path, options := hm.2, arguments := args, optionDefs := optDefs }
  match req.ConvertOptions ParseFloat order hm.1 with
  | (h1, Outcome.nil) => (some req, h1, Outcome.nil)
  | (h1, out) => (none, h1, out)

/-- What a caller can do to a map it holds: set an entry (add or change) or delete one. -/
inductive Edit where
  | set (k : String) (v : Value)
  | delete (k : String)
deriving DecidableEq, Repr

/-- The heap after the caller has applied the edits, in order, to the map `m`. -/
def Heap.applyEdits (h : Heap) (m : OptMap) : List Edit → Heap
  | [] => h
  | Edit.set k v :: rest =>
    match h.store m k v with
    | some h1 => h1.applyEdits m rest
    | none => h
  | Edit.delete k :: rest => (h.delete m k).applyEdits m rest

/-! ### The conditions of the claims on option maps -/

/-- The value is acceptable for the option: it already has the declared kind, or it is a
string that the converter of the declared type accepts. -/
def ValueAccepted (ParseFloat : String → Option Nat) (v : Value) (opt : OptionDef) : Prop :=
  v.kind = some opt.Type_ ∨
    ∃ str convert, v = Value.string str ∧ converters ParseFloat opt.Type_ = some convert ∧
      convert str ≠ none

/-- No name of the option other than `k` is a key of the map. -/
def NoOtherName (h : Heap) (m : OptMap) (k : String) (opt : OptionDef) : Prop :=
  ∀ name ∈ opt.Names, name ≠ k → h.lookup m name = none

/-- The key `k` of the map, if it has a definition, has an acceptable value and no other
name of its option beside it. -/
def KeyValid (ParseFloat : String → Option Nat) (defs : OptionDefs) (h : Heap) (m : OptMap)
    (k : String) : Prop :=
  ∀ v opt, h.lookup m k = some v → defs k = some opt →
    ValueAccepted ParseFloat v opt ∧ NoOtherName h m k opt

/-- The map has no nil value. -/
def NonNilValues (h : Heap) (m : OptMap) : Prop :=
  ∀ k, h.lookup m k ≠ some Value.nil

/-- The declared types of the definitions are among Bool, Int, Uint, Float and String. -/
def DeclaredTypes (defs : OptionDefs) : Prop :=
  ∀ k opt, defs k = some opt →
    opt.Type_ = Kind.Bool ∨ opt.Type_ = Kind.Int ∨ opt.Type_ = Kind.Uint ∨
      opt.Type_ = Kind.Float ∨ opt.Type_ = Kind.String

/-! ### Concrete requests -/

/-- A stand-in for `strconv.ParseFloat` in concrete runs, which knows two numbers: the bits
of 0 and of 1. -/
def demoParseFloat : String → Option Nat := fun v =>
  if v = "0" then some 0 else if v = "1" then some 0x3FF0000000000000 else none

/-- A string option with two names. -/
def optEncoding : OptionDef := { Names := ["encoding", "enc"], Type_ := Kind.String }

/-- A Boolean option with two names. -/
def optRecursive : OptionDef := { Names := ["recursive", "r"], Type_ := Kind.Bool }

/-- An integer option with two names. -/
def optCount : OptionDef := { Names := ["count", "n"], Type_ := Kind.Int }

/-- Option definitions: every name of the three options above maps to its option. -/
def demoDefs : OptionDefs := fun name =>
  if name = "encoding" ∨ name = "enc" then some optEncoding
  else if name = "recursive" ∨ name = "r" then some optRecursive
  else if name = "count" ∨ name = "n" then some optCount
  else none

/-- A heap with one allocated map, at address 0, with the given entries. -/
def heapWith (entries : Entries) : Heap :=
  { maps := fun a => if a = 0 then entries else fun _ => none, next := 1 }

/-- A request over `demoDefs` whose option map is the map at address 0. -/
def demoRequest : request :=
  { path := [], options := OptMap.ref 0, arguments := [], optionDefs := demoDefs }

/-- The entries `enc: "json"` and `n: "42"`, both strings as a command line gives them. -/
def demoEntries : Entries := fun k =>
  if k = "enc" then some (Value.string "json")
  else if k = "n" then some (Value.string "42")
  else none

/-- The entries `enc: 5` and `n: "42"`: an integer under a name of the String option
`encoding`, and a decimal string under a name of the Int option `count`. -/
def wrongFirstEntries : Entries := fun k =>
  if k = "enc" then some (Value.int 5)
  else if k = "n" then some (Value.string "42")
  else none

/-- Two names of the option `encoding`, both with a nil value. -/
def nilEntries : Entries := fun k =>
  if k = "enc" ∨ k = "encoding" then some Value.nil else none

/-- An option declared with a kind that has no converter (23 is `reflect.Slice`). -/
def optOdd : OptionDef := { Names := ["x", "y"], Type_ := Kind.Other 23 }

/-- A request whose definitions map both names of `optOdd` to it. -/
def oddRequest : request :=
  { path := [], options := OptMap.ref 0, arguments := [],
    optionDefs := fun name => if name = "x" ∨ name = "y" then some optOdd else none }

/-- Both names of `optOdd`, with string values. -/
def oddEntries : Entries := fun k =>
  if k = "x" then some (Value.string "1")
  else if k = "y" then some (Value.string "2")
  else none

/-- Both names of the option `count`, with different values. -/
def clashEntries : Entries := fun k =>
  if k = "count" then some (Value.string "1")
  else if k = "n" then some (Value.int 2)
  else none

/-- A heap with two allocated maps: the entries `demoEntries` at address 0 and the single
entry `r: ""` at address 1. -/
def heapTwo : Heap :=
  { maps := fun a =>
      if a = 0 then demoEntries
      else if a = 1 then fun k => if k = "r" then some (Value.string "") else none
      else fun _ => none,
    next := 2 }

/-! ### `commands/request.go`: the `Context` caches -/

/-- A Go `error` value, known by the message that its method `Error()` returns. -/
structure GoError where
  message : String
deriving DecidableEq, Repr

/-- `errors.New(text)`: an error with the given message. -/
def errors.New (text : String) : GoError := { message := text }

/-- The struct `Context`.  A `*config.Config` and a `*core.IpfsNode` are pointers: `none` is
nil.  `LoadConfig` and `ConstructNode` are function values (`none` is nil) that may read and
change the world `W` outside the context and return an `error` (`none` is the nil error). -/
structure Context (Config Node W : Type) where
  Online : Bool
  ConfigRoot : String
  config : Option Config
  LoadConfig : Option (String → W → (Option Config × Option GoError) × W)
  node : Option Node
  ConstructNode : Option (W → (Option Node × Option GoError) × W)

/-- `Context.GetConfig()`: the result, the context after the call and the world after it. -/
def Context.GetConfig {Config Node W : Type} (c : Context Config Node W) (w : W) :
    (Option Config × Option GoError) × Context Config Node W × W :=
  match c.config with
  | none =>
    match c.LoadConfig with
    | none => ((none, some (errors.New "nil LoadConfig function")), c, w)
    | some load =>
      match load c.ConfigRoot w with
      | ((cfg, err), w1) => ((cfg, err), { c with config := cfg }, w1)
  | some cfg => ((some cfg, none), c, w)

/-- `Context.GetNode()`: the result, the context after the call and the world after it. -/
def Context.GetNode {Config Node W : Type} (c : Context Config Node W) (w : W) :
    (Option Node × Option GoError) × Context Config Node W × W :=
  match c.node with
  | none =>
    match c.ConstructNode with
    | none => ((none, some (errors.New "nil ConstructNode function")), c, w)
    | some construct =>
      match construct w with
      | ((nd, err), w1) => ((nd, err), { c with node := nd }, w1)
  | some nd => ((some nd, none), c, w)

/-- `Context.NodeWithoutConstructing()`. -/
def Context.NodeWithoutConstructing {Config Node W : Type} (c : Context Config Node W) :
    Option Node :=
  c.node

/-- A context with nothing cached, whose `ConstructNode` returns both a node and an error
and counts its calls in the world. -/
def halfBuilt : Context Nat Nat Nat :=
  { Online := false, ConfigRoot := "/repo", config := none, LoadConfig := none,
    node := none,
    ConstructNode := some fun calls =>
      ((some 7, some (errors.New "node is not online")), calls + 1) }

/-- A context with nothing cached, whose `LoadConfig` and `ConstructNode` are set, count
their calls in the world and return nil with an error that has the message of the error for
a nil function. -/
def echoing : Context Nat Nat Nat :=
  { Online := false, ConfigRoot := "/repo", config := none,
    LoadConfig := some fun _ calls =>
      ((none, some (errors.New "nil LoadConfig function")), calls + 1),
    node := none,
    ConstructNode := some fun calls =>
      ((none, some (errors.New "nil ConstructNode function")), calls + 1) }

/-! ### The loop body of ConvertOptions, key by key -/

/-- The body of the loop of `ConvertOptions` for the key `k` on the heap `h`: nothing for a
key without entry or without definition; otherwise the check and conversion of the value
and, when they pass, the check for another name of the option.  The outcome `nil` means that
the loop goes on: the key passes. -/
def visitKey (ParseFloat : String → Option Nat) (r : request) (h : Heap) (k : String) :
    Heap × Outcome :=
  match h.lookup r.options k with
  | none => (h, Outcome.nil)
  | some v =>
    match r.optionDefs k with
    | none => (h, Outcome.nil)
    | some opt =>
      match convertValue ParseFloat r h k v opt with
      | (h1, Outcome.nil) => (h1, checkDuplicates r h1 k opt.Names)
      | (h1, out) => (h1, out)

/-- The converted value of `v` for the option: `v` itself when it has the declared kind,
what the converter of the declared type makes of it when it is a string, and none
otherwise. -/
def convertedValue (ParseFloat : String → Option Nat) (v : Value) (opt : OptionDef) :
    Option Value :=
  if v.kind = some opt.Type_ then some v
  else
    match v.asString, converters ParseFloat opt.Type_ with
    | some str, some convert => convert str
    | _, _ => none

/-- The entries `enc: "json"`, `count: "1"` and `n: 2`: `count` and `n` are two names of one
option. -/
def mixedEntries : Entries := fun k =>
  if k = "enc" then some (Value.string "json")
  else if k = "count" then some (Value.string "1")
  else if k = "n" then some (Value.int 2)
  else none

/-- The entries `enc: nil` and `n: "abc"`. -/
def nilThenBadEntries : Entries := fun k =>
  if k = "enc" then some Value.nil
  else if k = "n" then some (Value.string "abc")
  else none

/-! ### Names of one option in the map -/

/-- At most one name of the option has a value in the map. -/
def AtMostOneSet (h : Heap) (m : OptMap) (opt : OptionDef) : Prop :=
  ∀ a ∈ opt.Names, ∀ b ∈ opt.Names, h.lookup m a ≠ none → h.lookup m b ≠ none → a = b

/-- The duplicate-alias condition: the map holds two distinct keys `k` and `n`, `k` has a
definition and `n` is one of the names of that option. -/
def DuplicateAlias (defs : OptionDefs) (h : Heap) (m : OptMap) : Prop :=
  ∃ k n opt, k ≠ n ∧ h.lookup m k ≠ none ∧ h.lookup m n ≠ none ∧
    defs k = some opt ∧ n ∈ opt.Names

/-- The definitions map to an option its names, all of them and nothing else. -/
def WellFormedDefs (defs : OptionDefs) : Prop :=
  ∀ k opt, defs k = some opt → k ∈ opt.Names ∧ ∀ n ∈ opt.Names, defs n = some opt

/-- A string option with the single name `a`. -/
def optAlone : OptionDef := { Names := ["a"], Type_ := Kind.String }

/-- A string option with the names `b` and `a`. -/
def optPair : OptionDef := { Names := ["b", "a"], Type_ := Kind.String }

/-- A request whose definitions map `a` to `optAlone` and `b` to `optPair`, which also lists
the name `a`. -/
def overlapRequest : request :=
  { path := [], options := OptMap.ref 0, arguments := [],
    optionDefs := fun name =>
      if name = "a" then some optAlone else if name = "b" then some optPair else none }

/-- The single entry `b: "1"`. -/
def onlyB : Entries := fun k => if k = "b" then some (Value.string "1") else none

/-- A request whose definitions map `x`, which the option `optPair` does not list, and both
names of `optPair` to that option. -/
def strayRequest : request :=
  { path := [], options := OptMap.ref 0, arguments := [],
    optionDefs := fun name =>
      if name = "x" ∨ name = "a" ∨ name = "b" then some optPair else none }

/-- The single entry `x: "1"`. -/
def onlyX : Entries := fun k => if k = "x" then some (Value.string "1") else none

end commands

/-! ## Part II. Theorems -/

namespace reprovide

/-! ### The per-key announcement -/

theorem announce_ok_iff (b : Behaviour) (p : PeerID) (k : Key) :
    ∀ (r i : Nat) (s : RoutingService),
      (announce b p k r i s).2 = true ↔
        ∃ j, j ≤ r ∧ b k (i + j) = none ∧
          ∀ l, l < j → b k (i + l) = some ProvideError.transient := by
  intro r
  induction r with
  | zero =>
    intro i s
    unfold announce Provide
    cases hb : b k i with
    | none =>
      simp only [true_iff]
      exact ⟨0, le_refl 0, by simpa using hb, fun l hl => absurd hl (Nat.not_lt_zero l)⟩
    | some e =>
      cases e <;>
      · simp only [Bool.false_eq_true, false_iff]
        rintro ⟨j, hj, hn, -⟩
        obtain rfl : j = 0 := Nat.le_zero.mp hj
        simp [hb] at hn
  | succ r ih =>
    intro i s
    unfold announce Provide
    cases hb : b k i with
    | none =>
      simp only [true_iff]
      exact ⟨0, Nat.zero_le _, by simpa using hb, fun l hl => absurd hl (Nat.not_lt_zero l)⟩
    | some e =>
      cases e with
      | nonRetryable =>
        simp only [Bool.false_eq_true, false_iff]
        rintro ⟨j, -, hn, ht⟩
        rcases Nat.eq_zero_or_pos j with rfl | hpos
        · simp [hb] at hn
        · have := ht 0 hpos
          simp [hb] at this
      | transient =>
        simp only
        rw [ih (i + 1) s]
        constructor
        · rintro ⟨j, hj, hn, ht⟩
          refine ⟨j + 1, Nat.succ_le_succ hj, ?_, ?_⟩
          · rw [← hn]; congr 1; omega
          · intro l hl
            rcases Nat.eq_zero_or_pos l with rfl | hpos
            · simpa using hb
            · have := ht (l - 1) (by omega)
              rw [← this]; congr 1; omega
        · rintro ⟨j, hj, hn, ht⟩
          rcases Nat.eq_zero_or_pos j with rfl | hpos
          · simp [hb] at hn
          · refine ⟨j - 1, by omega, ?_, ?_⟩
            · rw [← hn]; congr 1; omega
            · intro l hl
              have := ht (l + 1) (by omega)
              rw [← this]; congr 1; omega

theorem announce_ok_iff_not_fails (b : Behaviour) (p : PeerID) (k : Key) (r : Nat)
    (s : RoutingService) :
    (announce b p k r 0 s).2 = true ↔ ¬ PermanentlyFails b r k := by
  rw [announce_ok_iff]
  unfold PermanentlyFails
  simp only [Nat.zero_add, not_not]

theorem announce_service (b : Behaviour) (p : PeerID) (k : Key) :
    ∀ (r i : Nat) (s : RoutingService),
      (announce b p k r i s).1 = if (announce b p k r i s).2 then s.record k p else s := by
  intro r
  induction r with
  | zero =>
    intro i s
    unfold announce Provide
    cases hb : b k i with
    | none => simp
    | some e => cases e <;> simp
  | succ r ih =>
    intro i s
    unfold announce Provide
    cases hb : b k i with
    | none => simp
    | some e =>
      cases e with
      | nonRetryable => simp
      | transient => simpa using ih (i + 1) s

/-! ### The cycle, key by key -/

theorem cycle_nil (rp : Reprovider) (ca : Option Nat) (d : Nat) (s : RoutingService)
    (c : CycleResult) :
    cycle rp ca [] d s c =
      (s, c, if rp.source.enumerationFails then some CycleError.enumerationFailed else none) :=
  rfl

theorem cycle_cons (rp : Reprovider) (ca : Option Nat) (k : Key) (rest : List Key) (d : Nat)
    (s : RoutingService) (c : CycleResult) :
    cycle rp ca (k :: rest) d s c =
      if ca.any (fun n => n ≤ d) then (s, c, some CycleError.cancelled)
      else cycle rp ca rest (d + 1) (announce rp.behaviour rp.peer k rp.maxRetries 0 s).1
        (c.add k (announce rp.behaviour rp.peer k rp.maxRetries 0 s).2) :=
  rfl

theorem add_failed (c : CycleResult) (k : Key) (ok : Bool) :
    (c.add k ok).permanentlyFailed = c.permanentlyFailed + (if ok then 0 else 1) := by
  unfold CycleResult.add
  cases ok <;> simp

/-! ### C8: partial failure accounting -/

theorem add_succeeded (c : CycleResult) (k : Key) (ok : Bool) :
    (c.add k ok).succeeded = c.succeeded + (if ok then 1 else 0) := by
  unfold CycleResult.add
  cases ok <;> simp

theorem add_attempted (c : CycleResult) (k : Key) (ok : Bool) :
    (c.add k ok).attempted = c.attempted + 1 := by
  unfold CycleResult.add
  cases ok <;> simp

/-- The counts of a cycle that is neither cancelled nor fed by a failing enumeration. -/
theorem cycle_counts (rp : Reprovider) (hsrc : rp.source.enumerationFails = false) :
    ∀ (keys : List Key) (d : Nat) (s : RoutingService) (c : CycleResult),
      (cycle rp none keys d s c).2.2 = none ∧
      (cycle rp none keys d s c).2.1.permanentlyFailed = c.permanentlyFailed +
        keys.countP (fun k => decide (PermanentlyFails rp.behaviour rp.maxRetries k)) ∧
      (cycle rp none keys d s c).2.1.succeeded = c.succeeded +
        keys.countP (fun k => !decide (PermanentlyFails rp.behaviour rp.maxRetries k)) ∧
      (cycle rp none keys d s c).2.1.attempted = c.attempted + keys.length := by
  intro keys
  induction keys with
  | nil => intro d s c; simp [cycle_nil, hsrc]
  | cons k rest ih =>
    intro d s c
    rw [cycle_cons]
    simp only [Option.any_none, Bool.false_eq_true, if_false]
    obtain ⟨h1, h2, h3, h4⟩ := ih (d + 1)
      (announce rp.behaviour rp.peer k rp.maxRetries 0 s).1
      (c.add k (announce rp.behaviour rp.peer k rp.maxRetries 0 s).2)
    refine ⟨h1, ?_, ?_, ?_⟩
    · rw [h2, add_failed, List.countP_cons]
      by_cases hf : PermanentlyFails rp.behaviour rp.maxRetries k
      · have hok : (announce rp.behaviour rp.peer k rp.maxRetries 0 s).2 = false := by
          cases hb : (announce rp.behaviour rp.peer k rp.maxRetries 0 s).2 with
          | false => rfl
          | true => exact absurd hf ((announce_ok_iff_not_fails _ _ _ _ _).mp hb)
        simp [hok, hf]; omega
      · have hok := (announce_ok_iff_not_fails rp.behaviour rp.peer k rp.maxRetries s).mpr hf
        simp [hok, hf]
    · rw [h3, add_succeeded, List.countP_cons]
      by_cases hf : PermanentlyFails rp.behaviour rp.maxRetries k
      · have hok : (announce rp.behaviour rp.peer k rp.maxRetries 0 s).2 = false := by
          cases hb : (announce rp.behaviour rp.peer k rp.maxRetries 0 s).2 with
          | false => rfl
          | true => exact absurd hf ((announce_ok_iff_not_fails _ _ _ _ _).mp hb)
        simp [hok, hf]
      · have hok := (announce_ok_iff_not_fails rp.behaviour rp.peer k rp.maxRetries s).mpr hf
        simp [hok, hf]; omega
    · rw [h4, add_attempted, List.length_cons]; omega

/-- C8: for every key sequence of N keys that the BlockSource produces without failing and
every routing layer whose `Provide` fails, after exhausting the retries, for exactly K of
them, a Reprovide cycle that is not cancelled returns no cycle-level error and a CycleResult
with exactly K permanent failures and N - K successes: the two counts add up to the N keys
enumerated, all attempted. -/
theorem C8_partial_failure_accounting (rp : Reprovider) (s : RoutingService)
    (hsrc : rp.source.enumerationFails = false) :
    (rp.Reprovide none s).2.2 = none ∧
    (rp.Reprovide none s).2.1.permanentlyFailed =
      rp.source.keys.countP (fun k => decide (PermanentlyFails rp.behaviour rp.maxRetries k)) ∧
    (rp.Reprovide none s).2.1.succeeded = rp.source.keys.length -
      rp.source.keys.countP (fun k => decide (PermanentlyFails rp.behaviour rp.maxRetries k)) ∧
    (rp.Reprovide none s).2.1.succeeded + (rp.Reprovide none s).2.1.permanentlyFailed =
      rp.source.keys.length ∧
    (rp.Reprovide none s).2.1.attempted = rp.source.keys.length := by
  obtain ⟨h1, h2, h3, h4⟩ := cycle_counts rp hsrc rp.source.keys 0 s
    { attempted := 0, succeeded := 0, permanentlyFailed := 0, failedKeys := [] }
  have hlen := List.length_eq_countP_add_countP
    (fun k => decide (PermanentlyFails rp.behaviour rp.maxRetries k)) rp.source.keys
  have hnot : rp.source.keys.countP
      (fun k => decide ¬ decide (PermanentlyFails rp.behaviour rp.maxRetries k) = true) =
      rp.source.keys.countP
        (fun k => !decide (PermanentlyFails rp.behaviour rp.maxRetries k)) := by
    congr 1; funext k; simp
  rw [hnot] at hlen
  simp only [Nat.zero_add] at h2 h3 h4
  unfold Reprovider.Reprovide
  refine ⟨h1, h2, ?_, ?_, h4⟩
  · rw [h3]; omega
  · rw [h2, h3]; omega

/-- C8, witness: five keys on the `flaky` routing layer with one retry: the two keys that
start with byte 0 fail permanently, the other three succeed. -/
theorem C8_partial_failure_accounting_witness :
    (reproviderFlaky.Reprovide none newService).2.2 = none ∧
    (reproviderFlaky.Reprovide none newService).2.1.permanentlyFailed = 2 ∧
    (reproviderFlaky.Reprovide none newService).2.1.succeeded = 5 - 2 ∧
    (reproviderFlaky.Reprovide none newService).2.1.succeeded +
      (reproviderFlaky.Reprovide none newService).2.1.permanentlyFailed = 5 ∧
    (reproviderFlaky.Reprovide none newService).2.1.attempted = 5 :=
  C8_partial_failure_accounting reproviderFlaky newService rfl

/-! ### C9: single-flight scheduling -/

theorem inv_init : CycleScheduler.init.Inv := by
  constructor <;> simp [CycleScheduler.init]

theorem inv_step (s : CycleScheduler) (e : SchedulerEvent) (h : s.Inv) : (s.step e).Inv := by
  obtain ⟨h1, h2⟩ := h
  cases e <;> cases hs : s.state <;>
    simp_all [CycleScheduler.Inv, CycleScheduler.step]
  split <;> simp

theorem inv_run (events : List SchedulerEvent) :
    ∀ s : CycleScheduler, s.Inv → (s.run events).Inv := by
  induction events with
  | nil => intro s h; exact h
  | cons e rest ih => intro s h; exact ih (s.step e) (inv_step s e h)

/-- C9: in every reachable state of the CycleScheduler at most one cycle is active, and one
is active exactly when the state is `Running`.  A tick that arrives in state `Running` changes
nothing: the state stays `Running`, no cycle is started, and whatever events follow, the
scheduler behaves as if the tick had not occurred, so the tick is not queued. -/
theorem C9_single_flight (s : CycleScheduler) (hreach : s.Reachable) :
    s.active ≤ 1 ∧
    (s.active = 1 ↔ s.state = SchedulerState.Running) ∧
    (s.state = SchedulerState.Running →
      (s.step SchedulerEvent.tick).state = SchedulerState.Running ∧
      (s.step SchedulerEvent.tick).active = 1 ∧
      (s.step SchedulerEvent.tick).started = s.started ∧
      ∀ events, (s.step SchedulerEvent.tick).run events = s.run events) := by
  obtain ⟨events, rfl⟩ := hreach
  obtain ⟨h1, h2⟩ := inv_run events CycleScheduler.init inv_init
  refine ⟨?_, ⟨?_, h1⟩, ?_⟩
  · by_cases hr : (CycleScheduler.init.run events).state = SchedulerState.Running
    · rw [h1 hr]
    · rw [h2 hr]; exact Nat.zero_le 1
  · intro ha
    by_contra hr
    rw [h2 hr] at ha
    cases ha
  · intro hr
    have hstep : (CycleScheduler.init.run events).step SchedulerEvent.tick =
        CycleScheduler.init.run events := by
      simp only [CycleScheduler.step, hr]
    rw [hstep]
    exact ⟨hr, h1 hr, rfl, fun _ => rfl⟩

/-- C9, witness: the state reached by a tick followed by a second tick while the first
cycle runs. -/
theorem C9_single_flight_witness :
    (CycleScheduler.init.run [SchedulerEvent.tick, SchedulerEvent.tick]).active ≤ 1 ∧
    ((CycleScheduler.init.run [SchedulerEvent.tick, SchedulerEvent.tick]).active = 1 ↔
      (CycleScheduler.init.run [SchedulerEvent.tick, SchedulerEvent.tick]).state =
        SchedulerState.Running) ∧
    ((CycleScheduler.init.run [SchedulerEvent.tick, SchedulerEvent.tick]).state =
        SchedulerState.Running →
      ((CycleScheduler.init.run [SchedulerEvent.tick, SchedulerEvent.tick]).step
        SchedulerEvent.tick).state = SchedulerState.Running ∧
      ((CycleScheduler.init.run [SchedulerEvent.tick, SchedulerEvent.tick]).step
        SchedulerEvent.tick).active = 1 ∧
      ((CycleScheduler.init.run [SchedulerEvent.tick, SchedulerEvent.tick]).step
        SchedulerEvent.tick).started =
        (CycleScheduler.init.run [SchedulerEvent.tick, SchedulerEvent.tick]).started ∧
      ∀ events, ((CycleScheduler.init.run [SchedulerEvent.tick, SchedulerEvent.tick]).step
        SchedulerEvent.tick).run events =
        (CycleScheduler.init.run [SchedulerEvent.tick, SchedulerEvent.tick]).run events) :=
  C9_single_flight (CycleScheduler.init.run [SchedulerEvent.tick, SchedulerEvent.tick])
    ⟨[SchedulerEvent.tick, SchedulerEvent.tick], rfl⟩

end reprovide

namespace strconv

/-! ### `strconv.ParseInt` on decimal representations -/

theorem digitChar_toNat (d : Nat) (hd : d < 10) : (Nat.digitChar d).toNat = 48 + d := by
  interval_cases d <;> rfl

theorem toDigitsCore_fuel : ∀ (fuel n : Nat) (ds : List Char), n < fuel →
    Nat.toDigitsCore 10 fuel n ds = Nat.toDigits 10 n ++ ds := by
  intro fuel
  induction fuel using Nat.strong_induction_on with
  | _ fuel ih =>
    intro n ds hn
    cases fuel with
    | zero => exact absurd hn (Nat.not_lt_zero n)
    | succ fuel =>
      unfold Nat.toDigits
      rw [Nat.toDigitsCore, Nat.toDigitsCore]
      by_cases h0 : n / 10 = 0
      · simp [h0]
      · simp only [h0, if_false]
        have hlt : n / 10 < n := Nat.div_lt_self (by omega) (by decide)
        rw [ih fuel (Nat.lt_succ_self _) (n / 10) _ (by omega),
          ih n (by omega) (n / 10) _ hlt]
        simp

theorem toDigits_lt (n : Nat) (hn : n < 10) : Nat.toDigits 10 n = [Nat.digitChar n] := by
  unfold Nat.toDigits
  rw [Nat.toDigitsCore]
  have h0 : n / 10 = 0 := Nat.div_eq_of_lt hn
  simp [h0, Nat.mod_eq_of_lt hn]

theorem toDigits_ge (n : Nat) (hn : 10 ≤ n) :
    Nat.toDigits 10 n = Nat.toDigits 10 (n / 10) ++ [Nat.digitChar (n % 10)] := by
  have h0 : n / 10 ≠ 0 := by
    intro h; have := Nat.div_eq_zero_iff (by decide : 0 < 10) |>.mp h; omega
  have hlt : n / 10 < n := Nat.div_lt_self (by omega) (by decide)
  conv_lhs => unfold Nat.toDigits
  rw [Nat.toDigitsCore]
  simp only [h0, if_false]
  exact toDigitsCore_fuel n (n / 10) _ hlt

theorem parseUintLoop_append (b : Nat) (b0 : Bool) (c mv : Nat) :
    ∀ (xs ys : List Char) (n : Nat) (u : Bool),
      parseUintLoop b b0 c mv (xs ++ ys) n u =
        if (parseUintLoop b b0 c mv xs n u).2.2 = none then
          parseUintLoop b b0 c mv ys (parseUintLoop b b0 c mv xs n u).1
            (parseUintLoop b b0 c mv xs n u).2.1
        else parseUintLoop b b0 c mv xs n u := by
  intro xs
  induction xs with
  | nil => intro ys n u; simp [parseUintLoop]
  | cons x xs ih =>
    intro ys n u
    simp only [List.cons_append, parseUintLoop]
    by_cases h95 : x.toNat = 95 ∧ b0 = true
    · rw [if_pos h95, if_pos h95]
      exact ih ys n true
    · rw [if_neg h95, if_neg h95]
      generalize digitValue x.toNat = dv
      cases dv with
      | none => simp
      | some d =>
        simp only
        by_cases hb : d ≥ b
        · simp [hb]
        · by_cases hcut : n ≥ c
          · simp [hb, hcut]
          · by_cases hov : (n * b % 2 ^ 64 + d) % 2 ^ 64 < n * b % 2 ^ 64 ∨
                (n * b % 2 ^ 64 + d) % 2 ^ 64 > mv
            · simp only [hb, hcut, if_false, hov, if_true]
              simp
            · simp only [hb, hcut, if_false, hov]
              exact ih ys _ u

/-- One decimal digit read by the loop of `ParseUint` in base 10 with 32 bits, from a value
that fits in 32 bits. -/
theorem parseUintLoop_digit (b0 : Bool) (d n : Nat) (u : Bool) (hd : d < 10)
    (hn : n ≤ 2 ^ 32 - 1) :
    parseUintLoop 10 b0 ((2 ^ 64 - 1) / 10 + 1) (2 ^ 32 - 1) [Nat.digitChar d] n u =
      if n * 10 + d ≤ 2 ^ 32 - 1 then (n * 10 + d, u, none)
      else (2 ^ 32 - 1, u, some NumError.ErrRange) := by
  have hc := digitChar_toNat d hd
  have h95 : ¬ ((Nat.digitChar d).toNat = 95 ∧ b0 = true) := by
    rw [hc]; omega
  have hdig : 48 ≤ (Nat.digitChar d).toNat ∧ (Nat.digitChar d).toNat ≤ 57 := by
    rw [hc]; omega
  have hsub : (Nat.digitChar d).toNat - 48 = d := by rw [hc]; omega
  simp only [parseUintLoop, digitValue, h95, if_false, hdig, and_self, if_true, hsub]
  have h1 : ¬ d ≥ 10 := by omega
  have h2 : ¬ n ≥ (2 ^ 64 - 1) / 10 + 1 := by
    norm_num at hn ⊢; omega
  have h3 : n * 10 % 2 ^ 64 = n * 10 := by
    apply Nat.mod_eq_of_lt; norm_num at hn ⊢; omega
  have h4 : (n * 10 + d) % 2 ^ 64 = n * 10 + d := by
    apply Nat.mod_eq_of_lt; norm_num at hn ⊢; omega
  simp only [h1, h2, if_false, h3, h4]
  by_cases hle : n * 10 + d ≤ 2 ^ 32 - 1
  · have : ¬ (n * 10 + d < n * 10 ∨ n * 10 + d > 2 ^ 32 - 1) := by omega
    simp only [this, if_false, hle, if_true]
  · have : (n * 10 + d < n * 10 ∨ n * 10 + d > 2 ^ 32 - 1) := by omega
    simp only [this, if_true, hle, if_false]

/-- The loop of `ParseUint` on the decimal digits of `m`. -/
theorem parseUintLoop_toDigits (b0 : Bool) (m : Nat) :
    parseUintLoop 10 b0 ((2 ^ 64 - 1) / 10 + 1) (2 ^ 32 - 1) (Nat.toDigits 10 m) 0 false =
      if m ≤ 2 ^ 32 - 1 then (m, false, none)
      else (2 ^ 32 - 1, false, some NumError.ErrRange) := by
  induction m using Nat.strong_induction_on with
  | _ m ih =>
    by_cases hm : m < 10
    · rw [toDigits_lt m hm, parseUintLoop_digit b0 m 0 false hm (Nat.zero_le _)]
      simp only [Nat.zero_mul, Nat.zero_add]
    · have hge : 10 ≤ m := by omega
      have hlt : m / 10 < m := Nat.div_lt_self (by omega) (by decide)
      rw [toDigits_ge m hge, parseUintLoop_append, ih (m / 10) hlt]
      by_cases hq : m / 10 ≤ 2 ^ 32 - 1
      · simp only [hq, if_true]
        rw [parseUintLoop_digit b0 (m % 10) (m / 10) false (Nat.mod_lt _ (by decide)) hq]
        have : m / 10 * 10 + m % 10 = m := by omega
        rw [this]
      · have hbig : ¬ m ≤ 2 ^ 32 - 1 := by omega
        rw [if_neg hq, if_neg hbig]
        rfl

theorem toDigits_head (m : Nat) (hm : 0 < m) :
    ∃ c rest, Nat.toDigits 10 m = c :: rest ∧ 49 ≤ c.toNat ∧ c.toNat ≤ 57 := by
  induction m using Nat.strong_induction_on with
  | _ m ih =>
    by_cases hlt : m < 10
    · refine ⟨Nat.digitChar m, [], toDigits_lt m hlt, ?_⟩
      rw [digitChar_toNat m hlt]; omega
    · have hge : 10 ≤ m := by omega
      obtain ⟨c, rest, hc, hb⟩ := ih (m / 10) (Nat.div_lt_self (by omega) (by decide))
        (Nat.div_pos hge (by decide))
      exact ⟨c, rest ++ [Nat.digitChar (m % 10)], by rw [toDigits_ge m hge, hc]; rfl, hb⟩

/-- `ParseUint(s, 0, 32)` on the decimal digits of `m`. -/
theorem parseUint_toDigits (m : Nat) :
    ParseUint (Nat.toDigits 10 m) 0 32 =
      if m ≤ 2 ^ 32 - 1 then (m, none) else (2 ^ 32 - 1, some NumError.ErrRange) := by
  rcases Nat.eq_zero_or_pos m with rfl | hpos
  · rfl
  · obtain ⟨c, rest, hc, hlo, hhi⟩ := toDigits_head m hpos
    have hloop := parseUintLoop_toDigits (decide ((0 : Nat) = 0)) m
    rw [hc] at hloop
    have h48 : ¬ c.toNat = 48 := by omega
    have hsel : selectBase (c :: rest) 0 = some (10, c :: rest) := by
      simp [selectBase, h48]
    rw [hc]
    unfold ParseUint
    rw [if_neg (List.cons_ne_nil c rest), hsel]
    dsimp only
    rw [if_neg (by omega : ¬ 32 > 64), if_neg (by omega : ¬ 32 = 0), hloop]
    by_cases hm : m ≤ 2 ^ 32 - 1
    · rw [if_pos hm, if_pos hm]
      simp
    · rw [if_neg hm, if_neg hm]

theorem decimal_eq_toString (n : Int) : decimal n = toString n := by
  cases n <;> rfl

theorem decimal_ofNat_toList (m : Nat) : (decimal (Int.ofNat m)).toList = Nat.toDigits 10 m :=
  rfl

theorem decimal_negSucc_toList (m : Nat) :
    (decimal (Int.negSucc m)).toList = '-' :: Nat.toDigits 10 (m + 1) := by
  show ("-" ++ Nat.repr (m + 1)).toList = _
  rw [String.toList, String.data_append]
  rfl

theorem toDigits_head_digit (m : Nat) :
    ∃ c rest, Nat.toDigits 10 m = c :: rest ∧ 48 ≤ c.toNat ∧ c.toNat ≤ 57 := by
  rcases Nat.eq_zero_or_pos m with rfl | hpos
  · exact ⟨'0', [], rfl, by decide, by decide⟩
  · obtain ⟨c, rest, hc, hlo, hhi⟩ := toDigits_head m hpos
    exact ⟨c, rest, hc, by omega, hhi⟩

/-- `ParseInt(s, 0, 32)` on the digits of a natural number, with or without a minus sign
before them. -/
theorem parseInt_digits (m : Nat) :
    ParseInt (Nat.toDigits 10 m) 0 32 =
      (if m < 2 ^ 31 then (Int.ofNat m, none)
       else (Int.ofNat (2 ^ 31) - 1, some NumError.ErrRange)) ∧
    ParseInt ('-' :: Nat.toDigits 10 m) 0 32 =
      (if m ≤ 2 ^ 31 then (- Int.ofNat m, none)
       else (- Int.ofNat (2 ^ 31), some NumError.ErrRange)) := by
  obtain ⟨c, rest, hc, hlo, hhi⟩ := toDigits_head_digit m
  have hu := parseUint_toDigits m
  constructor
  · rw [hc] at hu ⊢
    unfold ParseInt
    have h1 : ¬ (c.toNat = 43 ∨ c.toNat = 45) := by omega
    have h2 : decide (c.toNat = 45) = false := by simp; omega
    by_cases hm : m ≤ 2 ^ 32 - 1
    · rw [if_pos hm] at hu
      simp only [h1, if_false, h2, hu]
      norm_num
      split_ifs <;> first | rfl | (exfalso; omega)
    · rw [if_neg hm] at hu
      simp only [h1, if_false, h2, hu]
      norm_num
      split_ifs <;> first | rfl | (exfalso; omega)
  · unfold ParseInt
    have h1 : ('-'.toNat = 43 ∨ '-'.toNat = 45) := by decide
    have h2 : decide ('-'.toNat = 45) = true := by decide
    by_cases hm : m ≤ 2 ^ 32 - 1
    · rw [if_pos hm] at hu
      simp only [h1, if_true, h2, hu]
      norm_num
      split_ifs <;> first | rfl | (exfalso; omega)
    · rw [if_neg hm] at hu
      simp only [h1, if_true, h2, hu]
      norm_num
      split_ifs <;> first | rfl | (exfalso; omega)

/-- `ParseInt(s, 0, 32)` on the decimal representation of `n`: the value `n` when it fits in
32 bits, a range error otherwise. -/
theorem parseInt_decimal (n : Int) :
    (- 2 ^ 31 ≤ n ∧ n ≤ 2 ^ 31 - 1 → ParseInt (decimal n).toList 0 32 = (n, none)) ∧
    (¬ (- 2 ^ 31 ≤ n ∧ n ≤ 2 ^ 31 - 1) →
      (ParseInt (decimal n).toList 0 32).2 = some NumError.ErrRange) := by
  cases n with
  | ofNat m =>
    rw [decimal_ofNat_toList, (parseInt_digits m).1]
    constructor
    · intro ⟨_, hhi⟩
      have : m < 2 ^ 31 := by
        have : (m : Int) ≤ 2 ^ 31 - 1 := hhi
        norm_num at this ⊢; omega
      rw [if_pos this]
    · intro hout
      have : ¬ m < 2 ^ 31 := by
        intro hlt
        apply hout
        constructor
        · have : (0 : Int) ≤ Int.ofNat m := Int.ofNat_nonneg m
          norm_num at this ⊢; omega
        · show (m : Int) ≤ 2 ^ 31 - 1
          norm_num at hlt ⊢; omega
      rw [if_neg this]
  | negSucc m =>
    rw [decimal_negSucc_toList, (parseInt_digits (m + 1)).2]
    constructor
    · intro ⟨hlo, _⟩
      have : m + 1 ≤ 2 ^ 31 := by
        have h1 : Int.negSucc m = - ((m : Int) + 1) := Int.negSucc_eq m
        rw [h1] at hlo
        norm_num at hlo ⊢; omega
      rw [if_pos this]
      rfl
    · intro hout
      have : ¬ m + 1 ≤ 2 ^ 31 := by
        intro hle
        apply hout
        have h1 : Int.negSucc m = - ((m : Int) + 1) := Int.negSucc_eq m
        rw [h1]
        norm_num at hle ⊢
        omega
      rw [if_neg this]

/-! ### `strconv.ParseInt` accepts integer literals only -/

theorem lower_eq (c : Nat) : lower c = 2 ^ 6 * (c / 64) + ((c % 64) ||| 32) := by
  have hr : c % 64 < 2 ^ 6 := Nat.mod_lt _ (by decide)
  have hr2 : (c % 64) ||| 32 < 2 ^ 6 := Nat.or_lt_two_pow hr (by decide)
  rw [Nat.mul_add_lt_is_or hr2, ← Nat.or_assoc, ← Nat.mul_add_lt_is_or hr]
  have : 2 ^ 6 * (c / 64) + c % 64 = c := Nat.div_add_mod c 64
  rw [this]
  rfl

theorem lt_of_lower_le (c : Nat) (h : lower c ≤ 122) : c < 128 := by
  rw [lower_eq] at h
  have hr : c % 64 < 64 := Nat.mod_lt _ (by decide)
  have : c / 64 ≤ 1 := by
    by_contra hc
    have : 2 ≤ c / 64 := by omega
    have : 2 ^ 6 * 2 ≤ 2 ^ 6 * (c / 64) := Nat.mul_le_mul_left _ this
    omega
  omega

theorem lower_small_letter : ∀ c, c < 128 → (lower c ≤ 122 → 97 ≤ lower c →
    ((65 ≤ c ∧ c ≤ 90) ∨ (97 ≤ c ∧ c ≤ 122)) ∧ (lower c = c ∨ lower c = c + 32)) := by
  decide

theorem lower_small_digit : ∀ c, c < 128 → (48 ≤ c → c ≤ 57 → lower c = c) := by
  decide

/-- The bytes that `lower` maps to a letter are the letters, and `lower` maps them to their
lower case. -/
theorem lower_letter (c : Nat) (h1 : 97 ≤ lower c) (h2 : lower c ≤ 122) :
    ((65 ≤ c ∧ c ≤ 90) ∨ (97 ≤ c ∧ c ≤ 122)) ∧ (lower c = c ∨ lower c = c + 32) :=
  lower_small_letter c (lt_of_lower_le c h2) h2 h1

theorem lower_digit (c : Nat) (h1 : 48 ≤ c) (h2 : c ≤ 57) : lower c = c :=
  lower_small_digit c (by omega) h1 h2

theorem lower_underscore : lower 95 = 127 := by decide

theorem digitValue_underscore : digitValue 95 = none := by decide

/-- A byte with a digit value below the base, for the bases of integer literals, is a digit
of a literal in that base. -/
theorem isLitDigit_of_digitValue (base : Nat) (c : Char) (d : Nat)
    (hbase : base ≤ 10 ∨ base = 16)
    (hd : digitValue c.toNat = some d) (hlt : d < base) : isLitDigit base c = true := by
  unfold digitValue at hd
  unfold isLitDigit
  simp only [decide_eq_true_eq]
  by_cases h1 : 48 ≤ c.toNat ∧ c.toNat ≤ 57
  · rw [if_pos h1] at hd
    injection hd with hd
    left
    exact ⟨h1.1, h1.2, by omega⟩
  · rw [if_neg h1] at hd
    by_cases h2 : 97 ≤ lower c.toNat ∧ lower c.toNat ≤ 122
    · rw [if_pos h2] at hd
      injection hd with hd
      have hl := lower_letter c.toNat h2.1 h2.2
      right
      rcases hbase with hb | hb
      · omega
      · refine ⟨hb, ?_⟩
        omega
    · rw [if_neg h2] at hd
      cases hd

/-- When the digit loop of `ParseUint` with base 0 ends without error, every byte it read is
an underscore or a digit below the base, and it has noted every underscore. -/
theorem parseUintLoop_ok (b cutoff maxVal : Nat) :
    ∀ (cs : List Char) (n : Nat) (u : Bool) (n1 : Nat) (u1 : Bool),
      parseUintLoop b true cutoff maxVal cs n u = (n1, u1, none) →
      (∀ c ∈ cs, c.toNat = 95 ∨ ∃ d, digitValue c.toNat = some d ∧ d < b) ∧
      (u1 = false → u = false ∧ ∀ c ∈ cs, c.toNat ≠ 95) := by
  intro cs
  induction cs with
  | nil =>
    intro n u n1 u1 h
    simp only [parseUintLoop, Prod.mk.injEq, and_true] at h
    refine ⟨fun c hc => absurd hc (List.not_mem_nil c), fun hu => ⟨?_, fun c hc => absurd hc (List.not_mem_nil c)⟩⟩
    rw [h.2, hu]
  | cons x xs ih =>
    intro n u n1 u1 h
    rw [parseUintLoop] at h
    by_cases h95 : x.toNat = 95 ∧ true = true
    · rw [if_pos h95] at h
      obtain ⟨hv, hu⟩ := ih n true n1 u1 h
      refine ⟨?_, fun hu1 => absurd (hu hu1).1 (by decide)⟩
      intro c hc
      rcases List.mem_cons.mp hc with rfl | hc
      · exact Or.inl h95.1
      · exact hv c hc
    · rw [if_neg h95] at h
      have hx : x.toNat ≠ 95 := fun hc => h95 ⟨hc, rfl⟩
      cases hd : digitValue x.toNat with
      | none => rw [hd] at h; simp at h
      | some d =>
        rw [hd] at h
        simp only at h
        by_cases hb : d ≥ b
        · rw [if_pos hb] at h; simp at h
        · rw [if_neg hb] at h
          by_cases hcut : n ≥ cutoff
          · rw [if_pos hcut] at h; simp at h
          · rw [if_neg hcut] at h
            by_cases hov : (n * b % 2 ^ 64 + d) % 2 ^ 64 < n * b % 2 ^ 64 ∨
                (n * b % 2 ^ 64 + d) % 2 ^ 64 > maxVal
            · rw [if_pos hov] at h; simp at h
            · rw [if_neg hov] at h
              obtain ⟨hv, hu⟩ := ih _ u n1 u1 h
              refine ⟨?_, fun hu1 => ⟨(hu hu1).1, ?_⟩⟩
              · intro c hc
                rcases List.mem_cons.mp hc with rfl | hc
                · exact Or.inr ⟨d, hd, by omega⟩
                · exact hv c hc
              · intro c hc
                rcases List.mem_cons.mp hc with rfl | hc
                · exact hx
                · exact (hu hu1).2 c hc

/-- Valid bytes without an underscore form digits of a literal. -/
theorem sepDigits_of_digits (b : Nat) (hbase : b ≤ 10 ∨ b = 16) :
    ∀ (cs : List Char),
      (∀ c ∈ cs, c.toNat = 95 ∨ ∃ d, digitValue c.toNat = some d ∧ d < b) →
      (∀ c ∈ cs, c.toNat ≠ 95) →
      sepDigits b false cs = true ∧ (cs ≠ [] → sepDigits b true cs = true) := by
  intro cs
  induction cs with
  | nil => intro _ _; exact ⟨rfl, fun h => absurd rfl h⟩
  | cons x xs ih =>
    intro hv hn
    have hx : x.toNat ≠ 95 := hn x (List.mem_cons_self _ _)
    obtain ⟨d, hd, hlt⟩ := (hv x (List.mem_cons_self _ _)).resolve_left hx
    have hlit := isLitDigit_of_digitValue b x d hbase hd hlt
    have hrest := (ih (fun c hc => hv c (List.mem_cons_of_mem _ hc))
      (fun c hc => hn c (List.mem_cons_of_mem _ hc))).1
    simp only [sepDigits, hx, if_false, hlit, hrest, Bool.and_self, true_and]
    exact fun _ => trivial

/-- Valid bytes whose underscores `underscoreOK` lets pass form digits of a literal. -/
theorem sepDigits_of_underscoreOK (b : Nat) (hex : Bool)
    (hbase : b ≤ 10 ∨ (b = 16 ∧ hex = true)) :
    ∀ (cs : List Char) (saw : Saw),
      (∀ c ∈ cs, c.toNat = 95 ∨ ∃ d, digitValue c.toNat = some d ∧ d < b) →
      underscoreOKLoop hex cs saw = true →
      (saw ≠ Saw.underscore → sepDigits b false cs = true) ∧
      (saw = Saw.underscore → sepDigits b true cs = true) := by
  intro cs
  induction cs with
  | nil =>
    intro saw _ h
    simp only [underscoreOKLoop, decide_eq_true_eq] at h
    exact ⟨fun _ => rfl, fun hs => absurd hs h⟩
  | cons x xs ih =>
    intro saw hv h
    have hvx := hv x (List.mem_cons_self _ _)
    have hvrest : ∀ c ∈ xs, c.toNat = 95 ∨ ∃ d, digitValue c.toNat = some d ∧ d < b :=
      fun c hc => hv c (List.mem_cons_of_mem _ hc)
    rw [underscoreOKLoop] at h
    by_cases hx : x.toNat = 95
    · have htest : ¬ ((48 ≤ x.toNat ∧ x.toNat ≤ 57) ∨
          (hex = true ∧ 97 ≤ lower x.toNat ∧ lower x.toNat ≤ 102)) := by
        rw [hx, lower_underscore]; omega
      rw [if_neg htest, if_pos hx] at h
      by_cases hs : saw ≠ Saw.digit
      · rw [if_pos hs] at h; cases h
      · rw [if_neg hs] at h
        have hsaw : saw = Saw.digit := by
          by_contra hc; exact hs hc
        have := (ih Saw.underscore hvrest h).2 rfl
        subst hsaw
        refine ⟨fun _ => ?_, fun hc => by cases hc⟩
        simp only [sepDigits, hx, if_true, this, Bool.not_false, Bool.and_self]
    · obtain ⟨d, hd, hlt⟩ := hvx.resolve_left hx
      have hlit := isLitDigit_of_digitValue b x d
        (hbase.imp id (fun hc => hc.1)) hd hlt
      have htest : (48 ≤ x.toNat ∧ x.toNat ≤ 57) ∨
          (hex = true ∧ 97 ≤ lower x.toNat ∧ lower x.toNat ≤ 102) := by
        unfold digitValue at hd
        by_cases h1 : 48 ≤ x.toNat ∧ x.toNat ≤ 57
        · exact Or.inl h1
        · rw [if_neg h1] at hd
          by_cases h2 : 97 ≤ lower x.toNat ∧ lower x.toNat ≤ 122
          · rw [if_pos h2] at hd
            injection hd with hd
            rcases hbase with hb | ⟨hb, hh⟩
            · omega
            · exact Or.inr ⟨hh, h2.1, by omega⟩
          · rw [if_neg h2] at hd; cases hd
      rw [if_pos htest] at h
      have := (ih Saw.digit hvrest h).1 (by decide)
      simp only [sepDigits, hx, if_false, hlit, this, Bool.and_self]
      exact ⟨fun _ => trivial, fun _ => trivial⟩

theorem litDigits_of_sepDigits (b : Nat) (cs : List Char) (h : sepDigits b true cs = true) :
    litDigits b cs = true := by
  cases cs with
  | nil => simp [sepDigits] at h
  | cons x xs =>
    rw [sepDigits] at h
    by_cases hx : x.toNat = 95
    · rw [if_pos hx] at h; simp at h
    · rw [if_neg hx] at h
      exact h

theorem prefixedDigits_of_moreDigits (b : Nat) (cs : List Char) (hne : cs ≠ [])
    (h : sepDigits b false cs = true) : prefixedDigits b cs = true := by
  cases cs with
  | nil => exact absurd rfl hne
  | cons x xs =>
    rw [sepDigits] at h
    rw [prefixedDigits]
    by_cases hx : x.toNat = 95
    · rw [if_pos hx] at h ⊢
      simp only [Bool.not_false, Bool.true_and] at h
      exact litDigits_of_sepDigits b xs h
    · rw [if_neg hx] at h ⊢
      exact h

theorem lower_eq_b : ∀ c, c < 128 → (lower c = 98 → c = 98 ∨ c = 66) := by decide
theorem lower_eq_o : ∀ c, c < 128 → (lower c = 111 → c = 111 ∨ c = 79) := by decide
theorem lower_eq_x : ∀ c, c < 128 → (lower c = 120 → c = 120 ∨ c = 88) := by decide

theorem lower_prefix (c : Nat) :
    (lower c = 98 → c = 98 ∨ c = 66) ∧ (lower c = 111 → c = 111 ∨ c = 79) ∧
    (lower c = 120 → c = 120 ∨ c = 88) :=
  ⟨fun h => lower_eq_b c (lt_of_lower_le c (by omega)) h,
   fun h => lower_eq_o c (lt_of_lower_le c (by omega)) h,
   fun h => lower_eq_x c (lt_of_lower_le c (by omega)) h⟩

/-- What a successful `ParseUint(s, 0, 32)` has done: settled on a base and digits, read the
digits without error, and checked the underscores when there was one. -/
theorem parseUint_ok (s : List Char) (n : Nat) (h : ParseUint s 0 32 = (n, none)) :
    ∃ b digits n1 u1, s ≠ [] ∧ selectBase s 0 = some (b, digits) ∧
      parseUintLoop b true ((2 ^ 64 - 1) / b + 1) (2 ^ 32 - 1) digits 0 false
        = (n1, u1, none) ∧
      (u1 = true → underscoreOK s = true) := by
  unfold ParseUint at h
  by_cases hs : s = []
  · rw [if_pos hs] at h; simp at h
  · rw [if_neg hs] at h
    cases hsel : selectBase s 0 with
    | none => rw [hsel] at h; simp at h
    | some bd =>
      obtain ⟨b, digits⟩ := bd
      rw [hsel] at h
      dsimp only at h
      rw [if_neg (by omega : ¬ 32 > 64), if_neg (by omega : ¬ 32 = 0)] at h
      rcases hloop : parseUintLoop b (decide ((0 : Nat) = 0)) ((2 ^ 64 - 1) / b + 1)
          (2 ^ 32 - 1) digits 0 false with ⟨n1, u1, e⟩
      rw [hloop] at h
      cases e with
      | some e => simp at h
      | none =>
        simp only at h
        refine ⟨b, digits, n1, u1, hs, rfl, hloop, ?_⟩
        intro hu
        by_contra hok
        have hok2 : underscoreOK s = false := by
          cases hb : underscoreOK s with
          | true => exact absurd hb hok
          | false => rfl
        rw [if_pos ⟨hu, hok2⟩] at h
        simp at h

/-- The digits that a successful loop has read follow the grammar `{ [ "_" ] digit }`, given
that `underscoreOK` let their underscores pass. -/
theorem sepDigits_of_loop (b : Nat) (hex : Bool) (hbase : b ≤ 10 ∨ (b = 16 ∧ hex = true))
    (digits : List Char) (n1 : Nat) (u1 : Bool)
    (hloop : parseUintLoop b true ((2 ^ 64 - 1) / b + 1) (2 ^ 32 - 1) digits 0 false
      = (n1, u1, none))
    (hu : u1 = true → underscoreOKLoop hex digits Saw.digit = true) :
    sepDigits b false digits = true := by
  obtain ⟨hv, hno⟩ := parseUintLoop_ok b _ _ digits 0 false n1 u1 hloop
  cases hu1 : u1 with
  | false =>
    exact (sepDigits_of_digits b (hbase.imp id (fun hc => hc.1)) digits hv (hno hu1).2).1
  | true =>
    exact (sepDigits_of_underscoreOK b hex hbase digits Saw.digit hv (hu hu1)).1 (by decide)

theorem underscoreOK_plain (c0 : Char) (rest : List Char) (hsign : ¬ (c0.toNat = 45 ∨ c0.toNat = 43))
    (hpre : ∀ c1 rest1, rest = c1 :: rest1 →
      ¬ (c0.toNat = 48 ∧ (lower c1.toNat = 98 ∨ lower c1.toNat = 111 ∨ lower c1.toNat = 120))) :
    underscoreOK (c0 :: rest) = underscoreOKLoop false (c0 :: rest) Saw.start := by
  unfold underscoreOK
  simp only [hsign, if_false]
  cases rest with
  | nil => rfl
  | cons c1 rest1 =>
    simp only
    rw [if_neg (hpre c1 rest1 rfl)]

theorem underscoreOK_prefixed (c0 c1 : Char) (rest : List Char) (h48 : c0.toNat = 48)
    (hpre : lower c1.toNat = 98 ∨ lower c1.toNat = 111 ∨ lower c1.toNat = 120) :
    underscoreOK (c0 :: c1 :: rest) =
      underscoreOKLoop (decide (lower c1.toNat = 120)) rest Saw.digit := by
  unfold underscoreOK
  have hsign : ¬ (c0.toNat = 45 ∨ c0.toNat = 43) := by omega
  simp only [hsign, if_false]
  rw [if_pos ⟨h48, hpre⟩]

theorem underscoreOKLoop_digit (hex : Bool) (c : Char) (cs : List Char) (saw : Saw)
    (hc : 48 ≤ c.toNat ∧ c.toNat ≤ 57) :
    underscoreOKLoop hex (c :: cs) saw = underscoreOKLoop hex cs Saw.digit := by
  rw [underscoreOKLoop, if_pos (Or.inl hc)]

/-- A byte that the loop accepts in a base of at most 10 is an underscore or a decimal digit
below the base. -/
theorem valid_small_base (b : Nat) (hb : b ≤ 10) (c : Nat)
    (h : c = 95 ∨ ∃ d, digitValue c = some d ∧ d < b) :
    c = 95 ∨ (48 ≤ c ∧ c ≤ 57 ∧ c - 48 < b) := by
  rcases h with h | ⟨d, hd, hlt⟩
  · exact Or.inl h
  · right
    unfold digitValue at hd
    by_cases h1 : 48 ≤ c ∧ c ≤ 57
    · rw [if_pos h1] at hd
      injection hd with hd
      exact ⟨h1.1, h1.2, by omega⟩
    · rw [if_neg h1] at hd
      by_cases h2 : 97 ≤ lower c ∧ lower c ≤ 122
      · rw [if_pos h2] at hd
        injection hd with hd
        omega
      · rw [if_neg h2] at hd; cases hd

theorem isIntLit_octal (c0 c1 : Char) (rest1 : List Char) (n1 : Nat) (u1 : Bool)
    (h48 : c0.toNat = 48)
    (hloop : parseUintLoop 8 true ((2 ^ 64 - 1) / 8 + 1) (2 ^ 32 - 1) (c1 :: rest1) 0 false
      = (n1, u1, none))
    (hu : u1 = true → underscoreOK (c0 :: c1 :: rest1) = true) :
    isIntLit (c0 :: c1 :: rest1) = true := by
  have hv := (parseUintLoop_ok 8 _ _ (c1 :: rest1) 0 false n1 u1 hloop).1 c1
    (List.mem_cons_self _ _)
  have hc1 := valid_small_base 8 (by decide) c1.toNat hv
  have hlow : lower c1.toNat = 127 ∨ (lower c1.toNat = c1.toNat ∧ c1.toNat ≤ 57) := by
    rcases hc1 with h | ⟨h1, h2, _⟩
    · left; rw [h]; exact lower_underscore
    · right; exact ⟨lower_digit _ h1 h2, h2⟩
  have hnopre : ¬ (lower c1.toNat = 98 ∨ lower c1.toNat = 111 ∨ lower c1.toNat = 120) := by
    omega
  have hok : underscoreOK (c0 :: c1 :: rest1) =
      underscoreOKLoop false (c1 :: rest1) Saw.digit := by
    rw [underscoreOK_plain c0 (c1 :: rest1) (by omega)
      (fun a r heq hc => by
        injection heq with h1 h2
        subst h1
        exact hnopre hc.2)]
    exact underscoreOKLoop_digit false c0 _ _ (by omega)
  have hsep := sepDigits_of_loop 8 false (Or.inl (by decide)) (c1 :: rest1) n1 u1 hloop
    (fun h => by rw [← hok]; exact hu h)
  have hpd := prefixedDigits_of_moreDigits 8 (c1 :: rest1) (List.cons_ne_nil _ _) hsep
  have hn1 : ¬ (c1.toNat = 98 ∨ c1.toNat = 66) := by omega
  have hn2 : ¬ (c1.toNat = 111 ∨ c1.toNat = 79) := by omega
  have hn3 : ¬ (c1.toNat = 120 ∨ c1.toNat = 88) := by omega
  rw [isIntLit, if_pos h48, if_neg hn1, if_neg hn2, if_neg hn3]
  exact hpd

theorem isIntLit_prefixed (c0 c1 c2 : Char) (t : List Char) (b n1 : Nat) (u1 : Bool)
    (h48 : c0.toNat = 48)
    (hpre : (lower c1.toNat = 98 ∧ b = 2) ∨ (lower c1.toNat = 111 ∧ b = 8) ∨
      (lower c1.toNat = 120 ∧ b = 16))
    (hloop : parseUintLoop b true ((2 ^ 64 - 1) / b + 1) (2 ^ 32 - 1) (c2 :: t) 0 false
      = (n1, u1, none))
    (hu : u1 = true → underscoreOK (c0 :: c1 :: c2 :: t) = true) :
    isIntLit (c0 :: c1 :: c2 :: t) = true := by
  have hpre2 : lower c1.toNat = 98 ∨ lower c1.toNat = 111 ∨ lower c1.toNat = 120 := by
    omega
  have hok := underscoreOK_prefixed c0 c1 (c2 :: t) h48 hpre2
  have hbase : b ≤ 10 ∨ (b = 16 ∧ decide (lower c1.toNat = 120) = true) := by
    rcases hpre with ⟨_, hb⟩ | ⟨_, hb⟩ | ⟨hl, hb⟩
    · left; omega
    · left; omega
    · right; exact ⟨hb, by simp [hl]⟩
  have hsep := sepDigits_of_loop b _ hbase (c2 :: t) n1 u1 hloop
    (fun h => by rw [← hok]; exact hu h)
  have hpd := prefixedDigits_of_moreDigits b (c2 :: t) (List.cons_ne_nil _ _) hsep
  obtain ⟨hb1, ho1, hx1⟩ := lower_prefix c1.toNat
  rw [isIntLit, if_pos h48]
  rcases hpre with ⟨hl, hb⟩ | ⟨hl, hb⟩ | ⟨hl, hb⟩
  · subst hb
    rw [if_pos (hb1 hl)]
    exact hpd
  · subst hb
    have hc := ho1 hl
    rw [if_neg (by omega), if_pos hc]
    exact hpd
  · subst hb
    have hc := hx1 hl
    rw [if_neg (by omega), if_neg (by omega), if_pos hc]
    exact hpd

theorem isIntLit_decimal (c0 : Char) (rest : List Char) (n1 : Nat) (u1 : Bool)
    (h48 : c0.toNat ≠ 48)
    (hloop : parseUintLoop 10 true ((2 ^ 64 - 1) / 10 + 1) (2 ^ 32 - 1) (c0 :: rest) 0 false
      = (n1, u1, none))
    (hu : u1 = true → underscoreOK (c0 :: rest) = true) :
    isIntLit (c0 :: rest) = true := by
  obtain ⟨hv, hno⟩ := parseUintLoop_ok 10 _ _ (c0 :: rest) 0 false n1 u1 hloop
  have hc0 := valid_small_base 10 (by decide) c0.toNat (hv c0 (List.mem_cons_self _ _))
  have hvrest : ∀ c ∈ rest, c.toNat = 95 ∨ ∃ d, digitValue c.toNat = some d ∧ d < 10 :=
    fun c hc => hv c (List.mem_cons_of_mem _ hc)
  have hok : underscoreOK (c0 :: rest) = underscoreOKLoop false (c0 :: rest) Saw.start :=
    underscoreOK_plain c0 rest (by omega) (fun _ _ _ hc => h48 hc.1)
  have hgoal : (49 ≤ c0.toNat ∧ c0.toNat ≤ 57) ∧ sepDigits 10 false rest = true := by
    cases hu1 : u1 with
    | false =>
      obtain ⟨-, hnone⟩ := hno hu1
      have hx : c0.toNat ≠ 95 := hnone c0 (List.mem_cons_self _ _)
      refine ⟨by omega, ?_⟩
      exact (sepDigits_of_digits 10 (Or.inl (by decide)) rest hvrest
        (fun c hc => hnone c (List.mem_cons_of_mem _ hc))).1
    | true =>
      have hloopOK := hu hu1
      rw [hok] at hloopOK
      rcases hc0 with h95 | ⟨h1, h2, _⟩
      · rw [underscoreOKLoop] at hloopOK
        have htest : ¬ ((48 ≤ c0.toNat ∧ c0.toNat ≤ 57) ∨
            (false = true ∧ 97 ≤ lower c0.toNat ∧ lower c0.toNat ≤ 102)) := by
          rw [h95]; simp
        rw [if_neg htest, if_pos h95, if_pos (by decide)] at hloopOK
        cases hloopOK
      · rw [underscoreOKLoop_digit false c0 rest _ ⟨h1, h2⟩] at hloopOK
        refine ⟨by omega, ?_⟩
        exact (sepDigits_of_underscoreOK 10 false (Or.inl (by decide)) rest Saw.digit hvrest
          hloopOK).1 (by decide)
  rw [isIntLit.eq_def]
  simp only [if_neg h48, moreDigits, hgoal.1, hgoal.2, and_self, decide_True, Bool.and_self]

/-- `ParseUint(s, 0, 32)` succeeds only on an integer literal of the Go language. -/
theorem isIntLit_of_parseUint (s : List Char) (n : Nat) (h : ParseUint s 0 32 = (n, none)) :
    isIntLit s = true := by
  obtain ⟨b, digits, n1, u1, hs, hsel, hloop, hu⟩ := parseUint_ok s n h
  cases s with
  | nil => exact absurd rfl hs
  | cons c0 rest =>
    by_cases h48 : c0.toNat = 48
    · cases rest with
      | nil => simp [isIntLit, h48]
      | cons c1 rest1 =>
        cases rest1 with
        | nil =>
          have hsel2 : selectBase [c0, c1] 0 = some (8, [c1]) := by simp [selectBase, h48]
          rw [hsel2] at hsel
          injection hsel with hsel
          injection hsel with hb hd
          subst hb; subst hd
          exact isIntLit_octal c0 c1 [] n1 u1 h48 hloop hu
        | cons c2 t =>
          by_cases hpb : lower c1.toNat = 98
          · have hsel2 : selectBase (c0 :: c1 :: c2 :: t) 0 = some (2, c2 :: t) := by
              simp [selectBase, h48, hpb]
            rw [hsel2] at hsel
            injection hsel with hsel
            injection hsel with hb hd
            subst hb; subst hd
            exact isIntLit_prefixed c0 c1 c2 t 2 n1 u1 h48 (Or.inl ⟨hpb, rfl⟩) hloop hu
          · by_cases hpo : lower c1.toNat = 111
            · have hsel2 : selectBase (c0 :: c1 :: c2 :: t) 0 = some (8, c2 :: t) := by
                simp [selectBase, h48, hpo]
              rw [hsel2] at hsel
              injection hsel with hsel
              injection hsel with hb hd
              subst hb; subst hd
              exact isIntLit_prefixed c0 c1 c2 t 8 n1 u1 h48 (Or.inr (Or.inl ⟨hpo, rfl⟩))
                hloop hu
            · by_cases hpx : lower c1.toNat = 120
              · have hsel2 : selectBase (c0 :: c1 :: c2 :: t) 0 = some (16, c2 :: t) := by
                  simp [selectBase, h48, hpx]
                rw [hsel2] at hsel
                injection hsel with hsel
                injection hsel with hb hd
                subst hb; subst hd
                exact isIntLit_prefixed c0 c1 c2 t 16 n1 u1 h48
                  (Or.inr (Or.inr ⟨hpx, rfl⟩)) hloop hu
              · have hsel2 : selectBase (c0 :: c1 :: c2 :: t) 0
                    = some (8, c1 :: c2 :: t) := by
                  simp [selectBase, h48, hpb, hpo, hpx]
                rw [hsel2] at hsel
                injection hsel with hsel
                injection hsel with hb hd
                subst hb; subst hd
                exact isIntLit_octal c0 c1 (c2 :: t) n1 u1 h48 hloop hu
    · have hsel2 : selectBase (c0 :: rest) 0 = some (10, c0 :: rest) := by
        simp [selectBase, h48]
      rw [hsel2] at hsel
      injection hsel with hsel
      injection hsel with hb hd
      subst hb; subst hd
      exact isIntLit_decimal c0 rest n1 u1 h48 hloop hu

theorem parseUintLoop_range (b : Nat) (b0 : Bool) (cutoff maxVal : Nat) :
    ∀ (cs : List Char) (n : Nat) (u : Bool) (n1 : Nat) (u1 : Bool),
      parseUintLoop b b0 cutoff maxVal cs n u = (n1, u1, some NumError.ErrRange) →
      n1 = maxVal := by
  intro cs
  induction cs with
  | nil => intro n u n1 u1 h; simp [parseUintLoop] at h
  | cons x xs ih =>
    intro n u n1 u1 h
    rw [parseUintLoop] at h
    by_cases h95 : x.toNat = 95 ∧ b0 = true
    · rw [if_pos h95] at h
      exact ih n true n1 u1 h
    · rw [if_neg h95] at h
      cases hd : digitValue x.toNat with
      | none => rw [hd] at h; simp at h
      | some d =>
        rw [hd] at h
        simp only at h
        by_cases hb : d ≥ b
        · rw [if_pos hb] at h; simp at h
        · rw [if_neg hb] at h
          by_cases hcut : n ≥ cutoff
          · rw [if_pos hcut] at h
            simp only [Prod.mk.injEq] at h
            exact h.1.symm
          · rw [if_neg hcut] at h
            by_cases hov : (n * b % 2 ^ 64 + d) % 2 ^ 64 < n * b % 2 ^ 64 ∨
                (n * b % 2 ^ 64 + d) % 2 ^ 64 > maxVal
            · rw [if_pos hov] at h
              simp only [Prod.mk.injEq] at h
              exact h.1.symm
            · rw [if_neg hov] at h
              exact ih _ u n1 u1 h

/-- A range error of `ParseUint(s, 0, 32)` comes with the largest 32-bit value. -/
theorem parseUint_range (s : List Char) (un : Nat)
    (h : ParseUint s 0 32 = (un, some NumError.ErrRange)) : un = 2 ^ 32 - 1 := by
  unfold ParseUint at h
  by_cases hs : s = []
  · rw [if_pos hs] at h; simp at h
  · rw [if_neg hs] at h
    cases hsel : selectBase s 0 with
    | none => rw [hsel] at h; simp at h
    | some bd =>
      obtain ⟨b, digits⟩ := bd
      rw [hsel] at h
      dsimp only at h
      rw [if_neg (by omega : ¬ 32 > 64), if_neg (by omega : ¬ 32 = 0)] at h
      rcases hloop : parseUintLoop b (decide ((0 : Nat) = 0)) ((2 ^ 64 - 1) / b + 1)
          (2 ^ 32 - 1) digits 0 false with ⟨n1, u1, e⟩
      rw [hloop] at h
      cases e with
      | some e =>
        simp only [Prod.mk.injEq, Option.some.injEq] at h
        obtain ⟨h1, h2⟩ := h
        subst h2
        rw [← h1]
        exact parseUintLoop_range b _ _ _ digits 0 false n1 u1 hloop
      | none =>
        simp only at h
        split at h <;> simp at h

/-- `ParseInt(s, 0, 32)` succeeds only on an integer literal with an optional sign: a string
that is not one is rejected with an error. -/
theorem parseInt_rejects_non_literal (s : List Char) (h : isSignedIntLit s = false) :
    (ParseInt s 0 32).2 ≠ none := by
  intro hok
  cases s with
  | nil => simp [ParseInt] at hok
  | cons c rest =>
    unfold ParseInt at hok
    simp only at hok
    rcases hp : ParseUint (if c.toNat = 43 ∨ c.toNat = 45 then rest else c :: rest) 0 32
      with ⟨un, err⟩
    rw [hp] at hok
    cases err with
    | some e =>
      cases e with
      | ErrRange =>
        have hun := parseUint_range _ un hp
        subst hun
        by_cases hneg : c.toNat = 45 <;> simp [hneg] at hok
      | ErrSyntax => simp at hok
      | ErrBase => simp at hok
      | ErrBitSize => simp at hok
    | none =>
      have hlit := isIntLit_of_parseUint _ un hp
      rw [isSignedIntLit] at h
      by_cases hsign : c.toNat = 43 ∨ c.toNat = 45
      · rw [if_pos hsign] at h hlit
        rw [h] at hlit; cases hlit
      · rw [if_neg hsign] at h hlit
        rw [h] at hlit; cases hlit

end strconv

namespace commands

/-! ### Maps on the heap -/

theorem lookup_assign (h : Heap) (a : Nat) (k : String) (v : Value) (m : OptMap)
    (k1 : String) :
    (h.assign a k v).lookup m k1 =
      if m = OptMap.ref a ∧ k1 = k then some v else h.lookup m k1 := by
  cases m with
  | nil => simp [Heap.lookup]
  | ref b =>
    simp only [Heap.lookup, Heap.assign, OptMap.ref.injEq]
    by_cases hb : b = a
    · subst hb
      by_cases hk : k1 = k
      · subst hk; simp
      · simp [hk]
    · simp [hb]

theorem next_assign (h : Heap) (a : Nat) (k : String) (v : Value) :
    (h.assign a k v).next = h.next := rfl

theorem lookup_delete (h : Heap) (m0 : OptMap) (k : String) (m : OptMap) (k1 : String) :
    (h.delete m0 k).lookup m k1 =
      if m = m0 ∧ k1 = k then none else h.lookup m k1 := by
  cases m0 with
  | nil =>
    cases m with
    | nil => simp [Heap.lookup, Heap.delete]
    | ref b => simp [Heap.lookup, Heap.delete]
  | ref a =>
    cases m with
    | nil => simp [Heap.lookup, Heap.delete]
    | ref b =>
      simp only [Heap.lookup, Heap.delete, OptMap.ref.injEq]
      by_cases hb : b = a
      · subst hb
        by_cases hk : k1 = k
        · subst hk; simp
        · simp [hk]
      · simp [hb]

theorem lookup_make_old (h : Heap) (m : OptMap) (k : String) (hm : h.Allocated m) :
    h.make.1.lookup m k = h.lookup m k := by
  cases m with
  | nil => rfl
  | ref a =>
    have ha : a ≠ h.next := Nat.ne_of_lt hm
    simp [Heap.lookup, Heap.make, ha]

theorem lookup_make_new (h : Heap) (k : String) : h.make.1.lookup h.make.2 k = none := by
  simp [Heap.lookup, Heap.make]

theorem allocated_ne_next (h : Heap) (m : OptMap) (hm : h.Allocated m) :
    m ≠ OptMap.ref h.next := by
  cases m with
  | nil => simp
  | ref a =>
    intro heq
    injection heq with heq
    exact Nat.ne_of_lt hm heq

/-! ### `firstSet`: the loop over the names of an option -/

theorem firstSet_congr (h1 h2 : Heap) (m : OptMap) (names : List String)
    (heq : ∀ n ∈ names, h1.lookup m n = h2.lookup m n) :
    firstSet h1 m names = firstSet h2 m names := by
  induction names with
  | nil => rfl
  | cons n rest ih =>
    simp only [firstSet]
    rw [heq n (List.mem_cons_self n rest)]
    cases h2.lookup m n with
    | some v => rfl
    | none => exact ih (fun x hx => heq x (List.mem_cons_of_mem n hx))

theorem firstSet_eq_none (h : Heap) (m : OptMap) (names : List String) :
    firstSet h m names = none ↔ ∀ n ∈ names, h.lookup m n = none := by
  induction names with
  | nil => simp [firstSet]
  | cons n rest ih =>
    simp only [firstSet, List.mem_cons, forall_eq_or_imp]
    cases hl : h.lookup m n with
    | some v => simp
    | none => simpa using ih

theorem firstSet_some_lookup (h : Heap) (m : OptMap) (names : List String) (n0 : String)
    (v0 : Value) (hf : firstSet h m names = some (n0, v0)) :
    n0 ∈ names ∧ h.lookup m n0 = some v0 := by
  induction names with
  | nil => simp [firstSet] at hf
  | cons n rest ih =>
    simp only [firstSet] at hf
    cases hl : h.lookup m n with
    | some v =>
      rw [hl] at hf
      simp only [Option.some.injEq, Prod.mk.injEq] at hf
      obtain ⟨rfl, rfl⟩ := hf
      exact ⟨List.mem_cons_self _ _, hl⟩
    | none =>
      rw [hl] at hf
      obtain ⟨h1, h2⟩ := ih hf
      exact ⟨List.mem_cons_of_mem _ h1, h2⟩

/-- Writing over the first name that is set leaves it the first name that is set. -/
theorem firstSet_assign_first (h : Heap) (a : Nat) (names : List String) (n0 : String)
    (v0 val : Value) (hf : firstSet h (OptMap.ref a) names = some (n0, v0)) :
    firstSet (h.assign a n0 val) (OptMap.ref a) names = some (n0, val) := by
  induction names with
  | nil => simp [firstSet] at hf
  | cons n rest ih =>
    simp only [firstSet] at hf ⊢
    rw [lookup_assign]
    cases hl : h.lookup (OptMap.ref a) n with
    | some v =>
      rw [hl] at hf
      simp only [Option.some.injEq, Prod.mk.injEq] at hf
      obtain ⟨rfl, rfl⟩ := hf
      simp
    | none =>
      rw [hl] at hf
      have hne : n ≠ n0 := by
        rintro rfl
        have := (firstSet_some_lookup h _ rest n v0 hf).2
        rw [hl] at this
        cases this
      simp only [hne, and_false, if_false]
      exact ih hf

/-- Setting one of the names when none is set makes it the first name that is set. -/
theorem firstSet_assign_new (h : Heap) (a : Nat) (names : List String) (name : String)
    (val : Value) (hnone : ∀ n ∈ names, h.lookup (OptMap.ref a) n = none)
    (hmem : name ∈ names) :
    firstSet (h.assign a name val) (OptMap.ref a) names = some (name, val) := by
  induction names with
  | nil => cases hmem
  | cons n rest ih =>
    simp only [firstSet]
    rw [lookup_assign]
    by_cases hn : n = name
    · subst hn; simp
    · simp only [hn, and_false, if_false]
      rw [hnone n (List.mem_cons_self _ _)]
      rcases List.mem_cons.mp hmem with h1 | h1
      · exact absurd h1.symm hn
      · exact ih (fun x hx => hnone x (List.mem_cons_of_mem _ hx)) h1

/-! ### C4: `SetOption` followed by `Option` -/

theorem option_of_firstSet (r : request) (h : Heap) (name : String) (opt : OptionDef)
    (n : String) (val : Value) (hdef : r.optionDefs name = some opt)
    (hf : firstSet h r.options opt.Names = some (n, val)) :
    r.Option_ h name = some { value := val, found := true, definition := opt } := by
  simp only [request.Option_, hdef, hf]

/-- C4, the code at the failing input: `SetOptions(nil)` on a request returns a nil error
and leaves the request with a nil option map, and then `SetOption("encoding", "json")`
panics on the assignment to an entry of a nil map, so that no `Option("encoding")` follows.
`NewRequest` called with nil options makes a new map instead, on which the same `SetOption`
returns. -/
theorem C4_setOption_panics_on_nil_map :
    (NewRequest demoParseFloat [] OptMap.nil [] demoDefs [] (heapWith demoEntries)).1.map
      (fun r => r.options) = some (OptMap.ref 1) ∧
    ((NewRequest demoParseFloat [] OptMap.nil [] demoDefs [] (heapWith demoEntries)).1.map
      (fun r => (r.SetOption
        (NewRequest demoParseFloat [] OptMap.nil [] demoDefs [] (heapWith demoEntries)).2.1
        "encoding" (Value.string "json")).isSome)) = some true ∧
    (demoRequest.SetOptions demoParseFloat OptMap.nil [] (heapWith demoEntries)).2.2
      = Outcome.nil ∧
    (demoRequest.SetOptions demoParseFloat OptMap.nil [] (heapWith demoEntries)).1.options
      = OptMap.nil ∧
    (demoRequest.SetOptions demoParseFloat OptMap.nil [] (heapWith demoEntries)).1.optionDefs
      "encoding" = some optEncoding ∧
    "encoding" ∈ optEncoding.Names ∧
    ((demoRequest.SetOptions demoParseFloat OptMap.nil [] (heapWith demoEntries)).1.SetOption
      (demoRequest.SetOptions demoParseFloat OptMap.nil [] (heapWith demoEntries)).2.1
      "encoding" (Value.string "json")).isNone = true := by
  decide

/-- On a request whose option map is not nil, for a name that has a definition whose option
lists that name among its names: `SetOption(name, val)` returns, and after it `Option(name)`
returns an OptionValue with found = true and value val, and so does `Option(m)` for every
other name m that the definitions map to the same option. -/
theorem setOption_then_option (r : request) (h : Heap) (a : Nat) (name : String)
    (opt : OptionDef) (val : Value)
    (hmap : r.options = OptMap.ref a)
    (hdef : r.optionDefs name = some opt)
    (hname : name ∈ opt.Names) :
    ∃ h1, r.SetOption h name val = some h1 ∧
      r.Option_ h1 name = some { value := val, found := true, definition := opt } ∧
      ∀ m, r.optionDefs m = some opt →
        r.Option_ h1 m = some { value := val, found := true, definition := opt } := by
  cases hf : firstSet h r.options opt.Names with
  | some nv =>
    obtain ⟨n0, v0⟩ := nv
    rw [hmap] at hf
    refine ⟨h.assign a n0 val, ?_, ?_, ?_⟩
    · simp only [request.SetOption, hdef, hmap, hf, Heap.store]
    · exact option_of_firstSet r _ name opt n0 val hdef
        (by rw [hmap]; exact firstSet_assign_first h a opt.Names n0 v0 val hf)
    · intro m hm
      exact option_of_firstSet r _ m opt n0 val hm
        (by rw [hmap]; exact firstSet_assign_first h a opt.Names n0 v0 val hf)
  | none =>
    rw [hmap] at hf
    have hnone := (firstSet_eq_none h (OptMap.ref a) opt.Names).mp hf
    refine ⟨h.assign a name val, ?_, ?_, ?_⟩
    · simp only [request.SetOption, hdef, hmap, hf, Heap.store]
    · exact option_of_firstSet r _ name opt name val hdef
        (by rw [hmap]; exact firstSet_assign_new h a opt.Names name val hnone hname)
    · intro m hm
      exact option_of_firstSet r _ m opt name val hm
        (by rw [hmap]; exact firstSet_assign_new h a opt.Names name val hnone hname)

/-- On the request with entries `enc` and `n`, `SetOption("encoding", "text")` writes over
the alias `enc`, and `Option` of both names then gives `"text"`. -/
theorem setOption_then_option_demo :
    ∃ h1, demoRequest.SetOption (heapWith demoEntries) "encoding" (Value.string "text")
        = some h1 ∧
      demoRequest.Option_ h1 "encoding" =
        some { value := Value.string "text", found := true, definition := optEncoding } ∧
      ∀ m, demoRequest.optionDefs m = some optEncoding →
        demoRequest.Option_ h1 m =
          some { value := Value.string "text", found := true, definition := optEncoding } :=
  setOption_then_option demoRequest (heapWith demoEntries) 0 "encoding" optEncoding
    (Value.string "text") rfl (by decide) (by decide)

/-! ### What the loops change on the heap -/

theorem store_frame (h h1 : Heap) (m0 : OptMap) (k : String) (val : Value)
    (hs : h.store m0 k val = some h1) :
    h1.next = h.next ∧ h1.lookup m0 k = some val ∧
      ∀ m k1, ¬ (m = m0 ∧ k1 = k) → h1.lookup m k1 = h.lookup m k1 := by
  cases m0 with
  | nil => simp [Heap.store] at hs
  | ref a =>
    simp only [Heap.store, Option.some.injEq] at hs
    subst hs
    refine ⟨rfl, by simp [lookup_assign], ?_⟩
    intro m k1 hne
    rw [lookup_assign, if_neg hne]

/-- The first part of the loop body either leaves the heap alone or stores a value under the
key it handles; it goes on to the duplicate check only in the second case. -/
theorem convertValue_heap (pf : String → Option Nat) (r : request) (h : Heap) (k : String)
    (v : Value) (opt : OptionDef) :
    ((convertValue pf r h k v opt).1 = h ∧ (convertValue pf r h k v opt).2 ≠ Outcome.nil) ∨
    ((convertValue pf r h k v opt).2 = Outcome.nil ∧
      ∃ val, h.store r.options k val = some (convertValue pf r h k v opt).1) := by
  unfold convertValue
  cases hk : v.kind with
  | none => left; simp
  | some kind =>
    simp only
    split
    · split
      · cases hs : v.asString with
        | none => left; simp
        | some str =>
          simp only
          cases hc : converters pf opt.Type_ with
          | none => left; simp
          | some convert =>
            simp only
            cases hv : convert str with
            | none => left; simp
            | some val =>
              simp only
              cases hst : h.store r.options k val with
              | none => left; simp
              | some h1 => right; exact ⟨rfl, val, hst⟩
      · left; simp
    · cases hst : h.store r.options k v with
      | none => left; simp
      | some h1 => right; exact ⟨rfl, v, hst⟩

theorem convertValue_frame (pf : String → Option Nat) (r : request) (h : Heap) (k : String)
    (v : Value) (opt : OptionDef) (hpresent : h.lookup r.options k = some v) :
    (convertValue pf r h k v opt).1.next = h.next ∧
    (∀ m k1, ((convertValue pf r h k v opt).1.lookup m k1).isSome = (h.lookup m k1).isSome) ∧
    (∀ m k1, ¬ (m = r.options ∧ k1 = k) →
      (convertValue pf r h k v opt).1.lookup m k1 = h.lookup m k1) := by
  rcases convertValue_heap pf r h k v opt with ⟨h1, -⟩ | ⟨-, val, hst⟩
  · rw [h1]; exact ⟨rfl, fun _ _ => rfl, fun _ _ _ => rfl⟩
  · obtain ⟨hn, hk, hfr⟩ := store_frame h _ r.options k val hst
    refine ⟨hn, ?_, hfr⟩
    intro m k1
    by_cases hc : m = r.options ∧ k1 = k
    · obtain ⟨rfl, rfl⟩ := hc
      rw [hk, hpresent]; rfl
    · rw [hfr m k1 hc]

theorem convertLoop_cons (pf : String → Option Nat) (r : request) (k : String)
    (rest : List String) (h : Heap) :
    convertLoop pf r (k :: rest) h =
      match h.lookup r.options k with
      | none => convertLoop pf r rest h
      | some v =>
        match r.optionDefs k with
        | none => convertLoop pf r rest h
        | some opt =>
          if (convertValue pf r h k v opt).2 = Outcome.nil then
            if checkDuplicates r (convertValue pf r h k v opt).1 k opt.Names = Outcome.nil then
              convertLoop pf r rest (convertValue pf r h k v opt).1
            else ((convertValue pf r h k v opt).1,
              checkDuplicates r (convertValue pf r h k v opt).1 k opt.Names)
          else convertValue pf r h k v opt := by
  rw [convertLoop]
  cases h.lookup r.options k with
  | none => rfl
  | some v =>
    cases r.optionDefs k with
    | none => rfl
    | some opt =>
      simp only
      rcases hcv : convertValue pf r h k v opt with ⟨h1, out⟩
      cases out with
      | nil =>
        simp only [if_true]
        cases hcd : checkDuplicates r h1 k opt.Names <;> simp
      | err e => simp
      | panic => simp

/-- `ConvertOptions` keeps the key set of every map, changes no map but the option map of
the request, and there only the values of keys it visits. -/
theorem convertLoop_frame (pf : String → Option Nat) (r : request) :
    ∀ (order : List String) (h : Heap),
      (convertLoop pf r order h).1.next = h.next ∧
      (∀ m k1, ((convertLoop pf r order h).1.lookup m k1).isSome = (h.lookup m k1).isSome) ∧
      (∀ m k1, ¬ (m = r.options ∧ k1 ∈ order) →
        (convertLoop pf r order h).1.lookup m k1 = h.lookup m k1) := by
  intro order
  induction order with
  | nil => intro h; exact ⟨rfl, fun _ _ => rfl, fun _ _ _ => rfl⟩
  | cons k rest ih =>
    intro h
    have hweak : ∀ (h2 : Heap),
        (h2.next = h.next ∧ (∀ m k1, (h2.lookup m k1).isSome = (h.lookup m k1).isSome) ∧
          (∀ m k1, ¬ (m = r.options ∧ k1 = k) → h2.lookup m k1 = h.lookup m k1)) →
        ((convertLoop pf r rest h2).1.next = h.next ∧
          (∀ m k1, ((convertLoop pf r rest h2).1.lookup m k1).isSome
            = (h.lookup m k1).isSome) ∧
          (∀ m k1, ¬ (m = r.options ∧ k1 ∈ k :: rest) →
            (convertLoop pf r rest h2).1.lookup m k1 = h.lookup m k1)) := by
      intro h2 ⟨a1, a2, a3⟩
      obtain ⟨b1, b2, b3⟩ := ih h2
      refine ⟨b1.trans a1, fun m k1 => (b2 m k1).trans (a2 m k1), ?_⟩
      intro m k1 hne
      rw [b3 m k1 (fun hc => hne ⟨hc.1, List.mem_cons_of_mem _ hc.2⟩)]
      exact a3 m k1 (fun hc => hne ⟨hc.1, hc.2 ▸ List.mem_cons_self _ _⟩)
    have hstop : ∀ (h2 : Heap) (out : Outcome),
        (h2.next = h.next ∧ (∀ m k1, (h2.lookup m k1).isSome = (h.lookup m k1).isSome) ∧
          (∀ m k1, ¬ (m = r.options ∧ k1 = k) → h2.lookup m k1 = h.lookup m k1)) →
        ((h2, out).1.next = h.next ∧
          (∀ m k1, ((h2, out).1.lookup m k1).isSome = (h.lookup m k1).isSome) ∧
          (∀ m k1, ¬ (m = r.options ∧ k1 ∈ k :: rest) →
            (h2, out).1.lookup m k1 = h.lookup m k1)) := by
      intro h2 out ⟨a1, a2, a3⟩
      exact ⟨a1, a2, fun m k1 hne =>
        a3 m k1 (fun hc => hne ⟨hc.1, hc.2 ▸ List.mem_cons_self _ _⟩)⟩
    have hsame : h.next = h.next ∧
        (∀ m k1, (h.lookup m k1).isSome = (h.lookup m k1).isSome) ∧
        (∀ m k1, ¬ (m = r.options ∧ k1 = k) → h.lookup m k1 = h.lookup m k1) :=
      ⟨rfl, fun _ _ => rfl, fun _ _ _ => rfl⟩
    rw [convertLoop_cons]
    cases hl : h.lookup r.options k with
    | none => exact hweak h hsame
    | some v =>
      cases hd : r.optionDefs k with
      | none => exact hweak h hsame
      | some opt =>
        simp only
        have hfr := convertValue_frame pf r h k v opt hl
        split
        · split
          · exact hweak _ hfr
          · exact hstop _ _ hfr
        · exact hstop (convertValue pf r h k v opt).1 (convertValue pf r h k v opt).2 hfr

theorem convertLoop_lookup_eq_none (pf : String → Option Nat) (r : request)
    (order : List String) (h : Heap) (m : OptMap) (k : String) :
    (convertLoop pf r order h).1.lookup m k = none ↔ h.lookup m k = none := by
  have := (convertLoop_frame pf r order h).2.1 m k
  rw [← Option.not_isSome_iff_eq_none, ← Option.not_isSome_iff_eq_none, this]

/-- The copy loop of `Options()` writes only the output map, and copies there every entry of
the option map that it visits. -/
theorem copyEntries_spec (r : request) (o : Nat) (hne : r.options ≠ OptMap.ref o) :
    ∀ (order : List String) (h : Heap),
      (copyEntries r o order h).next = h.next ∧
      (∀ m k, m ≠ OptMap.ref o → (copyEntries r o order h).lookup m k = h.lookup m k) ∧
      (∀ k, (copyEntries r o order h).lookup (OptMap.ref o) k =
        if k ∈ order ∧ h.lookup r.options k ≠ none then h.lookup r.options k
        else h.lookup (OptMap.ref o) k) := by
  intro order
  induction order with
  | nil => intro h; exact ⟨rfl, fun _ _ _ => rfl, fun k => by simp [copyEntries]⟩
  | cons k0 rest ih =>
    intro h
    simp only [copyEntries]
    cases hl : h.lookup r.options k0 with
    | none =>
      obtain ⟨a1, a2, a3⟩ := ih h
      refine ⟨a1, a2, ?_⟩
      intro k
      rw [a3 k]
      by_cases hk : k = k0
      · subst hk; simp [hl]
      · simp [hk]
    | some v =>
      obtain ⟨a1, a2, a3⟩ := ih (h.assign o k0 v)
      have hsrc : ∀ k, (h.assign o k0 v).lookup r.options k = h.lookup r.options k := by
        intro k
        rw [lookup_assign, if_neg (fun hc => hne hc.1)]
      refine ⟨a1, ?_, ?_⟩
      · intro m k hm
        rw [a2 m k hm, lookup_assign, if_neg (fun hc => hm hc.1)]
      · intro k
        rw [a3 k, hsrc k, lookup_assign]
        by_cases hk : k = k0
        · subst hk
          by_cases hin : k ∈ rest <;> simp [hin, hl]
        · simp [hk]

/-- `Options()` returns a new map with the entries of the option map and changes no map
that was allocated before. -/
theorem options_spec (r : request) (order : List String) (h : Heap)
    (halloc : h.Allocated r.options) (hvisit : VisitOrder h r.options order) :
    (r.Options order h).2 = OptMap.ref h.next ∧
    (r.Options order h).1.next = h.next + 1 ∧
    (∀ k, (r.Options order h).1.lookup (r.Options order h).2 k = h.lookup r.options k) ∧
    (∀ m k, h.Allocated m → (r.Options order h).1.lookup m k = h.lookup m k) := by
  have hne := allocated_ne_next h r.options halloc
  obtain ⟨a1, a2, a3⟩ := copyEntries_spec r h.next hne order h.make.1
  refine ⟨rfl, a1, ?_, ?_⟩
  · intro k
    show (copyEntries r h.next order h.make.1).lookup (OptMap.ref h.next) k = _
    rw [a3 k, lookup_make_old h r.options k halloc]
    by_cases hk : h.lookup r.options k = none
    · rw [if_neg (fun hc => hc.2 hk), hk]
      exact lookup_make_new h k
    · rw [if_pos ⟨(hvisit.2 k).mpr hk, hk⟩]
  · intro m k hm
    show (copyEntries r h.next order h.make.1).lookup m k = _
    rw [a2 m k (allocated_ne_next h m hm), lookup_make_old h m k hm]

/-! ### C5: `SetOptions` replaces the option map -/

theorem visitOrder_of_same_keys (h h1 : Heap) (m : OptMap) (order : List String)
    (hkeys : ∀ k, h1.lookup m k = none ↔ h.lookup m k = none)
    (hv : VisitOrder h m order) : VisitOrder h1 m order :=
  ⟨hv.1, fun k => (hv.2 k).trans (not_congr (hkeys k)).symm⟩

theorem option_congr (r : request) (h1 h2 : Heap) (name : String)
    (heq : ∀ k, h1.lookup r.options k = h2.lookup r.options k) :
    r.Option_ h1 name = r.Option_ h2 name := by
  unfold request.Option_
  cases r.optionDefs name with
  | none => rfl
  | some opt =>
    simp only
    rw [firstSet_congr h1 h2 r.options opt.Names (fun n _ => heq n)]

theorem visitOrder_heapTwo : VisitOrder heapTwo (OptMap.ref 1) ["r"] := by
  refine ⟨by simp, ?_⟩
  intro k
  by_cases hk : k = "r" <;> simp [Heap.lookup, heapTwo, hk]

/-- What `SetOptions` leaves behind, for any way of naming its three results. -/
theorem setOptions_replaces_options (r : request) (pf : String → Option Nat)
    (opts : OptMap) (order order2 : List String) (h : Heap)
    (halloc : h.Allocated opts) (hvisit : VisitOrder h opts order2) :
    ∀ (r1 : request) (h1 : Heap) (out : Outcome),
      r.SetOptions pf opts order h = (r1, h1, out) →
      (∀ k, (r1.Options order2 h1).1.lookup (r1.Options order2 h1).2 k ≠ none ↔
        h.lookup opts k ≠ none) ∧
      (∀ k, h.lookup opts k = none → h1.lookup r1.options k = none) ∧
      (∀ name opt, r.optionDefs name = some opt →
        (∀ n ∈ opt.Names, h.lookup opts n = none) →
        r1.Option_ h1 name = some { value := Value.nil, found := false, definition := opt }) := by
  intro r1 h1 out hset
  simp only [request.SetOptions, request.ConvertOptions, Prod.mk.injEq] at hset
  obtain ⟨hr1, hrest⟩ := hset
  have hh1 : h1 = (convertLoop pf r1 order h).1 := by rw [← hr1, hrest]
  have hopts : r1.options = opts := by rw [← hr1]
  have hdefs : r1.optionDefs = r.optionDefs := by rw [← hr1]
  have hnext : h1.next = h.next := by rw [hh1]; exact (convertLoop_frame pf r1 order h).1
  have hkeys : ∀ k, h1.lookup opts k = none ↔ h.lookup opts k = none := by
    intro k; rw [hh1]; exact convertLoop_lookup_eq_none pf r1 order h opts k
  have halloc1 : h1.Allocated r1.options := by
    rw [hopts]
    cases opts with
    | nil => trivial
    | ref a => show a < h1.next; rw [hnext]; exact halloc
  have hvisit1 : VisitOrder h1 r1.options order2 := by
    rw [hopts]; exact visitOrder_of_same_keys h h1 opts order2 hkeys hvisit
  obtain ⟨-, -, hcopy, -⟩ := options_spec r1 order2 h1 halloc1 hvisit1
  refine ⟨?_, ?_, ?_⟩
  · intro k
    rw [hcopy k, hopts]
    exact not_congr (hkeys k)
  · intro k hk
    rw [hopts]; exact (hkeys k).mpr hk
  · intro name opt hdef hnone
    have hf : firstSet h1 r1.options opt.Names = none := by
      rw [firstSet_eq_none, hopts]
      exact fun n hn => (hkeys n).mpr (hnone n hn)
    simp only [request.Option_, hdefs, hdef, hf]

/-- C5: for every request and every option map opts (allocated or nil), after
SetOptions(opts), however it ends and in whatever order it visited the keys, the keys of the
map that Options() returns are exactly the keys of opts; so a value set before the call
under a key absent from opts is unset, and Option(name) reports found = false for a defined
option none of whose names is a key of opts. -/
theorem C5_setOptions_replaces_options (r : request) (pf : String → Option Nat)
    (opts : OptMap) (order order2 : List String) (h : Heap)
    (halloc : h.Allocated opts) (hvisit : VisitOrder h opts order2) :
    (∀ k, ((r.SetOptions pf opts order h).1.Options order2
        (r.SetOptions pf opts order h).2.1).1.lookup
        ((r.SetOptions pf opts order h).1.Options order2
          (r.SetOptions pf opts order h).2.1).2 k ≠ none ↔
      h.lookup opts k ≠ none) ∧
    (∀ k, h.lookup opts k = none →
      (r.SetOptions pf opts order h).2.1.lookup (r.SetOptions pf opts order h).1.options k
        = none) ∧
    (∀ name opt, r.optionDefs name = some opt →
      (∀ n ∈ opt.Names, h.lookup opts n = none) →
      (r.SetOptions pf opts order h).1.Option_ (r.SetOptions pf opts order h).2.1 name
        = some { value := Value.nil, found := false, definition := opt }) :=
  setOptions_replaces_options r pf opts order order2 h halloc hvisit _ _ _ rfl

/-- C5, witness: the request holds `enc` and `n`; `SetOptions` with the map that holds
only `r` leaves exactly the key `r`, and `Option("encoding")` is no longer found. -/
theorem C5_setOptions_replaces_options_witness :
    (∀ k, ((demoRequest.SetOptions demoParseFloat (OptMap.ref 1) ["r"] heapTwo).1.Options ["r"]
        (demoRequest.SetOptions demoParseFloat (OptMap.ref 1) ["r"] heapTwo).2.1).1.lookup
        ((demoRequest.SetOptions demoParseFloat (OptMap.ref 1) ["r"] heapTwo).1.Options ["r"]
          (demoRequest.SetOptions demoParseFloat (OptMap.ref 1) ["r"] heapTwo).2.1).2 k
        ≠ none ↔ heapTwo.lookup (OptMap.ref 1) k ≠ none) ∧
    (∀ k, heapTwo.lookup (OptMap.ref 1) k = none →
      (demoRequest.SetOptions demoParseFloat (OptMap.ref 1) ["r"] heapTwo).2.1.lookup
        (demoRequest.SetOptions demoParseFloat (OptMap.ref 1) ["r"] heapTwo).1.options k
        = none) ∧
    (∀ name opt, demoRequest.optionDefs name = some opt →
      (∀ n ∈ opt.Names, heapTwo.lookup (OptMap.ref 1) n = none) →
      (demoRequest.SetOptions demoParseFloat (OptMap.ref 1) ["r"] heapTwo).1.Option_
        (demoRequest.SetOptions demoParseFloat (OptMap.ref 1) ["r"] heapTwo).2.1 name
        = some { value := Value.nil, found := false, definition := opt }) :=
  C5_setOptions_replaces_options demoRequest demoParseFloat (OptMap.ref 1) ["r"] ["r"] heapTwo
    (by decide) visitOrder_heapTwo

/-! ### C6: `Options()` returns a copy -/

theorem applyEdits_frame (out : OptMap) :
    ∀ (edits : List Edit) (h : Heap),
      (h.applyEdits out edits).next = h.next ∧
      ∀ m k, m ≠ out → (h.applyEdits out edits).lookup m k = h.lookup m k := by
  intro edits
  induction edits with
  | nil => intro h; exact ⟨rfl, fun _ _ _ => rfl⟩
  | cons e rest ih =>
    intro h
    cases e with
    | set k v =>
      simp only [Heap.applyEdits]
      cases hs : h.store out k v with
      | none => exact ⟨rfl, fun _ _ _ => rfl⟩
      | some h1 =>
        obtain ⟨a1, -, a3⟩ := store_frame h h1 out k v hs
        obtain ⟨b1, b2⟩ := ih h1
        exact ⟨b1.trans a1, fun m k1 hm =>
          (b2 m k1 hm).trans (a3 m k1 (fun hc => hm hc.1))⟩
    | delete k =>
      simp only [Heap.applyEdits]
      obtain ⟨b1, b2⟩ := ih (h.delete out k)
      refine ⟨b1.trans ?_, fun m k1 hm => (b2 m k1 hm).trans ?_⟩
      · cases out <;> rfl
      · rw [lookup_delete, if_neg (fun hc => hm hc.1)]

theorem visitOrder_demo : VisitOrder (heapWith demoEntries) demoRequest.options ["n", "enc"] := by
  refine ⟨by decide, ?_⟩
  intro k
  by_cases hk : k = "enc"
  · subst hk; decide
  · by_cases hn : k = "n"
    · subst hn; decide
    · simp [Heap.lookup, heapWith, demoEntries, demoRequest, hk, hn]

/-- C6: for every request (whose option map is allocated or nil), Options() returns a map
with exactly the keys and values of the stored option map, and the map is a copy: whatever
entries the caller then adds, changes or deletes in the returned map, the stored map keeps
its entries, Option(name) returns what it returned before for every name, and a later
Options() call returns the same keys and values again. -/
theorem C6_options_returns_copy (r : request) (order : List String) (h : Heap)
    (halloc : h.Allocated r.options) (hvisit : VisitOrder h r.options order) :
    (∀ k, (r.Options order h).1.lookup (r.Options order h).2 k = h.lookup r.options k) ∧
    ∀ edits : List Edit,
      (∀ k, ((r.Options order h).1.applyEdits (r.Options order h).2 edits).lookup r.options k
        = h.lookup r.options k) ∧
      (∀ name, r.Option_ ((r.Options order h).1.applyEdits (r.Options order h).2 edits) name
        = r.Option_ h name) ∧
      (∀ order2, VisitOrder h r.options order2 → ∀ k,
        (r.Options order2
          ((r.Options order h).1.applyEdits (r.Options order h).2 edits)).1.lookup
          (r.Options order2
            ((r.Options order h).1.applyEdits (r.Options order h).2 edits)).2 k
        = h.lookup r.options k) := by
  obtain ⟨hout, hnext, hcopy, hold⟩ := options_spec r order h halloc hvisit
  refine ⟨hcopy, ?_⟩
  intro edits
  obtain ⟨enext, eframe⟩ := applyEdits_frame (r.Options order h).2 edits (r.Options order h).1
  have hne : r.options ≠ (r.Options order h).2 := by
    rw [hout]; exact allocated_ne_next h r.options halloc
  have hstored : ∀ k,
      ((r.Options order h).1.applyEdits (r.Options order h).2 edits).lookup r.options k
        = h.lookup r.options k := by
    intro k
    rw [eframe r.options k hne, hold r.options k halloc]
  refine ⟨hstored, fun name => option_congr r _ h name hstored, ?_⟩
  intro order2 hv2 k
  have halloc2 : ((r.Options order h).1.applyEdits (r.Options order h).2 edits).Allocated
      r.options := by
    cases hr : r.options with
    | nil => trivial
    | ref a =>
      show a < _
      rw [enext, hnext]
      have : a < h.next := by rw [hr] at halloc; exact halloc
      omega
  have hv3 : VisitOrder ((r.Options order h).1.applyEdits (r.Options order h).2 edits)
      r.options order2 :=
    visitOrder_of_same_keys h _ r.options order2 (fun k => by rw [hstored k]) hv2
  rw [(options_spec r order2 _ halloc2 hv3).2.2.1 k]
  exact hstored k

/-- C6, witness: the request that holds `enc` and `n`, visited as `n`, `enc`. -/
theorem C6_options_returns_copy_witness :
    (∀ k, (demoRequest.Options ["n", "enc"] (heapWith demoEntries)).1.lookup
      (demoRequest.Options ["n", "enc"] (heapWith demoEntries)).2 k
        = (heapWith demoEntries).lookup demoRequest.options k) ∧
    ∀ edits : List Edit,
      (∀ k, ((demoRequest.Options ["n", "enc"] (heapWith demoEntries)).1.applyEdits
        (demoRequest.Options ["n", "enc"] (heapWith demoEntries)).2 edits).lookup
          demoRequest.options k = (heapWith demoEntries).lookup demoRequest.options k) ∧
      (∀ name, demoRequest.Option_
        ((demoRequest.Options ["n", "enc"] (heapWith demoEntries)).1.applyEdits
          (demoRequest.Options ["n", "enc"] (heapWith demoEntries)).2 edits) name
        = demoRequest.Option_ (heapWith demoEntries) name) ∧
      (∀ order2, VisitOrder (heapWith demoEntries) demoRequest.options order2 → ∀ k,
        (demoRequest.Options order2
          ((demoRequest.Options ["n", "enc"] (heapWith demoEntries)).1.applyEdits
            (demoRequest.Options ["n", "enc"] (heapWith demoEntries)).2 edits)).1.lookup
          (demoRequest.Options order2
            ((demoRequest.Options ["n", "enc"] (heapWith demoEntries)).1.applyEdits
              (demoRequest.Options ["n", "enc"] (heapWith demoEntries)).2 edits)).2 k
        = (heapWith demoEntries).lookup demoRequest.options k) :=
  C6_options_returns_copy demoRequest ["n", "enc"] (heapWith demoEntries) (by decide)
    visitOrder_demo

/-! ### The loop body of `ConvertOptions` -/

theorem asString_eq_some (v : Value) (str : String) (h : v.asString = some str) :
    v = Value.string str := by
  cases v <;> simp [Value.asString] at h
  rw [h]

theorem store_of_present (h : Heap) (m : OptMap) (k : String) (v val : Value)
    (hp : h.lookup m k = some v) : ∃ h1, h.store m k val = some h1 := by
  cases m with
  | nil => simp [Heap.lookup] at hp
  | ref a => exact ⟨_, rfl⟩

theorem convertValue_same_kind (pf : String → Option Nat) (r : request) (h h1 : Heap)
    (k : String) (v : Value) (opt : OptionDef) (hk : v.kind = some opt.Type_)
    (hs : h.store r.options k v = some h1) :
    convertValue pf r h k v opt = (h1, Outcome.nil) := by
  simp [convertValue, hk, hs]

theorem convertValue_wrong_type (pf : String → Option Nat) (r : request) (h : Heap)
    (k : String) (v : Value) (opt : OptionDef) (kind : Kind) (hk : v.kind = some kind)
    (hkt : kind ≠ opt.Type_) (hks : kind ≠ Kind.String) :
    convertValue pf r h k v opt = (h, Outcome.err (Error.WrongType k opt.Type_ kind)) := by
  simp [convertValue, hk, hkt, hks]

theorem convertValue_cast (pf : String → Option Nat) (r : request) (h : Heap)
    (k : String) (v : Value) (opt : OptionDef) (hk : v.kind = some Kind.String)
    (hkt : Kind.String ≠ opt.Type_) (has : v.asString = none) :
    convertValue pf r h k v opt = (h, Outcome.err Error.ErrCast) := by
  simp [convertValue, hk, hkt, has]

theorem convertValue_no_converter (pf : String → Option Nat) (r : request) (h : Heap)
    (k : String) (str : String) (opt : OptionDef)
    (hkt : Kind.String ≠ opt.Type_) (hc : converters pf opt.Type_ = none) :
    convertValue pf r h k (Value.string str) opt = (h, Outcome.panic) := by
  simp [convertValue, Value.kind, Value.asString, hkt, hc]

theorem convertValue_rejected (pf : String → Option Nat) (r : request) (h : Heap)
    (k : String) (str : String) (opt : OptionDef) (convert : String → Option Value)
    (hkt : Kind.String ≠ opt.Type_) (hc : converters pf opt.Type_ = some convert)
    (hcs : convert str = none) :
    convertValue pf r h k (Value.string str) opt =
      (h, Outcome.err (Error.CouldNotConvert (describeValue str) opt.Type_ k)) := by
  simp [convertValue, Value.kind, Value.asString, hkt, hc, hcs]

theorem convertValue_converted (pf : String → Option Nat) (r : request) (h h1 : Heap)
    (k : String) (str : String) (opt : OptionDef) (convert : String → Option Value)
    (val : Value) (hkt : Kind.String ≠ opt.Type_) (hc : converters pf opt.Type_ = some convert)
    (hcs : convert str = some val) (hs : h.store r.options k val = some h1) :
    convertValue pf r h k (Value.string str) opt = (h1, Outcome.nil) := by
  simp [convertValue, Value.kind, Value.asString, hkt, hc, hcs, hs]

theorem convertValue_nil (pf : String → Option Nat) (r : request) (h : Heap)
    (k : String) (opt : OptionDef) :
    convertValue pf r h k Value.nil opt = (h, Outcome.panic) := by
  simp [convertValue, Value.kind]

/-- On a non-nil value and a declared type among the five, the first part of the body ends
with a nil outcome exactly when the value is acceptable, and with an error otherwise. -/
theorem convertValue_spec (pf : String → Option Nat) (r : request) (h : Heap) (k : String)
    (v : Value) (opt : OptionDef) (hp : h.lookup r.options k = some v)
    (hnil : v ≠ Value.nil)
    (hty : opt.Type_ = Kind.Bool ∨ opt.Type_ = Kind.Int ∨ opt.Type_ = Kind.Uint ∨
      opt.Type_ = Kind.Float ∨ opt.Type_ = Kind.String) :
    ((convertValue pf r h k v opt).2 = Outcome.nil ↔ ValueAccepted pf v opt) ∧
    ((convertValue pf r h k v opt).2 ≠ Outcome.nil →
      ∃ e, (convertValue pf r h k v opt).2 = Outcome.err e) := by
  cases hk : v.kind with
  | none => cases v <;> simp [Value.kind] at hk; exact absurd rfl hnil
  | some kind =>
    by_cases hkt : kind = opt.Type_
    · obtain ⟨h1, hs⟩ := store_of_present h r.options k v v hp
      rw [convertValue_same_kind pf r h h1 k v opt (by rw [hk, hkt]) hs]
      exact ⟨⟨fun _ => Or.inl (by rw [hk, hkt]), fun _ => rfl⟩, fun hc => absurd rfl hc⟩
    · have hleft : ¬ v.kind = some opt.Type_ := by
        rw [hk]; intro hc; exact hkt (Option.some.inj hc)
      by_cases hks : kind = Kind.String
      · subst hks
        cases has : v.asString with
        | none =>
          rw [convertValue_cast pf r h k v opt hk hkt has]
          refine ⟨⟨fun hc => (by cases hc), ?_⟩, fun _ => ⟨_, rfl⟩⟩
          rintro (hc | ⟨str, convert, rfl, -, -⟩)
          · exact absurd hc hleft
          · simp [Value.asString] at has
        | some str =>
          have hv := asString_eq_some v str has
          subst hv
          have hconv : ∃ convert, converters pf opt.Type_ = some convert := by
            rcases hty with h1 | h1 | h1 | h1 | h1
            · rw [h1]; exact ⟨_, rfl⟩
            · rw [h1]; exact ⟨_, rfl⟩
            · rw [h1]; exact ⟨_, rfl⟩
            · rw [h1]; exact ⟨_, rfl⟩
            · exact absurd h1.symm hkt
          obtain ⟨convert, hc⟩ := hconv
          cases hcs : convert str with
          | none =>
            rw [convertValue_rejected pf r h k str opt convert hkt hc hcs]
            refine ⟨⟨fun hc => (by cases hc), ?_⟩, fun _ => ⟨_, rfl⟩⟩
            rintro (hl | ⟨str1, convert1, hv1, hc1, hacc⟩)
            · exact absurd hl hleft
            · injection hv1 with hv1
              subst hv1
              rw [hc] at hc1
              injection hc1 with hc1
              subst hc1
              exact (hacc hcs).elim
          | some val =>
            obtain ⟨h1, hs⟩ := store_of_present h r.options k _ val hp
            rw [convertValue_converted pf r h h1 k str opt convert val hkt hc hcs hs]
            refine ⟨⟨fun _ => Or.inr ⟨str, convert, rfl, hc, ?_⟩, fun _ => rfl⟩,
              fun hc => absurd rfl hc⟩
            rw [hcs]; exact Option.some_ne_none val
      · rw [convertValue_wrong_type pf r h k v opt kind hk hkt hks]
        refine ⟨⟨fun hc => (by cases hc), ?_⟩, fun _ => ⟨_, rfl⟩⟩
        rintro (hl | ⟨str, convert, rfl, -, -⟩)
        · exact absurd hl hleft
        · simp [Value.kind] at hk
          exact (hks hk.symm).elim

theorem checkDuplicates_spec (r : request) (h : Heap) (k : String) (names : List String) :
    (checkDuplicates r h k names = Outcome.nil ↔
      ∀ name ∈ names, name ≠ k → h.lookup r.options name = none) ∧
    (checkDuplicates r h k names ≠ Outcome.nil →
      ∃ name, name ∈ names ∧ name ≠ k ∧ h.lookup r.options name ≠ none ∧
        checkDuplicates r h k names = Outcome.err (Error.Duplicate k name)) := by
  induction names with
  | nil => simp [checkDuplicates]
  | cons n rest ih =>
    simp only [checkDuplicates]
    by_cases hc : n ≠ k ∧ (h.lookup r.options n).isSome = true
    · rw [if_pos hc]
      have hsome : h.lookup r.options n ≠ none := by
        intro hn; rw [hn] at hc; simp at hc
      refine ⟨⟨fun hc1 => (by cases hc1), fun hall => ?_⟩, fun _ => ?_⟩
      · exact absurd (hall n (List.mem_cons_self _ _) hc.1) hsome
      · exact ⟨n, List.mem_cons_self _ _, hc.1, hsome, rfl⟩
    · rw [if_neg hc]
      have hn : n ≠ k → h.lookup r.options n = none := by
        intro hne
        by_contra hcon
        exact hc ⟨hne, Option.isSome_iff_ne_none.mpr hcon⟩
      refine ⟨?_, ?_⟩
      · rw [ih.1]
        simp only [List.mem_cons, forall_eq_or_imp]
        exact ⟨fun hall => ⟨hn, hall⟩, fun hall => hall.2⟩
      · intro hne
        obtain ⟨name, h1, h2, h3, h4⟩ := ih.2 hne
        exact ⟨name, List.mem_cons_of_mem _ h1, h2, h3, h4⟩

/-! ### C3 and C2: when `ConvertOptions` succeeds -/

theorem lookup_none_iff_of_isSome_eq (h h1 : Heap) (m : OptMap) (n : String)
    (hs : (h1.lookup m n).isSome = (h.lookup m n).isSome) :
    h1.lookup m n = none ↔ h.lookup m n = none := by
  rw [← Option.not_isSome_iff_eq_none, ← Option.not_isSome_iff_eq_none, hs]

theorem noOtherName_congr (h h1 : Heap) (m : OptMap) (k : String) (opt : OptionDef)
    (hnone : ∀ n, h1.lookup m n = none ↔ h.lookup m n = none) :
    NoOtherName h1 m k opt ↔ NoOtherName h m k opt := by
  unfold NoOtherName
  constructor
  · intro hall name hn hne; exact (hnone name).mp (hall name hn hne)
  · intro hall name hn hne; exact (hnone name).mpr (hall name hn hne)

theorem keyValid_congr (pf : String → Option Nat) (defs : OptionDefs) (h h1 : Heap)
    (m : OptMap) (k : String) (hval : h1.lookup m k = h.lookup m k)
    (hnone : ∀ n, h1.lookup m n = none ↔ h.lookup m n = none) :
    KeyValid pf defs h1 m k ↔ KeyValid pf defs h m k := by
  unfold KeyValid
  rw [hval]
  constructor
  · intro hall v opt hv hd
    exact ⟨(hall v opt hv hd).1, (noOtherName_congr h h1 m k opt hnone).mp (hall v opt hv hd).2⟩
  · intro hall v opt hv hd
    exact ⟨(hall v opt hv hd).1, (noOtherName_congr h h1 m k opt hnone).mpr (hall v opt hv hd).2⟩

/-- On a map without nil values and definitions with declared types among the five,
`ConvertOptions` ends with a nil error exactly when every visited key is valid, and with a
non-nil error otherwise: it does not panic. -/
theorem convertLoop_spec (pf : String → Option Nat) (r : request)
    (htypes : DeclaredTypes r.optionDefs) :
    ∀ (order : List String) (h : Heap), order.Nodup →
      (∀ k ∈ order, h.lookup r.options k ≠ some Value.nil) →
      ((convertLoop pf r order h).2 = Outcome.nil ↔
        ∀ k ∈ order, KeyValid pf r.optionDefs h r.options k) ∧
      ((convertLoop pf r order h).2 ≠ Outcome.nil →
        ∃ e, (convertLoop pf r order h).2 = Outcome.err e) := by
  intro order
  induction order with
  | nil =>
    intro h _ _
    exact ⟨⟨fun _ k hk => absurd hk (List.not_mem_nil k), fun _ => rfl⟩,
      fun hc => absurd rfl hc⟩
  | cons k rest ih =>
    intro h hnd hnn
    have hnd1 : rest.Nodup := (List.nodup_cons.mp hnd).2
    have hknot : k ∉ rest := (List.nodup_cons.mp hnd).1
    have hnn1 : ∀ k1 ∈ rest, h.lookup r.options k1 ≠ some Value.nil :=
      fun k1 hk1 => hnn k1 (List.mem_cons_of_mem _ hk1)
    have hskip : KeyValid pf r.optionDefs h r.options k →
        ((convertLoop pf r rest h).2 = Outcome.nil ↔
          ∀ k1 ∈ k :: rest, KeyValid pf r.optionDefs h r.options k1) := by
      intro hkv
      rw [(ih h hnd1 hnn1).1]
      simp only [List.mem_cons, forall_eq_or_imp]
      exact ⟨fun hall => ⟨hkv, hall⟩, fun hall => hall.2⟩
    rw [convertLoop_cons]
    cases hl : h.lookup r.options k with
    | none =>
      exact ⟨hskip (fun v opt hv _ => by rw [hl] at hv; cases hv), (ih h hnd1 hnn1).2⟩
    | some v =>
      cases hd : r.optionDefs k with
      | none =>
        exact ⟨hskip (fun v opt _ hd1 => by rw [hd] at hd1; cases hd1), (ih h hnd1 hnn1).2⟩
      | some opt =>
        simp only
        have hvnil : v ≠ Value.nil := by
          intro hc
          exact hnn k (List.mem_cons_self _ _) (by rw [hl, hc])
        obtain ⟨hcv1, hcv2⟩ :=
          convertValue_spec pf r h k v opt hl hvnil (htypes k opt hd)
        obtain ⟨-, hsome, hframe⟩ := convertValue_frame pf r h k v opt hl
        have hnone : ∀ n, (convertValue pf r h k v opt).1.lookup r.options n = none ↔
            h.lookup r.options n = none :=
          fun n => lookup_none_iff_of_isSome_eq h _ r.options n (hsome r.options n)
        have hkv : KeyValid pf r.optionDefs h r.options k ↔
            ValueAccepted pf v opt ∧ NoOtherName h r.options k opt := by
          unfold KeyValid
          constructor
          · intro hall; exact hall v opt hl hd
          · intro hboth v1 opt1 hv1 hd1
            rw [hl] at hv1; rw [hd] at hd1
            injection hv1 with hv1; injection hd1 with hd1
            subst hv1; subst hd1
            exact hboth
        by_cases hout : (convertValue pf r h k v opt).2 = Outcome.nil
        · rw [if_pos hout]
          have hacc := hcv1.mp hout
          obtain ⟨hcd1, hcd2⟩ :=
            checkDuplicates_spec r (convertValue pf r h k v opt).1 k opt.Names
          by_cases hdup : checkDuplicates r (convertValue pf r h k v opt).1 k opt.Names
              = Outcome.nil
          · rw [if_pos hdup]
            have hno : NoOtherName h r.options k opt :=
              (noOtherName_congr h _ r.options k opt hnone).mp (hcd1.mp hdup)
            have hnn2 : ∀ k1 ∈ rest,
                (convertValue pf r h k v opt).1.lookup r.options k1 ≠ some Value.nil := by
              intro k1 hk1
              rw [hframe r.options k1 (fun hc => hknot (hc.2 ▸ hk1))]
              exact hnn1 k1 hk1
            obtain ⟨ih1, ih2⟩ := ih (convertValue pf r h k v opt).1 hnd1 hnn2
            refine ⟨?_, ih2⟩
            rw [ih1]
            simp only [List.mem_cons, forall_eq_or_imp]
            constructor
            · intro hall
              refine ⟨hkv.mpr ⟨hacc, hno⟩, fun k1 hk1 => ?_⟩
              exact (keyValid_congr pf r.optionDefs h _ r.options k1
                (hframe r.options k1 (fun hc => hknot (hc.2 ▸ hk1))) hnone).mp (hall k1 hk1)
            · intro hall k1 hk1
              exact (keyValid_congr pf r.optionDefs h _ r.options k1
                (hframe r.options k1 (fun hc => hknot (hc.2 ▸ hk1))) hnone).mpr
                (hall.2 k1 hk1)
          · rw [if_neg hdup]
            refine ⟨⟨fun hc => absurd hc hdup, fun hall => ?_⟩, fun _ => ?_⟩
            · have hno := (hkv.mp (hall k (List.mem_cons_self _ _))).2
              exact absurd (hcd1.mpr
                ((noOtherName_congr h _ r.options k opt hnone).mpr hno)) hdup
            · obtain ⟨name, -, -, -, heq⟩ := hcd2 hdup
              exact ⟨_, heq⟩
        · rw [if_neg hout]
          refine ⟨⟨fun hc => absurd hc hout, fun hall => ?_⟩, fun _ => hcv2 hout⟩
          exact absurd (hcv1.mpr (hkv.mp (hall k (List.mem_cons_self _ _))).1) hout

theorem newRequest_eq (pf : String → Option Nat) (path : List String) (opts : OptMap)
    (args : List String) (optDefs : OptionDefs) (order : List String) (h : Heap) :
    NewRequest pf path opts args optDefs order h =
      if (convertLoop pf
          { path := path, options := (if opts = OptMap.nil then h.make else (h, opts)).2,
            arguments := args, optionDefs := optDefs } order
          (if opts = OptMap.nil then h.make else (h, opts)).1).2 = Outcome.nil then
        (some { path := path, options := (if opts = OptMap.nil then h.make else (h, opts)).2,
                arguments := args, optionDefs := optDefs },
          (convertLoop pf
            { path := path, options := (if opts = OptMap.nil then h.make else (h, opts)).2,
              arguments := args, optionDefs := optDefs } order
            (if opts = OptMap.nil then h.make else (h, opts)).1).1, Outcome.nil)
      else
        (none, convertLoop pf
            { path := path, options := (if opts = OptMap.nil then h.make else (h, opts)).2,
              arguments := args, optionDefs := optDefs } order
            (if opts = OptMap.nil then h.make else (h, opts)).1) := by
  simp only [NewRequest, request.ConvertOptions]
  rcases hcl : convertLoop pf
      { path := path, options := (if opts = OptMap.nil then h.make else (h, opts)).2,
        arguments := args, optionDefs := optDefs } order
      (if opts = OptMap.nil then h.make else (h, opts)).1 with ⟨h1, out⟩
  cases out <;> simp

/-- The outcome of `ConvertOptions` on a visiting order of a map without nil values, under
definitions with declared types among the five. -/
theorem convertOptions_outcome (pf : String → Option Nat) (r : request) (order : List String)
    (h : Heap) (hvisit : VisitOrder h r.options order) (hnn : NonNilValues h r.options)
    (hty : DeclaredTypes r.optionDefs) :
    ((convertLoop pf r order h).2 = Outcome.nil ↔
      ∀ k, KeyValid pf r.optionDefs h r.options k) ∧
    ((convertLoop pf r order h).2 ≠ Outcome.nil →
      ∃ e, (convertLoop pf r order h).2 = Outcome.err e) := by
  obtain ⟨h1, h2⟩ := convertLoop_spec pf r hty order h hvisit.1 (fun k _ => hnn k)
  refine ⟨?_, h2⟩
  rw [h1]
  constructor
  · intro hall k
    by_cases hk : k ∈ order
    · exact hall k hk
    · intro v opt hv _
      have := (hvisit.2 k).not.mp hk
      rw [not_not] at this
      rw [this] at hv
      cases hv
  · intro hall k _
    exact hall k

/-- C3: for every option map opts without nil values, visited in any order, and every
definition map whose declared types are among Bool, Int, Uint, Float and String, NewRequest
returns a non-nil Request with a nil error if and only if every key of opts that has a
definition has (i) a value of the declared kind, or a string that the converter of the
declared type accepts, and (ii) no other name of its option among the keys of opts; in
every other case it returns a nil Request and a non-nil error. -/
theorem C3_newRequest_succeeds_iff (pf : String → Option Nat) (path : List String)
    (opts : OptMap) (args : List String) (optDefs : OptionDefs) (order : List String)
    (h : Heap) (hvisit : VisitOrder h opts order) (hnn : NonNilValues h opts)
    (hty : DeclaredTypes optDefs) :
    ((∃ req h1, NewRequest pf path opts args optDefs order h = (some req, h1, Outcome.nil)) ↔
      ∀ k, KeyValid pf optDefs h opts k) ∧
    (¬ (∀ k, KeyValid pf optDefs h opts k) →
      ∃ h1 e, NewRequest pf path opts args optDefs order h = (none, h1, Outcome.err e)) := by
  rw [newRequest_eq]
  cases hopts : opts with
  | nil =>
    subst hopts
    have horder : order = [] := by
      apply List.eq_nil_iff_forall_not_mem.mpr
      intro k hk
      exact (hvisit.2 k).mp hk rfl
    subst horder
    have hvalid : ∀ k, KeyValid pf optDefs h OptMap.nil k := by
      intro k v opt hv _
      cases hv
    simp only [if_true, convertLoop]
    exact ⟨⟨fun _ => hvalid, fun _ => ⟨_, _, rfl⟩⟩, fun hc => absurd hvalid hc⟩
  | ref a =>
    subst hopts
    simp only [reduceCtorEq, if_false]
    obtain ⟨h1, h2⟩ := convertOptions_outcome pf
      { path := path, options := OptMap.ref a, arguments := args, optionDefs := optDefs }
      order h hvisit hnn hty
    by_cases hout : (convertLoop pf
      { path := path, options := OptMap.ref a, arguments := args, optionDefs := optDefs }
      order h).2 = Outcome.nil
    · rw [if_pos hout]
      exact ⟨⟨fun _ => h1.mp hout, fun _ => ⟨_, _, rfl⟩⟩, fun hc => absurd (h1.mp hout) hc⟩
    · rw [if_neg hout]
      obtain ⟨e, he⟩ := h2 hout
      refine ⟨⟨?_, fun hall => absurd (h1.mpr hall) hout⟩, fun _ =>
        ⟨(convertLoop pf ⟨path, OptMap.ref a, args, optDefs⟩ order h).1, e, ?_⟩⟩
      · rintro ⟨req, h3, heq⟩
        cases heq
      · rw [← he]

theorem nonNil_demo : NonNilValues (heapWith demoEntries) (OptMap.ref 0) := by
  intro k
  simp only [Heap.lookup, heapWith, demoEntries, if_true]
  split
  · simp
  · split <;> simp

theorem declaredTypes_demo : DeclaredTypes demoDefs := by
  intro k opt hd
  unfold demoDefs at hd
  split at hd
  · injection hd with hd; subst hd; simp [optEncoding]
  · split at hd
    · injection hd with hd; subst hd; simp [optRecursive]
    · split at hd
      · injection hd with hd; subst hd; simp [optCount]
      · cases hd

/-- C3, witness: `NewRequest` with the options `enc: "json"` and `n: "42"`, visited as `n`,
`enc`. -/
theorem C3_newRequest_succeeds_iff_witness :
    ((∃ req h1, NewRequest demoParseFloat [] (OptMap.ref 0) [] demoDefs ["n", "enc"]
        (heapWith demoEntries) = (some req, h1, Outcome.nil)) ↔
      ∀ k, KeyValid demoParseFloat demoDefs (heapWith demoEntries) (OptMap.ref 0) k) ∧
    (¬ (∀ k, KeyValid demoParseFloat demoDefs (heapWith demoEntries) (OptMap.ref 0) k) →
      ∃ h1 e, NewRequest demoParseFloat [] (OptMap.ref 0) [] demoDefs ["n", "enc"]
        (heapWith demoEntries) = (none, h1, Outcome.err e)) :=
  C3_newRequest_succeeds_iff demoParseFloat [] (OptMap.ref 0) [] demoDefs ["n", "enc"]
    (heapWith demoEntries) visitOrder_demo nonNil_demo declaredTypes_demo

/-! ### C2: two names of one option -/

/-- C2, the code at the failing inputs: with nil values under both names `enc` and
`encoding` of one option, `ConvertOptions` panics in both visiting orders instead of
returning an error, and so do `NewRequest` and `SetOptions` called with that map; with
string values under both names of an option declared with a kind that has no converter,
it panics too, in both visiting orders. -/
theorem C2_panic_instead_of_error :
    (heapWith nilEntries).lookup demoRequest.options "enc" = some Value.nil ∧
    (heapWith nilEntries).lookup demoRequest.options "encoding" = some Value.nil ∧
    demoRequest.optionDefs "enc" = some optEncoding ∧
    "encoding" ∈ optEncoding.Names ∧
    (demoRequest.ConvertOptions demoParseFloat ["enc", "encoding"] (heapWith nilEntries)).2
      = Outcome.panic ∧
    (demoRequest.ConvertOptions demoParseFloat ["encoding", "enc"] (heapWith nilEntries)).2
      = Outcome.panic ∧
    (NewRequest demoParseFloat [] (OptMap.ref 0) [] demoDefs ["enc", "encoding"]
      (heapWith nilEntries)).2.2 = Outcome.panic ∧
    (demoRequest.SetOptions demoParseFloat (OptMap.ref 0) ["enc", "encoding"]
      (heapWith nilEntries)).2.2 = Outcome.panic ∧
    oddRequest.optionDefs "x" = some optOdd ∧
    "y" ∈ optOdd.Names ∧
    (oddRequest.ConvertOptions demoParseFloat ["x", "y"] (heapWith oddEntries)).2
      = Outcome.panic ∧
    (oddRequest.ConvertOptions demoParseFloat ["y", "x"] (heapWith oddEntries)).2
      = Outcome.panic := by
  decide

/-- Where it does not panic, `ConvertOptions` rejects two names of one option: for every
option map without nil values, under definitions whose declared types are among Bool, Int,
Uint, Float and String, if the map contains two distinct keys k and n such that k has a
definition and n is one of the names of that option, then `ConvertOptions`, `SetOptions` and
`NewRequest` called with that map return a non-nil error (`NewRequest` with a nil Request),
whatever the two values are and whatever order the keys are visited in. -/
theorem duplicate_names_rejected (pf : String → Option Nat) (r : request) (opts : OptMap)
    (order : List String) (h : Heap) (k n : String) (opt : OptionDef)
    (hvisit : VisitOrder h opts order) (hnn : NonNilValues h opts)
    (hty : DeclaredTypes r.optionDefs)
    (hk : h.lookup opts k ≠ none) (hn : h.lookup opts n ≠ none) (hne : k ≠ n)
    (hdef : r.optionDefs k = some opt) (hname : n ∈ opt.Names) :
    (r.options = opts → ∃ e, (r.ConvertOptions pf order h).2 = Outcome.err e) ∧
    (∃ e, (r.SetOptions pf opts order h).2.2 = Outcome.err e) ∧
    (∃ h1 e, NewRequest pf r.path opts r.arguments r.optionDefs order h
      = (none, h1, Outcome.err e)) := by
  have hinvalid : ¬ ∀ k1, KeyValid pf r.optionDefs h opts k1 := by
    intro hall
    obtain ⟨v, hv⟩ := Option.ne_none_iff_exists'.mp hk
    exact hn ((hall k v opt hv hdef).2 n hname (Ne.symm hne))
  have hset : ∃ e, (r.SetOptions pf opts order h).2.2 = Outcome.err e := by
    obtain ⟨h1, h2⟩ := convertOptions_outcome pf { r with options := opts } order h
      hvisit hnn hty
    exact h2 (fun hc => hinvalid (h1.mp hc))
  refine ⟨?_, hset, ?_⟩
  · intro hopts
    obtain ⟨h1, h2⟩ := convertOptions_outcome pf r order h
      (by rw [hopts]; exact hvisit) (by rw [hopts]; exact hnn) hty
    exact h2 (fun hc => hinvalid (by rw [← hopts]; exact h1.mp hc))
  · obtain ⟨e, he⟩ := hset
    have hne : opts ≠ OptMap.nil := by
      rintro rfl
      exact hk rfl
    have he1 : (convertLoop pf
        { path := r.path, options := opts, arguments := r.arguments,
          optionDefs := r.optionDefs } order h).2 = Outcome.err e := he
    refine ⟨(convertLoop pf
        { path := r.path, options := opts, arguments := r.arguments,
          optionDefs := r.optionDefs } order h).1, e, ?_⟩
    rw [newRequest_eq]
    simp only [hne, if_false]
    rw [if_neg (by rw [he1]; exact fun hc => (by cases hc)), ← he1]

theorem visitOrder_clash : VisitOrder (heapWith clashEntries) (OptMap.ref 0) ["n", "count"] := by
  refine ⟨by decide, ?_⟩
  intro k
  by_cases hk : k = "count"
  · subst hk; decide
  · by_cases hn : k = "n"
    · subst hn; decide
    · simp [Heap.lookup, heapWith, clashEntries, hk, hn]

theorem nonNil_clash : NonNilValues (heapWith clashEntries) (OptMap.ref 0) := by
  intro k
  simp only [Heap.lookup, heapWith, clashEntries, if_true]
  split
  · simp
  · split <;> simp

/-- The keys `count` and `n`, two names of one option, visited as `n`, `count`. -/
theorem duplicate_names_rejected_demo :
    (demoRequest.options = OptMap.ref 0 →
      ∃ e, (demoRequest.ConvertOptions demoParseFloat ["n", "count"]
        (heapWith clashEntries)).2 = Outcome.err e) ∧
    (∃ e, (demoRequest.SetOptions demoParseFloat (OptMap.ref 0) ["n", "count"]
      (heapWith clashEntries)).2.2 = Outcome.err e) ∧
    (∃ h1 e, NewRequest demoParseFloat demoRequest.path (OptMap.ref 0) demoRequest.arguments
      demoRequest.optionDefs ["n", "count"] (heapWith clashEntries)
        = (none, h1, Outcome.err e)) :=
  duplicate_names_rejected demoParseFloat demoRequest (OptMap.ref 0) ["n", "count"]
    (heapWith clashEntries) "count" "n" optCount visitOrder_clash nonNil_clash
    declaredTypes_demo (by decide) (by decide) (by decide) rfl (by decide)

/-! ### C7: the caches of `Context` -/

/-- C7, as stated, fails in two places.  In its parenthesis: on a context with nothing
cached whose `ConstructNode` returns a node together with an error, `GetNode` returns that
error, so no construction has succeeded, and yet `NodeWithoutConstructing` then returns the
node.  In its "exactly when": on a context with nothing cached whose `LoadConfig` is set and
returns a nil config with an error of the message "nil LoadConfig function", `GetConfig`
calls it and returns that error with a nil config although `LoadConfig` is not nil; likewise
`GetNode` with `ConstructNode`. -/
theorem C7_node_cached_without_success :
    halfBuilt.NodeWithoutConstructing = none ∧
    (halfBuilt.GetNode 0).1 = (some 7, some (errors.New "node is not online")) ∧
    (halfBuilt.GetNode 0).2.1.NodeWithoutConstructing = some 7 ∧
    echoing.config = none ∧
    echoing.LoadConfig.isSome = true ∧
    (echoing.GetConfig 0).1 = (none, some (errors.New "nil LoadConfig function")) ∧
    (echoing.GetConfig 0).2.2 = 1 ∧
    echoing.node = none ∧
    echoing.ConstructNode.isSome = true ∧
    (echoing.GetNode 0).1 = (none, some (errors.New "nil ConstructNode function")) ∧
    (echoing.GetNode 0).2.2 = 1 := by
  decide

/-- C7, amended: for every Context, GetConfig returns the error "nil LoadConfig function"
with a nil config when no config is cached and LoadConfig is nil, and otherwise only when
no config is cached and LoadConfig(ConfigRoot) itself returns a nil config with an error of
that message; when no config is cached and LoadConfig is set it returns what
LoadConfig(ConfigRoot) returns and caches the config; and once a non-nil config is cached
every later GetConfig returns that same config with a nil error without calling LoadConfig,
and GetNode keeps it cached.  The same holds for GetNode with ConstructNode.
NodeWithoutConstructing returns the cached node without calling ConstructNode; it is nil as
long as nothing is cached and no ConstructNode call has returned a non-nil node (with or
without an error). -/
theorem C7_context_caches {Config Node W : Type} (c : Context Config Node W) (w : W) :
    (c.config = none → c.LoadConfig = none →
      c.GetConfig w = ((none, some (errors.New "nil LoadConfig function")), c, w)) ∧
    (((c.GetConfig w).1 = (none, some (errors.New "nil LoadConfig function"))) ↔
      (c.config = none ∧ (c.LoadConfig = none ∨ ∃ load, c.LoadConfig = some load ∧
        (load c.ConfigRoot w).1 = (none, some (errors.New "nil LoadConfig function"))))) ∧
    (∀ load, c.config = none → c.LoadConfig = some load →
      (c.GetConfig w).1 = (load c.ConfigRoot w).1 ∧
      (c.GetConfig w).2.1.config = (load c.ConfigRoot w).1.1 ∧
      (c.GetConfig w).2.2 = (load c.ConfigRoot w).2) ∧
    (∀ cfg, c.config = some cfg →
      c.GetConfig w = ((some cfg, none), c, w) ∧ (c.GetNode w).2.1.config = some cfg) ∧
    (c.node = none → c.ConstructNode = none →
      c.GetNode w = ((none, some (errors.New "nil ConstructNode function")), c, w)) ∧
    (((c.GetNode w).1 = (none, some (errors.New "nil ConstructNode function"))) ↔
      (c.node = none ∧ (c.ConstructNode = none ∨ ∃ construct,
        c.ConstructNode = some construct ∧
        (construct w).1 = (none, some (errors.New "nil ConstructNode function"))))) ∧
    (∀ construct, c.node = none → c.ConstructNode = some construct →
      (c.GetNode w).1 = (construct w).1 ∧
      (c.GetNode w).2.1.node = (construct w).1.1 ∧
      (c.GetNode w).2.2 = (construct w).2) ∧
    (∀ nd, c.node = some nd →
      c.GetNode w = ((some nd, none), c, w) ∧ (c.GetConfig w).2.1.node = some nd) ∧
    c.NodeWithoutConstructing = c.node ∧
    (c.node = none →
      (c.GetConfig w).2.1.NodeWithoutConstructing = none ∧
      ((∀ construct, c.ConstructNode = some construct → (construct w).1.1 = none) →
        (c.GetNode w).2.1.NodeWithoutConstructing = none)) := by
  refine ⟨?_, ?_, ?_, ?_, ?_, ?_, ?_, ?_, rfl, ?_⟩
  · intro hc hl
    unfold Context.GetConfig
    rw [hc, hl]
  · unfold Context.GetConfig
    cases hc : c.config with
    | some cfg =>
      exact ⟨fun h => (by cases h), fun h => (by cases h.1)⟩
    | none =>
      cases hl : c.LoadConfig with
      | none => exact ⟨fun _ => ⟨rfl, Or.inl rfl⟩, fun _ => rfl⟩
      | some load =>
        refine ⟨fun h => ⟨rfl, Or.inr ⟨load, rfl, h⟩⟩, ?_⟩
        rintro ⟨-, h | ⟨load1, h1, h2⟩⟩
        · cases h
        · cases h1
          exact h2
  · intro load hc hl
    unfold Context.GetConfig
    rw [hc, hl]
    exact ⟨rfl, rfl, rfl⟩
  · intro cfg hc
    constructor
    · unfold Context.GetConfig
      simp only [hc]
    · unfold Context.GetNode
      cases c.node with
      | some nd => exact hc
      | none =>
        cases c.ConstructNode with
        | none => exact hc
        | some construct => exact hc
  · intro hc hl
    unfold Context.GetNode
    rw [hc, hl]
  · unfold Context.GetNode
    cases hc : c.node with
    | some nd =>
      exact ⟨fun h => (by cases h), fun h => (by cases h.1)⟩
    | none =>
      cases hl : c.ConstructNode with
      | none => exact ⟨fun _ => ⟨rfl, Or.inl rfl⟩, fun _ => rfl⟩
      | some construct =>
        refine ⟨fun h => ⟨rfl, Or.inr ⟨construct, rfl, h⟩⟩, ?_⟩
        rintro ⟨-, h | ⟨construct1, h1, h2⟩⟩
        · cases h
        · cases h1
          exact h2
  · intro construct hc hl
    unfold Context.GetNode
    rw [hc, hl]
    exact ⟨rfl, rfl, rfl⟩
  · intro nd hc
    constructor
    · unfold Context.GetNode
      simp only [hc]
    · unfold Context.GetConfig
      cases c.config with
      | some cfg => exact hc
      | none =>
        cases c.LoadConfig with
        | none => exact hc
        | some load => exact hc
  · intro hc
    constructor
    · unfold Context.GetConfig Context.NodeWithoutConstructing
      cases c.config with
      | some cfg => exact hc
      | none =>
        cases c.LoadConfig with
        | none => exact hc
        | some load => exact hc
    · intro hall
      unfold Context.GetNode Context.NodeWithoutConstructing
      simp only [hc]
      cases hl : c.ConstructNode with
      | none => exact hc
      | some construct => exact hall construct hl

/-! ### C10: the conversion of an Int option -/

theorem convertLoop_append (pf : String → Option Nat) (r : request) :
    ∀ (xs ys : List String) (h : Heap),
      convertLoop pf r (xs ++ ys) h =
        if (convertLoop pf r xs h).2 = Outcome.nil then
          convertLoop pf r ys (convertLoop pf r xs h).1
        else convertLoop pf r xs h := by
  intro xs
  induction xs with
  | nil => intro ys h; simp [convertLoop]
  | cons x xs ih =>
    intro ys h
    rw [List.cons_append, convertLoop_cons, convertLoop_cons]
    cases h.lookup r.options x with
    | none => exact ih ys h
    | some v =>
      cases r.optionDefs x with
      | none => exact ih ys h
      | some opt =>
        simp only
        by_cases hcv : (convertValue pf r h x v opt).2 = Outcome.nil
        · rw [if_pos hcv, if_pos hcv]
          by_cases hcd : checkDuplicates r (convertValue pf r h x v opt).1 x opt.Names
              = Outcome.nil
          · rw [if_pos hcd, if_pos hcd]
            exact ih ys _
          · rw [if_neg hcd, if_neg hcd, if_neg hcd]
        · rw [if_neg hcv, if_neg hcv, if_neg hcv]

theorem toInt_of_int32 (n : Int) (hn : - 2 ^ 31 ≤ n ∧ n ≤ 2 ^ 31 - 1) : strconv.toInt n = n := by
  unfold strconv.toInt strconv.IntSize
  obtain ⟨h1, h2⟩ := hn
  norm_num at h1 h2 ⊢
  omega

/-- The converter of `Int` on a string: the parsed value as an `int`, or no value when
`ParseInt` reports an error. -/
theorem converters_int (pf : String → Option Nat) :
    ∃ convert, converters pf Kind.Int = some convert ∧
      (∀ s val, strconv.ParseInt s.toList 0 32 = (val, none) →
        convert s = some (Value.int (strconv.toInt val))) ∧
      (∀ s, (strconv.ParseInt s.toList 0 32).2 ≠ none → convert s = none) := by
  refine ⟨_, rfl, ?_, ?_⟩
  · intro s val hp
    simp only [hp]
  · intro s hp
    rcases hparse : strconv.ParseInt s.toList 0 32 with ⟨val, err⟩
    rw [hparse] at hp
    cases err with
    | none => exact absurd rfl hp
    | some e => simp only [hparse]

/-- The visit of a key that holds a string, for an option declared with type Int, after
the keys before it have passed. -/
theorem convertLoop_int_key (pf : String → Option Nat) (r : request) (h : Heap)
    (pre post : List String) (k s : String) (opt : OptionDef)
    (hdef : r.optionDefs k = some opt) (htype : opt.Type_ = Kind.Int)
    (hval : h.lookup r.options k = some (Value.string s))
    (hnodup : (pre ++ k :: post).Nodup)
    (hpre : (convertLoop pf r pre h).2 = Outcome.nil) :
    (∀ val, strconv.ParseInt s.toList 0 32 = (val, none) →
      (convertLoop pf r (pre ++ k :: post) h).1.lookup r.options k
        = some (Value.int (strconv.toInt val))) ∧
    ((strconv.ParseInt s.toList 0 32).2 ≠ none →
      (convertLoop pf r (pre ++ k :: post) h).2
        = Outcome.err (Error.CouldNotConvert (describeValue s) Kind.Int k) ∧
      (convertLoop pf r (pre ++ k :: post) h).1.lookup r.options k
        = some (Value.string s)) := by
  have hkpre : k ∉ pre := by
    intro hc
    have := List.nodup_append.mp hnodup
    exact this.2.2 hc (List.mem_cons_self _ _)
  have hkpost : k ∉ post :=
    (List.nodup_cons.mp (List.nodup_append.mp hnodup).2.1).1
  have hval1 : (convertLoop pf r pre h).1.lookup r.options k = some (Value.string s) := by
    rw [(convertLoop_frame pf r pre h).2.2 r.options k (fun hc => hkpre hc.2)]
    exact hval
  have hkt : Kind.String ≠ opt.Type_ := by rw [htype]; decide
  obtain ⟨convert, hconv, hok, hbad⟩ := converters_int pf
  rw [← htype] at hconv
  rw [convertLoop_append, if_pos hpre, convertLoop_cons, hval1, hdef]
  simp only
  constructor
  · intro val hparse
    obtain ⟨h2, hs⟩ := store_of_present _ r.options k _
      (Value.int (strconv.toInt val)) hval1
    have hcv := convertValue_converted pf r _ h2 k s opt convert _ hkt hconv
      (hok s val hparse) hs
    have hk2 : h2.lookup r.options k = some (Value.int (strconv.toInt val)) :=
      (store_frame _ h2 r.options k _ hs).2.1
    rw [hcv]
    simp only [if_true]
    split
    · rw [(convertLoop_frame pf r post h2).2.2 r.options k (fun hc => hkpost hc.2)]
      exact hk2
    · exact hk2
  · intro hparse
    have hcv := convertValue_rejected pf r (convertLoop pf r pre h).1 k s opt convert hkt
      hconv (hbad s hparse)
    rw [hcv, htype]
    simp only [reduceCtorEq, if_false]
    exact ⟨trivial, hval1⟩

/-- C10, as stated, fails: ConvertOptions stops at the first key that fails.  With `enc: 5`
under the String option `encoding` and `n: "42"` under the Int option `count`, visited as
`enc`, `n`, the call returns the error for the type of `enc`; the key `n` is not reached and
keeps the string `"42"`, the decimal representation of an integer of the 32-bit range.
Visited as `n`, `enc`, the string is replaced by the integer 42. -/
theorem C10_int_value_not_reached :
    demoRequest.optionDefs "n" = some optCount ∧
    optCount.Type_ = Kind.Int ∧
    (heapWith wrongFirstEntries).lookup demoRequest.options "n" = some (Value.string "42") ∧
    "42" = strconv.decimal 42 ∧
    (demoRequest.ConvertOptions demoParseFloat ["enc", "n"] (heapWith wrongFirstEntries)).2
      = Outcome.err (Error.WrongType "enc" Kind.String Kind.Int) ∧
    (demoRequest.ConvertOptions demoParseFloat ["enc", "n"]
      (heapWith wrongFirstEntries)).1.lookup demoRequest.options "n"
      = some (Value.string "42") ∧
    (demoRequest.ConvertOptions demoParseFloat ["n", "enc"]
      (heapWith wrongFirstEntries)).1.lookup demoRequest.options "n"
      = some (Value.int 42) := by
  decide

/-- C10, amended: for every option declared with type Int and every string value under a key
of that option which ConvertOptions reaches (every key visited before it passes): if the
string is the decimal representation of an integer n, ConvertOptions replaces the value by
the integer n when -2^31 <= n <= 2^31-1, and returns a "Could not convert" error, leaving
the value a string, when n is outside the signed 32-bit range; a string that is not an
integer literal (of the Go language, with an optional sign) is likewise rejected with that
error, and so is every string for which ParseInt reports an error. -/
theorem C10_int_option_conversion (pf : String → Option Nat) (r : request) (h : Heap)
    (pre post : List String) (k s : String) (opt : OptionDef)
    (hdef : r.optionDefs k = some opt) (htype : opt.Type_ = Kind.Int)
    (hval : h.lookup r.options k = some (Value.string s))
    (hnodup : (pre ++ k :: post).Nodup)
    (hpre : (r.ConvertOptions pf pre h).2 = Outcome.nil) :
    (∀ n : Int, s = strconv.decimal n → - 2 ^ 31 ≤ n ∧ n ≤ 2 ^ 31 - 1 →
      (r.ConvertOptions pf (pre ++ k :: post) h).1.lookup r.options k
        = some (Value.int n)) ∧
    (∀ n : Int, s = strconv.decimal n → ¬ (- 2 ^ 31 ≤ n ∧ n ≤ 2 ^ 31 - 1) →
      (r.ConvertOptions pf (pre ++ k :: post) h).2
        = Outcome.err (Error.CouldNotConvert (describeValue s) Kind.Int k) ∧
      (r.ConvertOptions pf (pre ++ k :: post) h).1.lookup r.options k
        = some (Value.string s)) ∧
    (strconv.isSignedIntLit s.toList = false →
      (r.ConvertOptions pf (pre ++ k :: post) h).2
        = Outcome.err (Error.CouldNotConvert (describeValue s) Kind.Int k) ∧
      (r.ConvertOptions pf (pre ++ k :: post) h).1.lookup r.options k
        = some (Value.string s)) ∧
    ((strconv.ParseInt s.toList 0 32).2 ≠ none →
      (r.ConvertOptions pf (pre ++ k :: post) h).2
        = Outcome.err (Error.CouldNotConvert (describeValue s) Kind.Int k) ∧
      (r.ConvertOptions pf (pre ++ k :: post) h).1.lookup r.options k
        = some (Value.string s)) := by
  obtain ⟨hok, hbad⟩ := convertLoop_int_key pf r h pre post k s opt hdef htype hval hnodup hpre
  refine ⟨?_, ?_, ?_, hbad⟩
  · intro n hs hrange
    have hparse := (strconv.parseInt_decimal n).1 hrange
    rw [← hs] at hparse
    have := hok n hparse
    rw [toInt_of_int32 n hrange] at this
    exact this
  · intro n hs hrange
    have hparse := (strconv.parseInt_decimal n).2 hrange
    rw [← hs] at hparse
    exact hbad (by rw [hparse]; exact Option.some_ne_none _)
  · intro hlit
    exact hbad (strconv.parseInt_rejects_non_literal s.toList hlit)

/-- C10, witness: the request with `enc: "json"` and `n: "42"`, where `n` is a name of the
Int option `count`, visited after `enc`. -/
theorem C10_int_option_conversion_witness :
    (∀ n : Int, "42" = strconv.decimal n → - 2 ^ 31 ≤ n ∧ n ≤ 2 ^ 31 - 1 →
      (demoRequest.ConvertOptions demoParseFloat (["enc"] ++ "n" :: [])
        (heapWith demoEntries)).1.lookup demoRequest.options "n" = some (Value.int n)) ∧
    (∀ n : Int, "42" = strconv.decimal n → ¬ (- 2 ^ 31 ≤ n ∧ n ≤ 2 ^ 31 - 1) →
      (demoRequest.ConvertOptions demoParseFloat (["enc"] ++ "n" :: [])
        (heapWith demoEntries)).2
        = Outcome.err (Error.CouldNotConvert (describeValue "42") Kind.Int "n") ∧
      (demoRequest.ConvertOptions demoParseFloat (["enc"] ++ "n" :: [])
        (heapWith demoEntries)).1.lookup demoRequest.options "n"
        = some (Value.string "42")) ∧
    (strconv.isSignedIntLit "42".toList = false →
      (demoRequest.ConvertOptions demoParseFloat (["enc"] ++ "n" :: [])
        (heapWith demoEntries)).2
        = Outcome.err (Error.CouldNotConvert (describeValue "42") Kind.Int "n") ∧
      (demoRequest.ConvertOptions demoParseFloat (["enc"] ++ "n" :: [])
        (heapWith demoEntries)).1.lookup demoRequest.options "n"
        = some (Value.string "42")) ∧
    ((strconv.ParseInt "42".toList 0 32).2 ≠ none →
      (demoRequest.ConvertOptions demoParseFloat (["enc"] ++ "n" :: [])
        (heapWith demoEntries)).2
        = Outcome.err (Error.CouldNotConvert (describeValue "42") Kind.Int "n") ∧
      (demoRequest.ConvertOptions demoParseFloat (["enc"] ++ "n" :: [])
        (heapWith demoEntries)).1.lookup demoRequest.options "n"
        = some (Value.string "42")) :=
  C10_int_option_conversion demoParseFloat demoRequest (heapWith demoEntries) ["enc"] []
    "n" "42" optCount (by decide) (by decide) (by decide) (by decide) (by decide)

/-! ### C11: the first failing key -/

theorem convertLoop_cons_visit (pf : String → Option Nat) (r : request) (k : String)
    (rest : List String) (h : Heap) :
    convertLoop pf r (k :: rest) h =
      if (visitKey pf r h k).2 = Outcome.nil then convertLoop pf r rest (visitKey pf r h k).1
      else visitKey pf r h k := by
  rw [convertLoop_cons]
  unfold visitKey
  cases h.lookup r.options k with
  | none => simp
  | some v =>
    cases r.optionDefs k with
    | none => simp
    | some opt =>
      simp only
      rcases hcv : convertValue pf r h k v opt with ⟨h1, out⟩
      cases out with
      | nil => simp only [if_true]
      | err e => simp
      | panic => simp

/-- The first part of the loop body, by cases on the converted value: when there is one it
is stored under the key (or the store panics); when there is none the heap is left alone
and the outcome, which is not a duplicate error, does not depend on the heap. -/
theorem convertValue_cases (pf : String → Option Nat) (r : request) (k : String)
    (v : Value) (opt : OptionDef) :
    (∃ val, convertedValue pf v opt = some val ∧
      ∀ h, convertValue pf r h k v opt =
        match h.store r.options k val with
        | some h1 => (h1, Outcome.nil)
        | none => (h, Outcome.panic)) ∨
    (convertedValue pf v opt = none ∧
      ∃ out, out ≠ Outcome.nil ∧ (∀ a b, out ≠ Outcome.err (Error.Duplicate a b)) ∧
        ∀ h, convertValue pf r h k v opt = (h, out)) := by
  unfold convertedValue
  cases hk : v.kind with
  | none =>
    right
    have hv : v = Value.nil := by cases v <;> simp [Value.kind] at hk; rfl
    subst hv
    refine ⟨by simp [Value.asString], Outcome.panic, by simp, by simp, fun h => ?_⟩
    exact convertValue_nil pf r h k opt
  | some kind =>
    by_cases hkt : kind = opt.Type_
    · left
      subst hkt
      refine ⟨v, by simp, fun h => ?_⟩
      simp only [convertValue, hk, ne_eq, not_true_eq_false, if_false]
    · have hne : ¬ (some kind = some opt.Type_) := fun hc => hkt (Option.some.inj hc)
      rw [if_neg hne]
      by_cases hks : kind = Kind.String
      · subst hks
        cases has : v.asString with
        | none =>
          right
          refine ⟨rfl, Outcome.err Error.ErrCast, by simp, by simp, fun h => ?_⟩
          exact convertValue_cast pf r h k v opt hk hkt has
        | some str =>
          have hv := asString_eq_some v str has
          subst hv
          cases hc : converters pf opt.Type_ with
          | none =>
            right
            refine ⟨rfl, Outcome.panic, by simp, by simp, fun h => ?_⟩
            exact convertValue_no_converter pf r h k str opt hkt hc
          | some convert =>
            cases hcs : convert str with
            | none =>
              right
              refine ⟨by simp [hcs], Outcome.err (Error.CouldNotConvert (describeValue str)
                opt.Type_ k), by simp, by simp, fun h => ?_⟩
              exact convertValue_rejected pf r h k str opt convert hkt hc hcs
            | some val =>
              left
              refine ⟨val, by simp [hcs], fun h => ?_⟩
              simp only [convertValue, Value.kind, Value.asString, hkt, hc, hcs, ne_eq,
                not_false_eq_true, if_true]
      · right
        have has : v.asString = none := by
          cases v <;> simp [Value.asString]
          simp [Value.kind] at hk
          exact hks hk.symm
        refine ⟨by simp [has], Outcome.err (Error.WrongType k opt.Type_ kind), by simp,
          by simp, fun h => ?_⟩
        exact convertValue_wrong_type pf r h k v opt kind hk hkt hks

theorem visitKey_frame (pf : String → Option Nat) (r : request) (h : Heap) (k : String) :
    (∀ m k1, (visitKey pf r h k).1.lookup m k1 = none ↔ h.lookup m k1 = none) ∧
    (∀ m k1, ¬ (m = r.options ∧ k1 = k) → (visitKey pf r h k).1.lookup m k1 = h.lookup m k1) := by
  unfold visitKey
  cases hl : h.lookup r.options k with
  | none => exact ⟨fun _ _ => Iff.rfl, fun _ _ _ => rfl⟩
  | some v =>
    cases r.optionDefs k with
    | none => exact ⟨fun _ _ => Iff.rfl, fun _ _ _ => rfl⟩
    | some opt =>
      simp only
      obtain ⟨-, hsome, hfr⟩ := convertValue_frame pf r h k v opt hl
      rcases hcv : convertValue pf r h k v opt with ⟨h1, out⟩
      rw [hcv] at hsome hfr
      have hres : ∀ out2 : Outcome,
          (∀ m k1, (h1, out2).1.lookup m k1 = none ↔ h.lookup m k1 = none) ∧
          (∀ m k1, ¬ (m = r.options ∧ k1 = k) → (h1, out2).1.lookup m k1 = h.lookup m k1) :=
        fun _ => ⟨fun m k1 => lookup_none_iff_of_isSome_eq h h1 m k1 (hsome m k1), hfr⟩
      cases out with
      | nil => exact hres _
      | err e => exact hres _
      | panic => exact hres _

/-- What the visit of a key does depends only on the value under the key and on which keys
the map has. -/
theorem visitKey_congr (pf : String → Option Nat) (r : request) (h h1 : Heap) (k : String)
    (hnone : ∀ n, h1.lookup r.options n = none ↔ h.lookup r.options n = none)
    (hval : h1.lookup r.options k = h.lookup r.options k) :
    (visitKey pf r h1 k).2 = (visitKey pf r h k).2 ∧
    (visitKey pf r h1 k).1.lookup r.options k = (visitKey pf r h k).1.lookup r.options k := by
  unfold visitKey
  rw [hval]
  cases hl : h.lookup r.options k with
  | none => exact ⟨rfl, by rw [hval, hl]⟩
  | some v =>
    cases r.optionDefs k with
    | none => exact ⟨rfl, by rw [hval, hl]⟩
    | some opt =>
      simp only
      cases hopt : r.options with
      | nil => rw [hopt] at hl; simp [Heap.lookup] at hl
      | ref a =>
        rcases convertValue_cases pf r k v opt with ⟨val, -, hcv⟩ | ⟨-, out, hout, -, hcv⟩
        · rw [hcv h, hcv h1, hopt]
          simp only [Heap.store]
          have hdup : checkDuplicates r (h1.assign a k val) k opt.Names =
              checkDuplicates r (h.assign a k val) k opt.Names := by
            have hn : ∀ n, (h1.assign a k val).lookup r.options n = none ↔
                (h.assign a k val).lookup r.options n = none := by
              intro n
              rw [lookup_assign, lookup_assign, hopt]
              by_cases hc : OptMap.ref a = OptMap.ref a ∧ n = k
              · rw [if_pos hc, if_pos hc]
              · rw [if_neg hc, if_neg hc, ← hopt]; exact hnone n
            generalize opt.Names = names
            induction names with
            | nil => rfl
            | cons x xs ih =>
              simp only [checkDuplicates]
              have hx : ((h1.assign a k val).lookup r.options x).isSome =
                  ((h.assign a k val).lookup r.options x).isSome := by
                cases h1x : (h1.assign a k val).lookup r.options x with
                | none => rw [(hn x).mp h1x]
                | some w =>
                  cases hx2 : (h.assign a k val).lookup r.options x with
                  | none => rw [(hn x).mpr hx2] at h1x; cases h1x
                  | some w2 => rfl
              rw [hx, ih]
          refine ⟨hdup, ?_⟩
          simp [lookup_assign]
        · rw [hcv h, hcv h1]
          cases out with
          | nil => exact absurd rfl hout
          | err e => exact ⟨rfl, by rw [hopt] at hval; exact hval⟩
          | panic => exact ⟨rfl, by rw [hopt] at hval; exact hval⟩

/-- The loop stops at the first key that does not pass: the keys before it and the key
itself hold what their own visit stores, every other key holds what it held. -/
theorem convertLoop_first_stop (pf : String → Option Nat) (r : request) (k : String)
    (post : List String) (out : Outcome) (hout : out ≠ Outcome.nil) :
    ∀ (pre : List String) (h : Heap), (pre ++ k :: post).Nodup →
      (∀ j ∈ pre, (visitKey pf r h j).2 = Outcome.nil) →
      (visitKey pf r h k).2 = out →
      (convertLoop pf r (pre ++ k :: post) h).2 = out ∧
      (∀ j ∈ pre, (convertLoop pf r (pre ++ k :: post) h).1.lookup r.options j
        = (visitKey pf r h j).1.lookup r.options j) ∧
      (convertLoop pf r (pre ++ k :: post) h).1.lookup r.options k
        = (visitKey pf r h k).1.lookup r.options k ∧
      (∀ j, j ∉ pre → j ≠ k →
        (convertLoop pf r (pre ++ k :: post) h).1.lookup r.options j
          = h.lookup r.options j) := by
  intro pre
  induction pre with
  | nil =>
    intro h _ _ hk
    have hne : ¬ (visitKey pf r h k).2 = Outcome.nil := by rw [hk]; exact hout
    rw [List.nil_append, convertLoop_cons_visit, if_neg hne]
    refine ⟨hk, fun j hj => absurd hj (List.not_mem_nil j), rfl, fun j _ hjk => ?_⟩
    exact (visitKey_frame pf r h k).2 r.options j (fun hc => hjk hc.2)
  | cons j0 pre ih =>
    intro h hnd hpass hk
    have hnd1 : (pre ++ k :: post).Nodup := (List.nodup_cons.mp hnd).2
    have hj0 : j0 ∉ pre ++ k :: post := (List.nodup_cons.mp hnd).1
    have hj0pre : j0 ∉ pre := fun hc => hj0 (List.mem_append_left _ hc)
    have hj0k : j0 ≠ k := fun hc =>
      hj0 (List.mem_append_right _ (hc ▸ List.mem_cons_self _ _))
    have hp0 := hpass j0 (List.mem_cons_self _ _)
    obtain ⟨hnone, hfr⟩ := visitKey_frame pf r h j0
    have hcongr : ∀ j, j ≠ j0 →
        (visitKey pf r (visitKey pf r h j0).1 j).2 = (visitKey pf r h j).2 ∧
        (visitKey pf r (visitKey pf r h j0).1 j).1.lookup r.options j
          = (visitKey pf r h j).1.lookup r.options j :=
      fun j hj => visitKey_congr pf r h _ j (fun n => hnone r.options n)
        (hfr r.options j (fun hc => hj hc.2))
    obtain ⟨i1, i2, i3, i4⟩ := ih (visitKey pf r h j0).1 hnd1
      (fun j hj => by
        rw [(hcongr j (fun hc => hj0pre (hc ▸ hj))).1]
        exact hpass j (List.mem_cons_of_mem _ hj))
      (by rw [(hcongr k (Ne.symm hj0k)).1]; exact hk)
    rw [List.cons_append, convertLoop_cons_visit, if_pos hp0]
    refine ⟨i1, ?_, ?_, ?_⟩
    · intro j hj
      rcases List.mem_cons.mp hj with rfl | hj
      · exact i4 j hj0pre hj0k
      · rw [i2 j hj]
        exact (hcongr j (fun hc => hj0pre (hc ▸ hj))).2
    · rw [i3]
      exact (hcongr k (Ne.symm hj0k)).2
    · intro j hjn hjk
      have hjj0 : j ≠ j0 := fun hc => hjn (hc ▸ List.mem_cons_self _ _)
      rw [i4 j (fun hc => hjn (List.mem_cons_of_mem _ hc)) hjk]
      exact hfr r.options j (fun hc => hjj0 hc.2)

/-- What the visit of a key with a value and a definition leaves under the key: the
converted value when the key passes or fails on the duplicate check, and the value it had
when it fails before that. -/
theorem visitKey_value (pf : String → Option Nat) (r : request) (h : Heap) (k : String)
    (v : Value) (opt : OptionDef) (hl : h.lookup r.options k = some v)
    (hd : r.optionDefs k = some opt) :
    ((visitKey pf r h k).2 = Outcome.nil ∨
        (∃ a b, (visitKey pf r h k).2 = Outcome.err (Error.Duplicate a b)) →
      (visitKey pf r h k).1.lookup r.options k = convertedValue pf v opt ∧
      convertedValue pf v opt ≠ none) ∧
    ((visitKey pf r h k).2 ≠ Outcome.nil →
      (∀ a b, (visitKey pf r h k).2 ≠ Outcome.err (Error.Duplicate a b)) →
      (visitKey pf r h k).1.lookup r.options k = some v) := by
  unfold visitKey
  rw [hl, hd]
  simp only
  rcases convertValue_cases pf r k v opt with ⟨val, hval, hcv⟩ | ⟨hnone, out, hout, hnd, hcv⟩
  · obtain ⟨h1, hs⟩ := store_of_present h r.options k v val hl
    have hk1 : h1.lookup r.options k = some val := (store_frame h h1 r.options k val hs).2.1
    rw [hcv h, hs]
    simp only
    refine ⟨fun _ => ⟨by rw [hk1, hval], by rw [hval]; exact Option.some_ne_none _⟩, ?_⟩
    intro hne hnodup
    obtain ⟨name, -, -, -, heq⟩ := (checkDuplicates_spec r h1 k opt.Names).2 hne
    exact absurd heq (hnodup k name)
  · rw [hcv h]
    cases out with
    | nil => exact absurd rfl hout
    | err e =>
      simp only
      refine ⟨?_, fun _ _ => hl⟩
      rintro (hc | ⟨a, b, hc⟩)
      · cases hc
      · exact absurd hc (hnd a b)
    | panic =>
      simp only
      refine ⟨?_, fun _ _ => hl⟩
      rintro (hc | ⟨a, b, hc⟩)
      · cases hc
      · cases hc

theorem visitKey_undefined (pf : String → Option Nat) (r : request) (h : Heap) (k : String)
    (hd : r.optionDefs k = none) : visitKey pf r h k = (h, Outcome.nil) := by
  unfold visitKey
  rw [hd]
  cases h.lookup r.options k <;> rfl

/-- C11, as stated, fails.  First input: the keys `count` and `n`, two names of one Int
option, visited as `count`, `n`.  The key `count` fails on the duplicate check, after its
string `"1"` has been replaced by the integer 1: the failing key does not hold the value it
had before the call.  Second input: `enc` with a nil value, visited before `n` whose string
`"abc"` fails the conversion: the call panics at `enc` and returns no error. -/
theorem C11_failing_key_already_converted :
    (demoRequest.ConvertOptions demoParseFloat ["count", "n"] (heapWith clashEntries)).2
      = Outcome.err (Error.Duplicate "count" "n") ∧
    (heapWith clashEntries).lookup demoRequest.options "count" = some (Value.string "1") ∧
    (demoRequest.ConvertOptions demoParseFloat ["count", "n"]
      (heapWith clashEntries)).1.lookup demoRequest.options "count" = some (Value.int 1) ∧
    (visitKey demoParseFloat demoRequest (heapWith nilThenBadEntries) "n").2
      = Outcome.err (Error.CouldNotConvert "value 'abc'" Kind.Int "n") ∧
    (visitKey demoParseFloat demoRequest (heapWith nilThenBadEntries) "enc").2
      = Outcome.panic ∧
    (demoRequest.ConvertOptions demoParseFloat ["enc", "n"] (heapWith nilThenBadEntries)).2
      = Outcome.panic := by
  decide

/-- C11, amended: for every visiting order of the keys, if some key fails with an error (bad
type, failed conversion or duplicate alias) and every key visited before it passes, the
error returned is the one of that key, every key visited before it holds its converted value
(its own value when it has no definition), every key visited after it holds the value it had
before the call, and the failing key itself holds the value it had before the call when it
failed on its type or its conversion, and its converted value when it failed on the
duplicate check. -/
theorem C11_abort_at_first_failing_key (pf : String → Option Nat) (r : request) (h : Heap)
    (pre post : List String) (k : String) (e : Error)
    (hnodup : (pre ++ k :: post).Nodup)
    (hpass : ∀ j ∈ pre, (visitKey pf r h j).2 = Outcome.nil)
    (hfail : (visitKey pf r h k).2 = Outcome.err e) :
    (r.ConvertOptions pf (pre ++ k :: post) h).2 = Outcome.err e ∧
    (∀ j ∈ pre, ∀ v opt, h.lookup r.options j = some v → r.optionDefs j = some opt →
      (r.ConvertOptions pf (pre ++ k :: post) h).1.lookup r.options j
        = convertedValue pf v opt ∧ convertedValue pf v opt ≠ none) ∧
    (∀ j ∈ pre, r.optionDefs j = none →
      (r.ConvertOptions pf (pre ++ k :: post) h).1.lookup r.options j
        = h.lookup r.options j) ∧
    (∀ j ∈ post,
      (r.ConvertOptions pf (pre ++ k :: post) h).1.lookup r.options j
        = h.lookup r.options j) ∧
    ((∀ a b, e ≠ Error.Duplicate a b) →
      (r.ConvertOptions pf (pre ++ k :: post) h).1.lookup r.options k
        = h.lookup r.options k) ∧
    ((∃ a b, e = Error.Duplicate a b) →
      ∀ v opt, h.lookup r.options k = some v → r.optionDefs k = some opt →
        (r.ConvertOptions pf (pre ++ k :: post) h).1.lookup r.options k
          = convertedValue pf v opt ∧ convertedValue pf v opt ≠ none) := by
  obtain ⟨h1, h2, h3, h4⟩ := convertLoop_first_stop pf r k post (Outcome.err e)
    (by simp) pre h hnodup hpass hfail
  have hkpre : k ∉ pre := fun hc =>
    (List.nodup_append.mp hnodup).2.2 hc (List.mem_cons_self _ _)
  have hkpost : k ∉ post := (List.nodup_cons.mp (List.nodup_append.mp hnodup).2.1).1
  refine ⟨h1, ?_, ?_, ?_, ?_, ?_⟩
  · intro j hj v opt hl hd
    show (convertLoop pf r (pre ++ k :: post) h).1.lookup r.options j = _ ∧ _
    rw [h2 j hj]
    exact (visitKey_value pf r h j v opt hl hd).1 (Or.inl (hpass j hj))
  · intro j hj hd
    show (convertLoop pf r (pre ++ k :: post) h).1.lookup r.options j = _
    rw [h2 j hj, visitKey_undefined pf r h j hd]
  · intro j hj
    have hjpre : j ∉ pre := fun hc =>
      (List.nodup_append.mp hnodup).2.2 hc (List.mem_cons_of_mem _ hj)
    exact h4 j hjpre (fun hc => hkpost (hc ▸ hj))
  · intro hnd
    show (convertLoop pf r (pre ++ k :: post) h).1.lookup r.options k = _
    rw [h3]
    cases hl : h.lookup r.options k with
    | none =>
      have hv : visitKey pf r h k = (h, Outcome.nil) := by
        unfold visitKey; rw [hl]
      rw [hv] at hfail; cases hfail
    | some v =>
      cases hd : r.optionDefs k with
      | none =>
        rw [visitKey_undefined pf r h k hd] at hfail; cases hfail
      | some opt =>
        exact (visitKey_value pf r h k v opt hl hd).2 (by rw [hfail]; simp)
          (fun a b => by rw [hfail]; intro hc; injection hc with hc; exact hnd a b hc)
  · rintro ⟨a, b, hab⟩ v opt hl hd
    show (convertLoop pf r (pre ++ k :: post) h).1.lookup r.options k = _ ∧ _
    rw [h3]
    exact (visitKey_value pf r h k v opt hl hd).1 (Or.inr ⟨a, b, by rw [hfail, hab]⟩)

/-- C11, witness: the keys `enc`, `count` and `n` visited in this order: `enc` passes,
`count` fails on the duplicate check against `n`. -/
theorem C11_abort_at_first_failing_key_witness :
    (demoRequest.ConvertOptions demoParseFloat (["enc"] ++ "count" :: ["n"])
      (heapWith mixedEntries)).2 = Outcome.err (Error.Duplicate "count" "n") ∧
    (∀ j ∈ ["enc"], ∀ v opt, (heapWith mixedEntries).lookup demoRequest.options j = some v →
      demoRequest.optionDefs j = some opt →
      (demoRequest.ConvertOptions demoParseFloat (["enc"] ++ "count" :: ["n"])
        (heapWith mixedEntries)).1.lookup demoRequest.options j
        = convertedValue demoParseFloat v opt ∧ convertedValue demoParseFloat v opt ≠ none) ∧
    (∀ j ∈ ["enc"], demoRequest.optionDefs j = none →
      (demoRequest.ConvertOptions demoParseFloat (["enc"] ++ "count" :: ["n"])
        (heapWith mixedEntries)).1.lookup demoRequest.options j
        = (heapWith mixedEntries).lookup demoRequest.options j) ∧
    (∀ j ∈ ["n"],
      (demoRequest.ConvertOptions demoParseFloat (["enc"] ++ "count" :: ["n"])
        (heapWith mixedEntries)).1.lookup demoRequest.options j
        = (heapWith mixedEntries).lookup demoRequest.options j) ∧
    ((∀ a b, Error.Duplicate "count" "n" ≠ Error.Duplicate a b) →
      (demoRequest.ConvertOptions demoParseFloat (["enc"] ++ "count" :: ["n"])
        (heapWith mixedEntries)).1.lookup demoRequest.options "count"
        = (heapWith mixedEntries).lookup demoRequest.options "count") ∧
    ((∃ a b, Error.Duplicate "count" "n" = Error.Duplicate a b) →
      ∀ v opt, (heapWith mixedEntries).lookup demoRequest.options "count" = some v →
        demoRequest.optionDefs "count" = some opt →
        (demoRequest.ConvertOptions demoParseFloat (["enc"] ++ "count" :: ["n"])
          (heapWith mixedEntries)).1.lookup demoRequest.options "count"
          = convertedValue demoParseFloat v opt ∧
        convertedValue demoParseFloat v opt ≠ none) :=
  C11_abort_at_first_failing_key demoParseFloat demoRequest (heapWith mixedEntries) ["enc"]
    ["n"] "count" (Error.Duplicate "count" "n") (by decide) (by decide) (by decide)

/-! ### C12: `SetOption` and the names of one option -/

theorem firstSet_of_split (h : Heap) (m : OptMap) (n0 : String) (v0 : Value)
    (after : List String) (hn0 : h.lookup m n0 = some v0) :
    ∀ before : List String, (∀ b ∈ before, h.lookup m b = none) →
      firstSet h m (before ++ n0 :: after) = some (n0, v0) := by
  intro before
  induction before with
  | nil => intro _; simp [firstSet, hn0]
  | cons b rest ih =>
    intro hb
    simp only [List.cons_append, firstSet]
    rw [hb b (List.mem_cons_self _ _)]
    exact ih (fun x hx => hb x (List.mem_cons_of_mem _ hx))

theorem setOption_cases (r : request) (h : Heap) (name : String) (val : Value)
    (opt : OptionDef) (hdef : r.optionDefs name = some opt) :
    (∃ n0 v0, firstSet h r.options opt.Names = some (n0, v0) ∧
      r.SetOption h name val = h.store r.options n0 val) ∨
    (firstSet h r.options opt.Names = none ∧
      r.SetOption h name val = h.store r.options name val) := by
  unfold request.SetOption
  rw [hdef]
  simp only
  cases hf : firstSet h r.options opt.Names with
  | none => exact Or.inr ⟨rfl, rfl⟩
  | some nv => exact Or.inl ⟨nv.1, nv.2, rfl, rfl⟩

/-- An assignment to a key that has a value leaves the set of keys of every map. -/
theorem store_present_keys (h h1 : Heap) (m0 : OptMap) (k : String) (val : Value)
    (hp : h.lookup m0 k ≠ none) (hs : h.store m0 k val = some h1) :
    ∀ m k1, h1.lookup m k1 = none ↔ h.lookup m k1 = none := by
  obtain ⟨-, hk, hfr⟩ := store_frame h h1 m0 k val hs
  intro m k1
  by_cases hc : m = m0 ∧ k1 = k
  · obtain ⟨rfl, rfl⟩ := hc
    rw [hk]
    exact ⟨fun hc => (by cases hc), fun hc => absurd hc hp⟩
  · rw [hfr m k1 hc]

theorem atMostOneSet_congr (h h1 : Heap) (m : OptMap) (opt : OptionDef)
    (hkeys : ∀ k, h1.lookup m k = none ↔ h.lookup m k = none)
    (hone : AtMostOneSet h m opt) : AtMostOneSet h1 m opt :=
  fun a ha b hb hsa hsb =>
    hone a ha b hb (fun hc => hsa ((hkeys a).mpr hc)) (fun hc => hsb ((hkeys b).mpr hc))

theorem duplicateAlias_congr (defs : OptionDefs) (h h1 : Heap) (m : OptMap)
    (hkeys : ∀ k, h1.lookup m k = none ↔ h.lookup m k = none)
    (hdup : DuplicateAlias defs h1 m) : DuplicateAlias defs h m := by
  obtain ⟨k, n, opt, hne, hk, hn, hd, hmem⟩ := hdup
  exact ⟨k, n, opt, hne, fun hc => hk ((hkeys k).mpr hc), fun hc => hn ((hkeys n).mpr hc),
    hd, hmem⟩

/-- The error for duplicate names comes only from a map in the duplicate-alias condition. -/
theorem visitKey_duplicate (pf : String → Option Nat) (r : request) (h : Heap) (k : String)
    (a b : String) (hv : (visitKey pf r h k).2 = Outcome.err (Error.Duplicate a b)) :
    DuplicateAlias r.optionDefs h r.options := by
  have hfr := (visitKey_frame pf r h k).1
  unfold visitKey at hv hfr
  cases hl : h.lookup r.options k with
  | none => rw [hl] at hv; cases hv
  | some v =>
    cases hd : r.optionDefs k with
    | none => rw [hl, hd] at hv; cases hv
    | some opt =>
      rw [hl, hd] at hv hfr
      simp only at hv hfr
      rcases convertValue_cases pf r k v opt with ⟨val, -, hcv⟩ | ⟨-, out, hout, hnd, hcv⟩
      · obtain ⟨h1, hs⟩ := store_of_present h r.options k v val hl
        rw [hcv h, hs] at hv hfr
        simp only at hv hfr
        obtain ⟨name, hmem, hne, hset, -⟩ :=
          (checkDuplicates_spec r h1 k opt.Names).2 (by rw [hv]; simp)
        exact ⟨k, name, opt, Ne.symm hne, by rw [hl]; simp,
          fun hc => hset ((hfr r.options name).mpr hc), hd, hmem⟩
      · rw [hcv h] at hv
        cases out with
        | nil => exact absurd rfl hout
        | err e =>
          simp only at hv
          exact absurd hv (hnd a b)
        | panic => simp only at hv; cases hv

theorem convertLoop_duplicate (pf : String → Option Nat) (r : request) (a b : String) :
    ∀ (order : List String) (h : Heap),
      (convertLoop pf r order h).2 = Outcome.err (Error.Duplicate a b) →
      DuplicateAlias r.optionDefs h r.options := by
  intro order
  induction order with
  | nil => intro h hc; simp [convertLoop] at hc
  | cons k rest ih =>
    intro h hc
    rw [convertLoop_cons_visit] at hc
    by_cases hp : (visitKey pf r h k).2 = Outcome.nil
    · rw [if_pos hp] at hc
      exact duplicateAlias_congr r.optionDefs h _ r.options
        (fun n => (visitKey_frame pf r h k).1 r.options n) (ih _ hc)
    · rw [if_neg hp] at hc
      exact visitKey_duplicate pf r h k a b hc

theorem wellFormed_demoDefs : WellFormedDefs demoDefs := by
  intro k opt hk
  unfold demoDefs at hk
  split_ifs at hk with h1 h2 h3
  · cases hk
    refine ⟨by rcases h1 with rfl | rfl <;> decide, ?_⟩
    intro n hn
    simp only [optEncoding, List.mem_cons, List.mem_singleton, List.not_mem_nil,
      or_false] at hn
    rcases hn with rfl | rfl <;> rfl
  · cases hk
    refine ⟨by rcases h2 with rfl | rfl <;> decide, ?_⟩
    intro n hn
    simp only [optRecursive, List.mem_cons, List.mem_singleton, List.not_mem_nil,
      or_false] at hn
    rcases hn with rfl | rfl <;> rfl
  · cases hk
    refine ⟨by rcases h3 with rfl | rfl <;> decide, ?_⟩
    intro n hn
    simp only [optCount, List.mem_cons, List.mem_singleton, List.not_mem_nil,
      or_false] at hn
    rcases hn with rfl | rfl <;> rfl

theorem lookup_heapWith (entries : Entries) (k : String) :
    (heapWith entries).lookup (OptMap.ref 0) k = entries k := by
  simp [Heap.lookup, heapWith]

theorem noDuplicateAlias_demo :
    ¬ DuplicateAlias demoDefs (heapWith demoEntries) (OptMap.ref 0) := by
  rintro ⟨k, n, opt, hne, hk, hn, hd, hmem⟩
  rw [lookup_heapWith] at hk hn
  have hk1 : k = "enc" ∨ k = "n" := by
    unfold demoEntries at hk
    split_ifs at hk with h1 h2
    · exact Or.inl h1
    · exact Or.inr h2
    · exact absurd rfl hk
  have hn1 : n = "enc" ∨ n = "n" := by
    unfold demoEntries at hn
    split_ifs at hn with h1 h2
    · exact Or.inl h1
    · exact Or.inr h2
    · exact absurd rfl hn
  rcases hk1 with rfl | rfl <;> rcases hn1 with rfl | rfl
  · exact hne rfl
  · cases hd; revert hmem; decide
  · cases hd; revert hmem; decide
  · exact hne rfl

theorem noDuplicateAlias_single (defs : OptionDefs) (entries : Entries) (k0 : String)
    (hsingle : ∀ k, entries k ≠ none → k = k0) :
    ¬ DuplicateAlias defs (heapWith entries) (OptMap.ref 0) := by
  rintro ⟨k, n, opt, hne, hk, hn, -, -⟩
  rw [lookup_heapWith] at hk hn
  exact hne ((hsingle k hk).trans (hsingle n hn).symm)

/-- C12, as stated, fails in its last part.  First input: the definitions map `a` to an
option with the single name `a` and `b` to an option with the names `b` and `a`; the map
holds `b` alone and `ConvertOptions` returns nil.  `SetOption("a", "2")` finds no name of
the option of `a` set and adds the key `a`; the map is then in the duplicate-alias condition
and `ConvertOptions` returns the error for the duplicate names `b` and `a`, in both visiting
orders.  Second input: the definitions map `x` to an option with the names `b` and `a`,
which does not list `x`; the map holds `x` alone, and `SetOption("a", "2")` adds `a`. -/
theorem C12_setOption_creates_duplicate_alias :
    (overlapRequest.optionDefs "a" = some optAlone ∧ "a" ∈ optAlone.Names ∧
      ¬ DuplicateAlias overlapRequest.optionDefs (heapWith onlyB) overlapRequest.options ∧
      (overlapRequest.ConvertOptions demoParseFloat ["b"] (heapWith onlyB)).2 = Outcome.nil ∧
      ∃ h1, overlapRequest.SetOption (heapWith onlyB) "a" (Value.string "2") = some h1 ∧
        DuplicateAlias overlapRequest.optionDefs h1 overlapRequest.options ∧
        (overlapRequest.ConvertOptions demoParseFloat ["a", "b"] h1).2
          = Outcome.err (Error.Duplicate "b" "a") ∧
        (overlapRequest.ConvertOptions demoParseFloat ["b", "a"] h1).2
          = Outcome.err (Error.Duplicate "b" "a")) ∧
    (strayRequest.optionDefs "a" = some optPair ∧ "a" ∈ optPair.Names ∧
      ¬ DuplicateAlias strayRequest.optionDefs (heapWith onlyX) strayRequest.options ∧
      (strayRequest.ConvertOptions demoParseFloat ["x"] (heapWith onlyX)).2 = Outcome.nil ∧
      ∃ h1, strayRequest.SetOption (heapWith onlyX) "a" (Value.string "2") = some h1 ∧
        DuplicateAlias strayRequest.optionDefs h1 strayRequest.options ∧
        (strayRequest.ConvertOptions demoParseFloat ["a", "x"] h1).2
          = Outcome.err (Error.Duplicate "x" "a") ∧
        (strayRequest.ConvertOptions demoParseFloat ["x", "a"] h1).2
          = Outcome.err (Error.Duplicate "x" "a")) := by
  refine ⟨⟨by decide, by decide, ?_, by decide, _, rfl, ?_, by decide, by decide⟩,
    ⟨by decide, by decide, ?_, by decide, _, rfl, ?_, by decide, by decide⟩⟩
  · refine noDuplicateAlias_single _ onlyB "b" (fun k hk => ?_)
    unfold onlyB at hk
    split_ifs at hk with h1
    · exact h1
    · exact absurd rfl hk
  · exact ⟨"b", "a", optPair, by decide, by decide, by decide, by decide, by decide⟩
  · refine noDuplicateAlias_single _ onlyX "x" (fun k hk => ?_)
    unfold onlyX at hk
    split_ifs at hk with h1
    · exact h1
    · exact absurd rfl hk
  · exact ⟨"x", "a", optPair, by decide, by decide, by decide, by decide, by decide⟩

/-- C12, amended: for every request, heap, value and name with a definition: SetOption
returns whenever the option map is not nil; if some name of the option has a value, then
SetOption returns, the first such name in Names() order holds the new value, every other
entry of every map is unchanged, and so is the set of keys; if at most one name of the
option was set before the call and name is one of the names of the option, at most one is set
after it; and, provided the definitions map to every option its names, all of them and
nothing else, a map that was not in the duplicate-alias condition is not in it after the
call, and ConvertOptions then returns no error for duplicate names, in any visiting order. -/
theorem C12_setOption_overwrites_alias (r : request) (h : Heap) (name : String)
    (val : Value) (opt : OptionDef) (hdef : r.optionDefs name = some opt) :
    (r.options ≠ OptMap.nil → ∃ h1, r.SetOption h name val = some h1) ∧
    (∀ before n0 after, opt.Names = before ++ n0 :: after →
      (∀ b ∈ before, h.lookup r.options b = none) → h.lookup r.options n0 ≠ none →
      ∃ h1, r.SetOption h name val = some h1 ∧
        h1.lookup r.options n0 = some val ∧
        (∀ m k, ¬ (m = r.options ∧ k = n0) → h1.lookup m k = h.lookup m k) ∧
        (∀ m k, h1.lookup m k = none ↔ h.lookup m k = none)) ∧
    (∀ h1, r.SetOption h name val = some h1 → name ∈ opt.Names →
      AtMostOneSet h r.options opt → AtMostOneSet h1 r.options opt) ∧
    (∀ h1, r.SetOption h name val = some h1 → WellFormedDefs r.optionDefs →
      ¬ DuplicateAlias r.optionDefs h r.options →
      ¬ DuplicateAlias r.optionDefs h1 r.options ∧
      ∀ pf order a b,
        (r.ConvertOptions pf order h1).2 ≠ Outcome.err (Error.Duplicate a b)) := by
  have hcases := setOption_cases r h name val opt hdef
  refine ⟨?_, ?_, ?_, ?_⟩
  · intro hne
    rcases hcases with ⟨n0, v0, -, hs⟩ | ⟨-, hs⟩
    · rw [hs]
      cases hm : r.options with
      | nil => exact absurd hm hne
      | ref a => exact ⟨_, rfl⟩
    · rw [hs]
      cases hm : r.options with
      | nil => exact absurd hm hne
      | ref a => exact ⟨_, rfl⟩
  · intro before n0 after hnames hbefore hn0
    obtain ⟨v0, hv0⟩ := Option.ne_none_iff_exists'.mp hn0
    have hf : firstSet h r.options opt.Names = some (n0, v0) := by
      rw [hnames]
      exact firstSet_of_split h r.options n0 v0 after hv0 before hbefore
    obtain ⟨h1, hs⟩ := store_of_present h r.options n0 v0 val hv0
    have hset : r.SetOption h name val = some h1 := by
      rcases hcases with ⟨n1, v1, hf1, hs1⟩ | ⟨hf1, -⟩
      · rw [hf] at hf1
        simp only [Option.some.injEq, Prod.mk.injEq] at hf1
        rw [hs1, ← hf1.1, hs]
      · rw [hf] at hf1; cases hf1
    obtain ⟨-, hk, hfr⟩ := store_frame h h1 r.options n0 val hs
    exact ⟨h1, hset, hk, hfr, store_present_keys h h1 r.options n0 val hn0 hs⟩
  · intro h1 hset hmem hone
    rcases hcases with ⟨n0, v0, hf, hs⟩ | ⟨hf, hs⟩
    · rw [hs] at hset
      have hn0 : h.lookup r.options n0 ≠ none := by
        rw [(firstSet_some_lookup h r.options opt.Names n0 v0 hf).2]
        exact Option.some_ne_none _
      exact atMostOneSet_congr h h1 r.options opt
        (fun k => store_present_keys h h1 r.options n0 val hn0 hset r.options k) hone
    · rw [hs] at hset
      have hnone := (firstSet_eq_none h r.options opt.Names).mp hf
      obtain ⟨-, -, hfr⟩ := store_frame h h1 r.options name val hset
      have honly : ∀ a ∈ opt.Names, h1.lookup r.options a ≠ none → a = name := by
        intro a ha hsa
        by_contra hne
        rw [hfr r.options a (fun hc => hne hc.2)] at hsa
        exact hsa (hnone a ha)
      intro a ha b hb hsa hsb
      rw [honly a ha hsa, honly b hb hsb]
  · intro h1 hset hwf hbefore
    have hafter : ¬ DuplicateAlias r.optionDefs h1 r.options := by
      rcases hcases with ⟨n0, v0, hf, hs⟩ | ⟨hf, hs⟩
      · rw [hs] at hset
        have hn0 : h.lookup r.options n0 ≠ none := by
          rw [(firstSet_some_lookup h r.options opt.Names n0 v0 hf).2]
          exact Option.some_ne_none _
        exact fun hdup => hbefore (duplicateAlias_congr r.optionDefs h h1 r.options
          (fun k => store_present_keys h h1 r.options n0 val hn0 hset r.options k) hdup)
      · rw [hs] at hset
        have hnone := (firstSet_eq_none h r.options opt.Names).mp hf
        obtain ⟨-, -, hfr⟩ := store_frame h h1 r.options name val hset
        rintro ⟨k, n, opt2, hne, hk, hn, hd, hmem⟩
        by_cases hkn : k = name
        · subst hkn
          rw [hdef] at hd
          cases hd
          rw [hfr r.options n (fun hc => hne hc.2.symm)] at hn
          exact hn (hnone n hmem)
        · rw [hfr r.options k (fun hc => hkn hc.2)] at hk
          by_cases hnn : n = name
          · subst hnn
            have hopt : opt2 = opt := by
              have := (hwf k opt2 hd).2 n hmem
              rw [hdef] at this
              exact (Option.some.inj this).symm
            subst hopt
            exact hk (hnone k (hwf k opt2 hd).1)
          · rw [hfr r.options n (fun hc => hnn hc.2)] at hn
            exact hbefore ⟨k, n, opt2, hne, hk, hn, hd, hmem⟩
    exact ⟨hafter, fun pf order a b hc => hafter (convertLoop_duplicate pf r a b order h1 hc)⟩

/-- C12, witness: the map holds `enc` and `n`; `SetOption("count", 7)` writes over `n`,
the name of the option `count` that is set. -/
theorem C12_setOption_overwrites_alias_witness :
    demoRequest.optionDefs "count" = some optCount ∧
    optCount.Names = ["count"] ++ "n" :: [] ∧
    (∀ b ∈ ["count"], (heapWith demoEntries).lookup demoRequest.options b = none) ∧
    (heapWith demoEntries).lookup demoRequest.options "n" ≠ none ∧
    "count" ∈ optCount.Names ∧
    AtMostOneSet (heapWith demoEntries) demoRequest.options optCount ∧
    WellFormedDefs demoRequest.optionDefs ∧
    ¬ DuplicateAlias demoRequest.optionDefs (heapWith demoEntries) demoRequest.options ∧
    ((demoRequest.options ≠ OptMap.nil →
        ∃ h1, demoRequest.SetOption (heapWith demoEntries) "count" (Value.int 7) = some h1) ∧
      (∀ before n0 after, optCount.Names = before ++ n0 :: after →
        (∀ b ∈ before, (heapWith demoEntries).lookup demoRequest.options b = none) →
        (heapWith demoEntries).lookup demoRequest.options n0 ≠ none →
        ∃ h1, demoRequest.SetOption (heapWith demoEntries) "count" (Value.int 7) = some h1 ∧
          h1.lookup demoRequest.options n0 = some (Value.int 7) ∧
          (∀ m k, ¬ (m = demoRequest.options ∧ k = n0) →
            h1.lookup m k = (heapWith demoEntries).lookup m k) ∧
          (∀ m k, h1.lookup m k = none ↔ (heapWith demoEntries).lookup m k = none)) ∧
      (∀ h1, demoRequest.SetOption (heapWith demoEntries) "count" (Value.int 7) = some h1 →
        "count" ∈ optCount.Names →
        AtMostOneSet (heapWith demoEntries) demoRequest.options optCount →
        AtMostOneSet h1 demoRequest.options optCount) ∧
      (∀ h1, demoRequest.SetOption (heapWith demoEntries) "count" (Value.int 7) = some h1 →
        WellFormedDefs demoRequest.optionDefs →
        ¬ DuplicateAlias demoRequest.optionDefs (heapWith demoEntries) demoRequest.options →
        ¬ DuplicateAlias demoRequest.optionDefs h1 demoRequest.options ∧
        ∀ pf order a b,
          (demoRequest.ConvertOptions pf order h1).2
            ≠ Outcome.err (Error.Duplicate a b))) :=
  ⟨by decide, by decide, by decide, by decide, by decide,
    by unfold AtMostOneSet; decide, wellFormed_demoDefs, noDuplicateAlias_demo,
    C12_setOption_overwrites_alias demoRequest (heapWith demoEntries) "count" (Value.int 7)
      optCount (by decide)⟩

end commands
